import Mathlib

/-!
# GSEA: run-length block codec and Vigenère region cipher

Shallow embedding of `src/compressor.c`, `src/encryptor.c`, and of the file and directory
operations of `src/file_manager.c` and the operation pipelines of `src/main.c`.

Modelling conventions
* A byte (`uint8_t`) is a `Fin 256`; `size_t`, `off_t` and `uint32_t` values are
  natural numbers, reduced explicitly where the C code narrows them.
* A file descriptor opened for reading is the list of bytes still unread; a file
  descriptor opened for writing is the list of bytes written so far.  System calls
  never fail (`read`/`write` never return a negative value) and `read` on a regular
  file returns `min count remaining` bytes.
* `malloc`/`realloc`/`calloc` succeed.  A C buffer is the list of bytes written to it; its
  capacity is not part of the model, and a statement about a capacity is a bound on the
  length of such a list.
* A `while`/`for(;;)` loop is a function by structural recursion on a fuel argument;
  running out of fuel is the distinguished result `none`, never a status of the program.
  The two scans that the source bounds by 128 (`scanRun`, `growLiteral`) get 128 units of
  fuel and return their counter; `scanRun_exit` and `growLiteral_exit` show that they stop
  because the loop condition fails (or the `break` fires), not because fuel ran out.
* A `for` loop with a known trip count is a fold over the indices or a recursion on the
  number of iterations left.
-/

namespace GSEA

/-- One `uint8_t`. -/
abbrev Byte := Fin 256

deriving instance DecidableEq for Except

/-- Narrowing conversion `(uint8_t)x`. -/
def toByte (x : Nat) : Byte := ⟨x % 256, Nat.mod_lt x (by decide)⟩

/-- `RLE2_BLOCK_SIZE` of `compressor.h`. -/
def RLE2_BLOCK_SIZE : Nat := 64 * 1024

/-- `RLE2_RUN_THRESHOLD` of `compressor.h`. -/
def RLE2_RUN_THRESHOLD : Int := 3

/-- Conversion `(size_t)k` of an `int` on a 64-bit target. -/
def sizeOfInt (k : Int) : Nat := (k % 2 ^ 64).toNat

/-! ## `compressor.c`: the PackBits run transform -/

/-- The scan `while (base + r < n && in[base + r] == in[base] && r < 128) r++;`
used three times by `packbits_encode_threshold`.  At most 128 iterations. -/
def scanRun (inb : List Byte) (base : Nat) : Nat → Nat → Nat
  | 0, r => r
  | fuel + 1, r =>
    if base + r < inb.length ∧ inb.getD (base + r) 0 = inb.getD base 0 ∧ r < 128 then
      scanRun inb base fuel (r + 1)
    else r

/-- The loop `while (run > 0) { ... }` of `packbits_encode_threshold` (lines 90-110):
emits run packets, state `(i, run, out)`; returns `(i, out)` on exit. -/
def flushRuns (inb : List Byte) (k : Nat) :
    Nat → Nat → Nat → List Byte → Option (Nat × List Byte)
  | 0, _, _, _ => none
  | fuel + 1, i, run, out =>
    if run > 0 then
      let chunk := if run > 128 then 128 else run
      let ctrl : Byte := toByte (0x80 ||| (toByte (chunk - 1)).val)
      let out1 := out ++ [ctrl, inb.getD i 0]
      let i1 := i + chunk
      let run1 := run - chunk
      let run2 :=
        if run1 = 0 then
          let more := scanRun inb i1 128 0
          if more ≥ k then more else run1
        else run1
      flushRuns inb k fuel i1 run2 out1
    else some (i, out)

/-- The loop `while (i + lit_len < n && lit_len < 128) { ... }` (lines 119-132):
grows a literal packet until a run of at least `k` bytes would start. -/
def growLiteral (inb : List Byte) (k : Nat) (i : Nat) : Nat → Nat → Nat
  | 0, lit_len => lit_len
  | fuel + 1, lit_len =>
    if i + lit_len < inb.length ∧ lit_len < 128 then
      let r := scanRun inb (i + lit_len) 128 1
      if r ≥ k then lit_len else growLiteral inb k i fuel (lit_len + 1)
    else lit_len

/-- The outer loop `while (i < n)` of `packbits_encode_threshold`, state `(i, out)`. -/
def encodeLoop (inb : List Byte) (k : Nat) : Nat → Nat → List Byte → Option (List Byte)
  | 0, _, _ => none
  | fuel + 1, i, out =>
    if i < inb.length then
      let run := scanRun inb i 128 1
      if run ≥ k then
        match flushRuns inb k (inb.length + 1) i run out with
        | none => none
        | some (i1, out1) => encodeLoop inb k fuel i1 out1
      else
        let lit_start := i
        let lit_len := growLiteral inb k i 128 1
        let ctrl : Byte := toByte (lit_len - 1)
        let out1 := out ++ [ctrl] ++ (inb.drop lit_start).take lit_len
        encodeLoop inb k fuel (i + lit_len) out1
    else some out

/-- `packbits_encode_threshold(in, n, out, k_min_run)`: the `o` bytes written to `out`. -/
def packbits_encode_threshold (inb : List Byte) (k_min_run : Int) : Option (List Byte) :=
  encodeLoop inb (sizeOfInt k_min_run) (inb.length + 1) 0 []

/-- The loop of `packbits_decode`, state `(i, out)`; `Except.error 1` is `return 1`. -/
def decodeLoop (inb : List Byte) : Nat → Nat → List Byte → Option (Except Nat (List Byte))
  | 0, _, _ => none
  | fuel + 1, i, out =>
    if i < inb.length then
      let ctrl := inb.getD i 0
      let i1 := i + 1
      if ctrl.val &&& 0x80 = 0 then
        let len := ctrl.val + 1
        if i1 + len > inb.length then some (Except.error 1)
        else decodeLoop inb fuel (i1 + len) (out ++ (inb.drop i1).take len)
      else
        let len := (ctrl.val &&& 0x7F) + 1
        if i1 ≥ inb.length then some (Except.error 1)
        else
          let val := inb.getD i1 0
          decodeLoop inb fuel (i1 + 1) (out ++ List.replicate len val)
    else some (Except.ok out)

/-- `packbits_decode(in, n, out, &out_len)`: `Except.ok` carries the `out_len` bytes
written on `return 0`; `Except.error 1` is `return 1`. -/
def packbits_decode (inb : List Byte) : Option (Except Nat (List Byte)) :=
  decodeLoop inb (inb.length + 1) 0 []

/-! ## `compressor.c`: the block codec -/

/-- `read(fd, buf, count)` on a regular file: the bytes delivered (at most `count`,
fewer only at end of file) and the bytes left unread. -/
def sysRead (fd : List Byte) (count : Nat) : List Byte × List Byte :=
  (fd.take count, fd.drop count)

/-- The loop of `read_all(fd, buf, n)`, state `(off, buf)`: result `(status, buf, fd)`. -/
def readAllLoop (n : Nat) :
    Nat → List Byte → Nat → List Byte → Option (Nat × List Byte × List Byte)
  | 0, _, _, _ => none
  | fuel + 1, fd, off, buf =>
    if off < n then
      let r := sysRead fd (n - off)
      if r.1.length = 0 then some (1, buf, r.2)
      else readAllLoop n fuel r.2 (off + r.1.length) (buf ++ r.1)
    else some (0, buf, fd)

/-- `read_all(fd, buf, n)`: status 0 with `n` bytes, or status 1 when end of file comes
before `n` bytes.  The third component is the descriptor after the call. -/
def read_all (fd : List Byte) (n : Nat) : Option (Nat × List Byte × List Byte) :=
  readAllLoop n (n + 1) fd 0 []

/-- `u32le_write(out, v)`. -/
def u32le_write (v : Nat) : List Byte :=
  [toByte (v &&& 0xFF), toByte ((v >>> 8) &&& 0xFF), toByte ((v >>> 16) &&& 0xFF),
    toByte ((v >>> 24) &&& 0xFF)]

/-- `u32le_read(in)`. -/
def u32le_read (b : List Byte) : Nat :=
  (b.getD 0 0).val ||| ((b.getD 1 0).val <<< 8) ||| ((b.getD 2 0).val <<< 16)
    ||| ((b.getD 3 0).val <<< 24)

/-- `RLE2_MAGIC`: the bytes 'R','L','E','2',0,0,0,0. -/
def RLE2_MAGIC : List Byte := [0x52, 0x4C, 0x45, 0x32, 0, 0, 0, 0]

/-- The `for (;;)` loop of `rle2_compress_stream`: `fd_in` is the unread input, `fd_out`
the bytes written so far; the result is `(return status, bytes written)`. -/
def compressLoop : Nat → List Byte → List Byte → Option (Nat × List Byte)
  | 0, _, _ => none
  | fuel + 1, fd_in, fd_out =>
    let r := sysRead fd_in RLE2_BLOCK_SIZE
    let inbuf := r.1
    if inbuf.length = 0 then some (0, fd_out)
    else
      let in_n := inbuf.length
      match packbits_encode_threshold inbuf RLE2_RUN_THRESHOLD with
      | none => none
      | some rlebuf =>
        let enc_n := rlebuf.length
        let tag : Byte := if enc_n ≥ in_n then 0x00 else 0x01
        let payload := if enc_n ≥ in_n then inbuf else rlebuf
        let paylen := if enc_n ≥ in_n then in_n % 2 ^ 32 else enc_n % 2 ^ 32
        let header := tag :: u32le_write paylen
        compressLoop fuel r.2 (fd_out ++ header ++ payload.take paylen)

/-- `rle2_compress_stream(fd_in, fd_out)`: `(return status, bytes written to fd_out)`. -/
def rle2_compress_stream (fd_in : List Byte) : Option (Nat × List Byte) :=
  compressLoop (fd_in.length + 1) fd_in RLE2_MAGIC

/-- The `for (;;)` loop of `rle2_decompress_stream`. -/
def decompressLoop : Nat → List Byte → List Byte → Option (Nat × List Byte)
  | 0, _, _ => none
  | fuel + 1, fd_in, fd_out =>
    match read_all fd_in 5 with
    | none => none
    | some (rc, blk_hdr, fd1) =>
      if rc ≠ 0 then
        if rc = 1 then some (0, fd_out) else some (2, fd_out)
      else
        let tag := blk_hdr.getD 0 0
        let paylen := u32le_read (blk_hdr.drop 1)
        if paylen = 0 then decompressLoop fuel fd1 fd_out
        else
          match read_all fd1 paylen with
          | none => none
          | some (rc2, inbuf, fd2) =>
            if rc2 ≠ 0 then some (4, fd_out)
            else if tag = 0x00 then decompressLoop fuel fd2 (fd_out ++ inbuf.take paylen)
            else if tag = 0x01 then
              match packbits_decode (inbuf.take paylen) with
              | none => none
              | some (Except.error _) => some (6, fd_out)
              | some (Except.ok outbuf) => decompressLoop fuel fd2 (fd_out ++ outbuf)
            else some (8, fd_out)

/-- `rle2_decompress_stream(fd_in, fd_out)`: `(return status, bytes written to fd_out)`. -/
def rle2_decompress_stream (fd_in : List Byte) : Option (Nat × List Byte) :=
  match read_all fd_in 8 with
  | none => none
  | some (rc, hdr, fd1) =>
    if rc ≠ 0 then some (1, [])
    else if hdr ≠ RLE2_MAGIC then some (1, [])
    else decompressLoop (fd1.length + 1) fd1 []

/-! ## `encryptor.c`: the Vigenère cipher -/

/-- `VIGENERE_BLOCK_SIZE` of `encryptor.h`. -/
def VIGENERE_BLOCK_SIZE : Nat := 64 * 1024

/-- `MAX_CRYPTO_THREADS` of `encryptor.h`. -/
def MAX_CRYPTO_THREADS : Nat := 8

/-- `PARALLEL_FILE_THRESHOLD` of `encryptor.c`. -/
def PARALLEL_FILE_THRESHOLD : Nat := 1 * 1024 * 1024

/-- The `int` value of a plain `char` holding the byte `b`; `signedChar` tells whether
plain `char` is signed on the target. -/
def charToInt (signedChar : Bool) (b : Byte) : Int :=
  if signedChar = true ∧ 128 ≤ b.val then (b.val : Int) - 256 else (b.val : Int)

/-- The conversion `(uint8_t)(x & 0xFF)` of an `int` (two's complement). -/
def intToByte (x : Int) : Byte :=
  ⟨(x % 256).toNat, by
    have h1 := Int.emod_nonneg x (by decide : (256 : Int) ≠ 0)
    have h2 := Int.emod_lt_of_pos x (by decide : (0 : Int) < 256)
    omega⟩

/-- `vigenere_process_block(data, len, key, key_len, encrypt)` with `len` the length of
`data` and `key_len` the length of `key`: the `for` loop over `i = 0 .. len-1`, each
iteration storing into `data[i]`. -/
def vigenere_process_block (signedChar : Bool) (data key : List Byte) (encrypt : Bool) :
    List Byte :=
  (List.range data.length).foldl
    (fun d i =>
      let k := charToInt signedChar (key.getD (i % key.length) 0)
      if encrypt = true then d.set i (intToByte (((d.getD i 0).val : Int) + k))
      else d.set i (intToByte (((d.getD i 0).val : Int) - k)))
    data

/-- The `for (;;)` loop of `vigenere_process_stream`: `(return status, bytes written)`. -/
def streamLoop (signedChar : Bool) (key : List Byte) (encrypt : Bool) :
    Nat → List Byte → List Byte → Option (Nat × List Byte)
  | 0, _, _ => none
  | fuel + 1, fd_in, fd_out =>
    let r := sysRead fd_in VIGENERE_BLOCK_SIZE
    if r.1.length = 0 then some (0, fd_out)
    else streamLoop signedChar key encrypt fuel r.2
      (fd_out ++ vigenere_process_block signedChar r.1 key encrypt)

/-- `vigenere_process_stream(fd_in, fd_out, key, encrypt)`; the key is the list of bytes
before the terminating NUL. -/
def vigenere_process_stream (signedChar : Bool) (fd_in key : List Byte) (encrypt : Bool) :
    Option (Nat × List Byte) :=
  if key = [] then some (1, [])
  else streamLoop signedChar key encrypt (fd_in.length + 1) fd_in []

/-- `vigenere_encrypt_stream`. -/
def vigenere_encrypt_stream (signedChar : Bool) (fd_in key : List Byte) :
    Option (Nat × List Byte) :=
  vigenere_process_stream signedChar fd_in key true

/-- `vigenere_decrypt_stream`. -/
def vigenere_decrypt_stream (signedChar : Bool) (fd_in key : List Byte) :
    Option (Nat × List Byte) :=
  vigenere_process_stream signedChar fd_in key false

/-- The fields of `FileBlockTask` that describe a region. -/
structure FileBlockTask where
  offset : Nat
  length : Nat
  deriving DecidableEq, Repr

/-- `pread(fd, buf, count, pos)` on a regular file: the bytes delivered. -/
def sysPread (file : List Byte) (count pos : Nat) : List Byte :=
  (file.drop pos).take count

/-- `pwrite(fd, buf, count, pos)` with `count` the length of `buf`: the file afterwards
(a write beyond the end extends the file, the gap reading as zeros). -/
def sysPwrite (file buf : List Byte) (pos : Nat) : List Byte :=
  let padded := file ++ List.replicate (pos - file.length) 0
  padded.take pos ++ buf ++ padded.drop (pos + buf.length)

/-- The loop `while (remaining > 0)` of `thread_vigenere_block`, state
`(pos, remaining, output file)`: result `(t->rc, output file)`. -/
def threadLoop (signedChar : Bool) (src key : List Byte) (encrypt : Bool) :
    Nat → Nat → Nat → List Byte → Option (Nat × List Byte)
  | 0, _, _, _ => none
  | fuel + 1, pos, remaining, dst =>
    if remaining > 0 then
      let to_read := if remaining > VIGENERE_BLOCK_SIZE then VIGENERE_BLOCK_SIZE else remaining
      let buf := sysPread src to_read pos
      let r := buf.length
      if r = 0 then some (3, dst)
      else
        let dst1 := sysPwrite dst (vigenere_process_block signedChar buf key encrypt) pos
        threadLoop signedChar src key encrypt fuel (pos + r) (remaining - r) dst1
    else some (0, dst)

/-- `thread_vigenere_block(t)`: the worker of one region. -/
def thread_vigenere_block (signedChar : Bool) (src key : List Byte) (encrypt : Bool)
    (t : FileBlockTask) (dst : List Byte) : Option (Nat × List Byte) :=
  threadLoop signedChar src key encrypt (t.length + 1) t.offset t.length dst

/-- The partition loop `for (long i = 0; i < nthreads; i++)` of `vigenere_file_parallel`
(lines 293-321), `cnt` being the iterations left; every `pthread_create` succeeds. -/
def taskLoop (filesize chunk : Nat) : Nat → Nat → List FileBlockTask
  | 0, _ => []
  | cnt + 1, i =>
    let offset := i * chunk
    if offset ≥ filesize then []
    else
      let end_ := if offset + chunk > filesize then filesize else offset + chunk
      ⟨offset, end_ - offset⟩ :: taskLoop filesize chunk cnt (i + 1)

/-- The regions `vigenere_file_parallel` builds for a file of `filesize` bytes and
`nthreads` workers: `chunk = (filesize + nthreads - 1) / nthreads`, then the partition loop. -/
def fileRegions (filesize nthreads : Nat) : List FileBlockTask :=
  taskLoop filesize ((filesize + nthreads - 1) / nthreads) nthreads 0

/-- The workers of all regions.  The regions are disjoint and the input is only read, so
the workers are run one after the other, in region order: `(codes t->rc, output file)`. -/
def runTasks (signedChar : Bool) (src key : List Byte) (encrypt : Bool) :
    List FileBlockTask → List Byte → Option (List Nat × List Byte)
  | [], dst => some ([], dst)
  | t :: ts, dst =>
    match thread_vigenere_block signedChar src key encrypt t dst with
    | none => none
    | some (rc, dst1) =>
      match runTasks signedChar src key encrypt ts dst1 with
      | none => none
      | some (rcs, dst2) => some (rc :: rcs, dst2)

/-- The join loop (lines 323-329): `final_rc` is the first non-zero worker code. -/
def joinAll (rcs : List Nat) : Nat :=
  rcs.foldl (fun final_rc rc => if rc ≠ 0 ∧ final_rc = 0 then rc else final_rc) 0

/-- Lines 253-257 of `vigenere_file_parallel`: `nproc` clamped to `1 .. MAX_CRYPTO_THREADS`. -/
def clampNproc (nprocOnline : Int) : Int :=
  let nproc1 : Int := if nprocOnline < 1 then 1 else nprocOnline
  if nproc1 > (MAX_CRYPTO_THREADS : Int) then (MAX_CRYPTO_THREADS : Int) else nproc1

/-- `vigenere_file_parallel(src, dest, key, encrypt)`: `src` is the content of the source
file, `nprocOnline` the value of `sysconf(_SC_NPROCESSORS_ONLN)`.  The result is the
return status and the content of the destination file, `none` when the destination has
not been opened. -/
def vigenere_file_parallel (signedChar : Bool) (nprocOnline : Int) (src key : List Byte)
    (encrypt : Bool) : Option (Nat × Option (List Byte)) :=
  if key = [] then some (1, none)
  else
    let filesize := src.length
    let nproc := clampNproc nprocOnline
    if filesize = 0 ∨ filesize < PARALLEL_FILE_THRESHOLD ∨ nproc = 1 then
      match vigenere_process_stream signedChar src key encrypt with
      | none => none
      | some (rc, out) => some (rc, some out)
    else
      let dst0 : List Byte := List.replicate filesize 0
      let nthreads := nproc.toNat
      match runTasks signedChar src key encrypt (fileRegions filesize nthreads) dst0 with
      | none => none
      | some (rcs, dst) => some (joinAll rcs, some dst)

/-- `encrypt_file(src, dest, key)`. -/
def encrypt_file (signedChar : Bool) (nprocOnline : Int) (src key : List Byte) :
    Option (Nat × Option (List Byte)) :=
  vigenere_file_parallel signedChar nprocOnline src key true

/-- `decrypt_file(src, dest, key)`. -/
def decrypt_file (signedChar : Bool) (nprocOnline : Int) (src key : List Byte) :
    Option (Nat × Option (List Byte)) :=
  vigenere_file_parallel signedChar nprocOnline src key false

/-! ## `file_manager.c` and `encryptor.c`: the directory operations

A directory is the list of entries `readdir` returns, in that order.  Worker threads work
on different files, so a worker is represented by the status its per-file operation
returns; `malloc`, `strdup` and `pthread_create` succeed and paths fit `PATH_MAX`. -/

/-- What `stat()` reports for a path; `stat()` follows symbolic links. -/
inductive StatKind where
  | regular
  | directory
  | other
  deriving DecidableEq, Repr

/-- One entry of a directory: its name, whether the entry itself is a symbolic link (the
code never asks), the result of `stat()` on its path (`none` when `stat()` fails, for
instance on a dangling link) and the content of the file the path resolves to. -/
structure DirEntry where
  d_name : List Char
  isSymlink : Bool
  stat : Option StatKind
  content : List Byte
  deriving DecidableEq, Repr

/-- The fields of `ThreadTask` that name the files (relative to the source and the
destination directory) and the thread. -/
structure ThreadTask where
  input_name : List Char
  output_name : List Char
  thread_id : Nat
  deriving DecidableEq, Repr

/-- The `readdir` loop of `compress_directory_rle` (`MAX_THREADS = 8`), state
`(thread_count, next_thread_id, tasks started so far)`. -/
def compressDirLoop : List DirEntry → Nat → Nat → List ThreadTask → List ThreadTask
  | [], _, _, started => started
  | e :: es, thread_count, next_thread_id, started =>
    if e.d_name = ['.'] ∨ e.d_name = ['.', '.'] then
      compressDirLoop es thread_count next_thread_id started
    else
      match e.stat with
      | none => compressDirLoop es thread_count next_thread_id started
      | some kind =>
        if kind ≠ StatKind.regular then compressDirLoop es thread_count next_thread_id started
        else
          let task : ThreadTask :=
            ⟨e.d_name, e.d_name ++ ['.', 'r', 'l', 'e'], next_thread_id⟩
          let thread_count1 := thread_count + 1
          let thread_count2 := if thread_count1 ≥ 8 then 0 else thread_count1
          compressDirLoop es thread_count2 (next_thread_id + 1) (started ++ [task])

/-- `compress_directory_rle(src_dir, dest_dir)`: the return status and the tasks started.
`srcOpens` tells whether `opendir` succeeds, `destExists` whether `stat(dest_dir)`
succeeds, `mkdirOk` whether `mkdir` succeeds or fails with `EEXIST`.  The status a worker
gets from `compress_file_rle` is only logged. -/
def compress_directory_rle (srcOpens destExists mkdirOk : Bool) (entries : List DirEntry) :
    Nat × List ThreadTask :=
  if srcOpens = false then (1, [])
  else if destExists = false ∧ mkdirOk = false then (1, [])
  else (0, compressDirLoop entries 0 1 [])

/-- `make_output_name_from_rle(name, out, outsz)` for a name that fits the buffer. -/
def make_output_name_from_rle (name : List Char) : List Char :=
  if name.length ≥ 4 ∧ name.drop (name.length - 4) = ['.', 'r', 'l', 'e'] then
    name.take (name.length - 4)
  else name ++ ['.', 'o', 'u', 't']

/-- The `readdir` loop of `decompress_directory_rle` (`MAX_THREADS = 64`). -/
def decompressDirLoop : List DirEntry → Nat → Nat → List ThreadTask → List ThreadTask
  | [], _, _, started => started
  | e :: es, thread_count, next_thread_id, started =>
    if e.d_name = ['.'] ∨ e.d_name = ['.', '.'] then
      decompressDirLoop es thread_count next_thread_id started
    else if ¬ (e.d_name.length ≥ 4 ∧
        e.d_name.drop (e.d_name.length - 4) = ['.', 'r', 'l', 'e']) then
      decompressDirLoop es thread_count next_thread_id started
    else
      match e.stat with
      | none => decompressDirLoop es thread_count next_thread_id started
      | some kind =>
        if kind ≠ StatKind.regular then
          decompressDirLoop es thread_count next_thread_id started
        else
          let task : ThreadTask :=
            ⟨e.d_name, make_output_name_from_rle e.d_name, next_thread_id⟩
          let thread_count1 := thread_count + 1
          let thread_count2 := if thread_count1 ≥ 64 then 0 else thread_count1
          decompressDirLoop es thread_count2 (next_thread_id + 1) (started ++ [task])

/-- `decompress_directory_rle(src_dir, dest_dir)`: the return status and the tasks started. -/
def decompress_directory_rle (srcOpens destExists mkdirOk : Bool) (entries : List DirEntry) :
    Nat × List ThreadTask :=
  if srcOpens = false then (1, [])
  else if destExists = false ∧ mkdirOk = false then (1, [])
  else (0, decompressDirLoop entries 0 1 [])

/-- The join loop of `process_directory` over the results of a batch:
`if (thread_data[i].result != 0) return_code = thread_data[i].result;`. -/
def joinBatch (results : List Nat) (return_code : Nat) : Nat :=
  results.foldl (fun rc result => if result ≠ 0 then result else rc) return_code

/-- The `readdir` loop of `process_directory` with the final join loop, state
`(results of the threads of the current batch, return_code, entries started so far)`;
`worker e` is the status of `encrypt_file` or `decrypt_file` on the entry. -/
def processDirLoop (worker : DirEntry → Option Nat) :
    List DirEntry → List Nat → Nat → List DirEntry → Option (Nat × List DirEntry)
  | [], batch, return_code, started => some (joinBatch batch return_code, started)
  | e :: es, batch, return_code, started =>
    if e.d_name.head? = some '.' then processDirLoop worker es batch return_code started
    else
      match e.stat with
      | none => processDirLoop worker es batch return_code started
      | some kind =>
        if kind ≠ StatKind.regular then processDirLoop worker es batch return_code started
        else
          match worker e with
          | none => none
          | some result =>
            let batch1 := batch ++ [result]
            if batch1.length = MAX_CRYPTO_THREADS then
              processDirLoop worker es [] (joinBatch batch1 return_code) (started ++ [e])
            else processDirLoop worker es batch1 return_code (started ++ [e])

/-- `process_directory(src_dir, dest_dir, key, encrypt)`: the return status and the entries
a thread was started for.  The result of `mkdir(dest_dir)` is not looked at. -/
def process_directory (worker : DirEntry → Option Nat) (srcOpens : Bool)
    (entries : List DirEntry) : Option (Nat × List DirEntry) :=
  if srcOpens = false then some (1, [])
  else processDirLoop worker entries [] 0 []

/-- `encrypt_directory(src_dir, dest_dir, key)`: each thread runs `encrypt_file`. -/
def encrypt_directory (signedChar : Bool) (nprocOnline : Int) (srcOpens : Bool)
    (entries : List DirEntry) (key : List Byte) : Option (Nat × List DirEntry) :=
  process_directory
    (fun e => (encrypt_file signedChar nprocOnline e.content key).map (fun r => r.1))
    srcOpens entries

/-- `decrypt_directory(src_dir, dest_dir, key)`: each thread runs `decrypt_file`. -/
def decrypt_directory (signedChar : Bool) (nprocOnline : Int) (srcOpens : Bool)
    (entries : List DirEntry) (key : List Byte) : Option (Nat × List DirEntry) :=
  process_directory
    (fun e => (decrypt_file signedChar nprocOnline e.content key).map (fun r => r.1))
    srcOpens entries

/-! ## `file_manager.c` and `main.c`: single-file operations and the operation pipelines

A path is represented by the content of the file it names, `none` when there is no such
file.  The input path names a regular file; every `open` of an existing file and every
creation of an output file succeeds. -/

/-- `compress_file_rle(src, dest)`: the return status and the content of `dest`. -/
def compress_file_rle (src : List Byte) : Option (Nat × Option (List Byte)) :=
  match rle2_compress_stream src with
  | none => none
  | some (rc, out) => some (rc, some out)

/-- `decompress_file_rle(src, dest)`: `dest` is created first, then 8 bytes are read; a
short read or a header other than the 8 bytes of `RLE2_MAGIC` gives status 1, otherwise
the descriptor is rewound and handed to `rle2_decompress_stream`. -/
def decompress_file_rle (src : List Byte) : Option (Nat × Option (List Byte)) :=
  let hdr := (sysRead src 8).1
  if hdr.length ≠ 8 then some (1, some [])
  else if hdr = RLE2_MAGIC then
    match rle2_decompress_stream src with
    | none => none
    | some (rc, out) => some (rc, some out)
  else some (1, some [])

/-- `has_flag(ops, f)` of `main.c` for a non-NULL `ops`: `strchr(ops, f) != NULL`. -/
def has_flag (ops : List Char) (f : Char) : Bool := decide (f ∈ ops)

/-- One of the plain operations of `main` (lines 230-348): when its flag is set the
operation runs from the input to the final output, and a non-zero status ends the program
with that status.  `cur` is the final output as it is before the step, `next` the rest of
the program. -/
def plainStep (flag : Bool) (op : Option (Nat × Option (List Byte)))
    (cur : Option (List Byte))
    (next : Option (List Byte) → Option (Nat × Option (List Byte))) :
    Option (Nat × Option (List Byte)) :=
  if flag = true then
    match op with
    | none => none
    | some (rc, out) =>
      let cur1 := match out with
        | none => cur
        | some o => some o
      if rc ≠ 0 then some (rc, cur1) else next cur1
  else next cur

/-- `main` after `parse_arguments` has succeeded, for an input path that names a regular
file with content `input`: `operation` is `options.operation`, `key` is `options.key`
(`none` for NULL).  The result is the exit status and the content of the output path,
`none` when the program has not created it.  The temporary file of the two pipelines is
the intermediate value `temp`; the `_with_report` variants that `main` calls return the
status of the functions they wrap. -/
def main (signedChar : Bool) (nprocOnline : Int) (operation : List Char)
    (key : Option (List Byte)) (input : List Byte) : Option (Nat × Option (List Byte)) :=
  let do_compress := has_flag operation 'c'
  let do_decompress := has_flag operation 'd'
  let do_encrypt := has_flag operation 'e'
  let do_decrypt := has_flag operation 'u'
  if do_decrypt = true ∧ do_decompress = true then
    -- lines 55-139: decrypt to the temporary file, then decompress it to the final output
    match key with
    | none => some (2, none)
    | some k =>
      match decrypt_file signedChar nprocOnline input k with
      | none => none
      | some (rc, temp) =>
        if rc ≠ 0 then some (rc, none)
        else
          match temp with
          | none => some (1, none)
          | some t =>
            match decompress_file_rle t with
            | none => none
            | some (rc2, out) => if rc2 ≠ 0 then some (rc2, out) else some (0, out)
  else if do_compress = true ∧ do_encrypt = true then
    -- lines 140-226: compress to the temporary file, then encrypt it to the final output
    match compress_file_rle input with
    | none => none
    | some (rc, temp) =>
      if rc ≠ 0 then some (rc, none)
      else
        match key with
        | none => some (2, none)
        | some k =>
          match temp with
          | none => some (1, none)
          | some t =>
            match encrypt_file signedChar nprocOnline t k with
            | none => none
            | some (rc2, out) => if rc2 ≠ 0 then some (rc2, out) else some (0, out)
  else
    -- lines 227-349: the plain operations, each from the input to the final output
    plainStep do_compress (compress_file_rle input) none fun cur1 =>
    plainStep do_decompress (decompress_file_rle input) cur1 fun cur2 =>
    plainStep do_encrypt
      (match key with
        | none => some (2, none)
        | some k => encrypt_file signedChar nprocOnline input k) cur2 fun cur3 =>
    plainStep do_decrypt
      (match key with
        | none => some (2, none)
        | some k => decrypt_file signedChar nprocOnline input k) cur3 fun cur4 =>
    if do_compress = false ∧ do_decompress = false ∧ do_encrypt = false ∧ do_decrypt = false
    then some (1, cur4)
    else some (0, cur4)

/-! ## The PackBits packet format, as the specification words it -/

/-- A packet of the run-transform output: a control byte followed either by the
literal bytes it announces or by the one value byte of a run. -/
inductive Packet where
  | literal (ctrl : Byte) (bytes : List Byte)
  | run (ctrl : Byte) (val : Byte)
  deriving DecidableEq, Repr

/-- A literal packet has the high bit of its control byte clear and carries
`ctrl + 1` bytes; a run packet has the high bit set. -/
def Packet.WellFormed : Packet → Prop
  | Packet.literal c bs => c.val &&& 0x80 = 0 ∧ bs.length = c.val + 1
  | Packet.run c _ => c.val &&& 0x80 ≠ 0

/-- The bytes of a packet on the wire. -/
def Packet.wire : Packet → List Byte
  | Packet.literal c bs => c :: bs
  | Packet.run c v => [c, v]

/-- The bytes a packet stands for: the literals, or `(ctrl & 0x7F) + 1` copies of the value. -/
def Packet.expand : Packet → List Byte
  | Packet.literal _ bs => bs
  | Packet.run c v => List.replicate ((c.val &&& 0x7F) + 1) v

/-- Reference decoder input that is a sequence of well-formed packets. -/
def wireOf (ps : List Packet) : List Byte := ps.flatMap Packet.wire

/-- Reference decoder output: the concatenation of the packet expansions. -/
def expandOf (ps : List Packet) : List Byte := ps.flatMap Packet.expand

/-- Malformed input: after a sequence of well-formed packets comes a control byte `c`
that announces a literal longer than the remaining input, or a run whose value byte
is missing. -/
def Malformed (inb : List Byte) : Prop :=
  ∃ (ps : List Packet) (c : Byte) (tail : List Byte),
    (∀ p ∈ ps, p.WellFormed) ∧ inb = wireOf ps ++ c :: tail ∧
    ((c.val &&& 0x80 = 0 ∧ tail.length < c.val + 1) ∨ (c.val &&& 0x80 ≠ 0 ∧ tail = []))

/-! ## The block format, as the specification words it -/

/-- A block of the compressed stream: a tag byte and a payload. -/
structure Block where
  tag : Byte
  payload : List Byte
  deriving DecidableEq, Repr

/-- The bytes of a block: tag, payload length as 4 little-endian bytes, payload. -/
def Block.wire (b : Block) : List Byte :=
  b.tag :: u32le_write b.payload.length ++ b.payload

/-- A valid block: the length fits 32 bits, the tag is RAW (0x00) or RUN (0x01), and a
RUN payload is decodable. -/
def Block.Valid (b : Block) : Prop :=
  b.payload.length < 2 ^ 32 ∧
    (b.tag = 0x00 ∨ (b.tag = 0x01 ∧ ∃ out, packbits_decode b.payload = some (Except.ok out)))

/-- The bytes a block stands for: a RAW payload verbatim, a RUN payload decoded. -/
def Block.decoded (b : Block) : List Byte :=
  if b.tag = 0x00 then b.payload
  else
    match packbits_decode b.payload with
    | some (Except.ok out) => out
    | _ => []

/-- The bytes of a sequence of blocks. -/
def blocksWire (bs : List Block) : List Byte := bs.flatMap Block.wire

/-- The bytes a sequence of blocks stands for. -/
def blocksDecoded (bs : List Block) : List Byte := bs.flatMap Block.decoded

/-! ## The cipher byte transform, as the specification words it -/

/-- The cipher applied to one byte `b` at key index `j`: `b + key[j mod len(key)]` when
encrypting, `b - key[j mod len(key)]` when decrypting, reduced modulo 256. -/
def vigByte (signedChar : Bool) (key : List Byte) (encrypt : Bool) (j : Nat) (b : Byte) : Byte :=
  if encrypt = true then
    intToByte ((b.val : Int) + charToInt signedChar (key.getD (j % key.length) 0))
  else
    intToByte ((b.val : Int) - charToInt signedChar (key.getD (j % key.length) 0))

/-- Regions that follow one another without gap from `s` to `e`, none of them empty
(used in proofs only). -/
def RegionChain : List FileBlockTask → Nat → Nat → Prop
  | [], s, e => s = e
  | r :: rs, s, e => r.offset = s ∧ 0 < r.length ∧ RegionChain rs (s + r.length) e

/-- The key index the file cipher uses at file position `p`, for a file of `filesize`
bytes: position within the 64 KiB window, windows counted from the start of the file in
sequential mode and from the start of the region in parallel mode. -/
def keyPhase (filesize : Nat) (nprocOnline : Int) (p : Nat) : Nat :=
  if filesize = 0 ∨ filesize < PARALLEL_FILE_THRESHOLD ∨ clampNproc nprocOnline = 1 then
    p % VIGENERE_BLOCK_SIZE
  else
    (p % ((filesize + (clampNproc nprocOnline).toNat - 1) / (clampNproc nprocOnline).toNat))
      % VIGENERE_BLOCK_SIZE

/-- The regions partition `[0, F)` exactly: the first starts at 0, each starts where the
previous one ends, none is empty, no two overlap, and the lengths sum to `F`. -/
def IsPartition (rs : List FileBlockTask) (F : Nat) : Prop :=
  rs.head?.map (fun r => r.offset) = some 0 ∧
  List.Chain' (fun a b => b.offset = a.offset + a.length) rs ∧
  (∀ r ∈ rs, 0 < r.length) ∧
  List.Pairwise (fun a b => a.offset + a.length ≤ b.offset) rs ∧
  (rs.map (fun r => r.length)).sum = F

/-- Lines 250-321 of `vigenere_file_parallel` on their own: the mode decision and the
region list, `none` standing for sequential processing. -/
def cipherPlan (filesize : Nat) (nprocOnline : Int) : Option (List FileBlockTask) :=
  let nproc := clampNproc nprocOnline
  if filesize = 0 ∨ filesize < PARALLEL_FILE_THRESHOLD ∨ nproc = 1 then none
  else some (fileRegions filesize nproc.toNat)

/-- The block the specification prescribes for a chunk: RUN (tag 0x01) carrying the
run-transform encoding when that encoding is strictly shorter than the chunk, RAW
(tag 0x00) carrying the chunk verbatim otherwise. -/
def IsChunkBlock (chunk : List Byte) (b : Block) : Prop :=
  ∃ enc : List Byte, packbits_encode_threshold chunk RLE2_RUN_THRESHOLD = some enc ∧
    ((enc.length < chunk.length ∧ b = ⟨0x01, enc⟩) ∨
      (¬ enc.length < chunk.length ∧ b = ⟨0x00, chunk⟩))

/-- The consecutive chunks of `B`: non-empty pieces of at most `RLE2_BLOCK_SIZE` bytes, all
but the last of exactly `RLE2_BLOCK_SIZE` bytes, whose concatenation is `B`. -/
def IsChunking (B : List Byte) (cs : List (List Byte)) : Prop :=
  cs.flatten = B ∧ (∀ c ∈ cs, c ≠ [] ∧ c.length ≤ RLE2_BLOCK_SIZE) ∧
    ∀ c ∈ cs.dropLast, c.length = RLE2_BLOCK_SIZE

/-- The directory of the specification's scenario: 20 regular files `a` .. `t`, a dangling
symbolic link `l`, a subdirectory `d` and a regular file named `.hidden`. -/
def scenarioDirectory : List DirEntry :=
  (['a', 'b', 'c', 'd', 'e', 'f', 'g', 'h', 'i', 'j', 'k', 'l', 'm', 'n', 'o', 'p', 'q', 'r',
    's', 't'].map (fun c => (⟨[c, '.', 't', 'x', 't'], false, some StatKind.regular, [0x41]⟩
      : DirEntry)))
  ++ [⟨['l', 'i', 'n', 'k'], true, none, []⟩,
      ⟨['s', 'u', 'b'], false, some StatKind.directory, []⟩,
      ⟨['.', 'h', 'i', 'd', 'd', 'e', 'n'], false, some StatKind.regular, [0x42]⟩]

/-! ## Runs and packet positions, as the specification words them -/

/-- Positions `s .. s + L - 1` of `B` form a maximal run: they hold the same byte and the
run cannot be extended to the left or to the right. -/
def IsMaxRun (B : List Byte) (s L : Nat) : Prop :=
  0 < L ∧ s + L ≤ B.length ∧ (∀ j, j < L → B.getD (s + j) 0 = B.getD s 0) ∧
    (s = 0 ∨ B.getD (s - 1) 0 ≠ B.getD s 0) ∧
    (s + L = B.length ∨ B.getD (s + L) 0 ≠ B.getD s 0)

/-- The packets, each with the offset in the input of the first byte it stands for. -/
def placePackets : Nat → List Packet → List (Nat × Packet)
  | _, [] => []
  | a, p :: ps => (a, p) :: placePackets (a + p.expand.length) ps

/-- Run isolation as the specification states it, for minimum run `k`: no byte of a
maximal run of at least `k` bytes lies in a literal packet. -/
def RunsIsolated (B : List Byte) (k : Nat) (ps : List Packet) : Prop :=
  ∀ s L, IsMaxRun B s L → k ≤ L →
    ∀ a c bs, (a, Packet.literal c bs) ∈ placePackets 0 ps →
      ∀ p, a ≤ p → p < a + bs.length → ¬ (s ≤ p ∧ p < s + L)

/-- What the encoder emits at input offset `a` (used in proofs only): a literal packet of
`len` bytes none of which starts a run of `k` bytes, ended by the end of the input, the
128-byte limit or the start of such a run; or a run packet for the run at `a`, cut at 128
bytes, when it has at least `k` bytes. -/
def PacketAt (B : List Byte) (k : Nat) (a : Nat) : Packet → Prop
  | Packet.literal c bs =>
    ∃ len, 1 ≤ len ∧ len ≤ 128 ∧ a + len ≤ B.length ∧ c = toByte (len - 1) ∧
      bs = (B.drop a).take len ∧
      (∀ p, a ≤ p → p < a + len → scanRun B p 128 1 < k) ∧
      (a + len = B.length ∨ len = 128 ∨ scanRun B (a + len) 128 1 ≥ k)
  | Packet.run c v =>
    a < B.length ∧ k ≤ scanRun B a 128 1 ∧
      c = toByte (0x80 ||| (toByte (scanRun B a 128 1 - 1)).val) ∧ v = B.getD a 0

/-- A sequence of packets emitted from offset `a` up to offset `b` (used in proofs only). -/
def TraceSeg (B : List Byte) (k : Nat) : Nat → List Packet → Nat → Prop
  | a, [], b => a = b
  | a, p :: ps, b => PacketAt B k a p ∧ TraceSeg B k (a + p.expand.length) ps b

/-- An offset that lies strictly inside a maximal run of at least `k` bytes lies a
multiple of 128 bytes after its start (used in proofs only). -/
def GoodOffset (B : List Byte) (k : Nat) (a : Nat) : Prop :=
  ∀ s L, IsMaxRun B s L → k ≤ L → s < a → a < s + L → (a - s) % 128 = 0

/-- A run of at least `t` equal bytes starts at position `p` of `B`: positions
`p .. p + t - 1` exist and hold the same byte. -/
def RunStartsAt (B : List Byte) (t p : Nat) : Prop :=
  p + t ≤ B.length ∧ ∀ j, j < t → B.getD (p + j) 0 = B.getD p 0

/-- No literal packet holds `t` consecutive equal bytes. -/
def LiteralsRunFree (B : List Byte) (t : Nat) (ps : List Packet) : Prop :=
  ∀ a c bs, (a, Packet.literal c bs) ∈ placePackets 0 ps →
    ∀ p, a ≤ p → p + t ≤ a + bs.length → ¬ RunStartsAt B t p

/-- Every literal packet ends before a position where a run of at least `t` equal bytes
starts: no position inside a literal packet is the start of such a run. -/
def LiteralsEndBeforeRuns (B : List Byte) (t : Nat) (ps : List Packet) : Prop :=
  ∀ a c bs, (a, Packet.literal c bs) ∈ placePackets 0 ps →
    ∀ p, a ≤ p → p < a + bs.length → ¬ RunStartsAt B t p

/-- List view of `decodeLoop`, used in proofs only: the loop at index `i` sees `inb.drop i`. -/
def decodeList : Nat → List Byte → List Byte → Option (Except Nat (List Byte))
  | 0, _, _ => none
  | _ + 1, [], out => some (Except.ok out)
  | fuel + 1, c :: tail, out =>
    if c.val &&& 0x80 = 0 then
      if tail.length < c.val + 1 then some (Except.error 1)
      else decodeList fuel (tail.drop (c.val + 1)) (out ++ tail.take (c.val + 1))
    else
      match tail with
      | [] => some (Except.error 1)
      | v :: rest => decodeList fuel rest (out ++ List.replicate ((c.val &&& 0x7F) + 1) v)

/-! ## Proofs: the decoder -/

theorem drop_cons_facts {inb : List Byte} {i : Nat} {c : Byte} {tail : List Byte}
    (h : inb.drop i = c :: tail) :
    i < inb.length ∧ inb.getD i 0 = c ∧ inb.drop (i + 1) = tail := by
  have hlt : i < inb.length := by
    by_contra hge
    rw [List.drop_eq_nil_of_le (Nat.le_of_not_lt hge)] at h
    exact List.noConfusion h
  rw [List.drop_eq_getElem_cons hlt] at h
  injection h with h1 h2
  refine ⟨hlt, ?_, h2⟩
  rw [List.getD_eq_getElem?_getD, List.getElem?_eq_getElem hlt]
  exact h1

theorem decodeLoop_eq_decodeList (inb : List Byte) :
    ∀ (fuel i : Nat) (out : List Byte),
      decodeLoop inb fuel i out = decodeList fuel (inb.drop i) out := by
  intro fuel
  induction fuel with
  | zero => intro i out; rfl
  | succ fuel ih =>
    intro i out
    rcases hd : inb.drop i with _ | ⟨c, tail⟩
    · have hge : inb.length ≤ i := List.drop_eq_nil_iff.mp hd
      simp [decodeLoop, decodeList, Nat.not_lt.mpr hge]
    · obtain ⟨hlt, hc, htl⟩ := drop_cons_facts hd
      have hlen : tail.length = inb.length - (i + 1) := by rw [← htl, List.length_drop]
      rw [decodeLoop]
      simp only [decodeList, hlt, if_true, hc]
      by_cases hb : c.val &&& 0x80 = 0
      · simp only [hb, if_true]
        by_cases hs : tail.length < c.val + 1
        · have : i + 1 + (c.val + 1) > inb.length := by omega
          simp [hs, this]
        · have : ¬ (i + 1 + (c.val + 1) > inb.length) := by omega
          simp only [hs, this, if_false]
          rw [ih, ← List.drop_drop, htl]
      · simp only [hb, if_false]
        rcases tail with _ | ⟨v, rest⟩
        · have : i + 1 ≥ inb.length := by simp at hlen; omega
          simp [this]
        · have hlt1 : ¬ (i + 1 ≥ inb.length) := by simp at hlen; omega
          obtain ⟨_, hv, hrest⟩ := drop_cons_facts htl
          simp only [hlt1, if_false, hv]
          rw [ih, hrest]

theorem packbits_decode_eq (inb : List Byte) :
    packbits_decode inb = decodeList (inb.length + 1) inb [] := by
  rw [packbits_decode, decodeLoop_eq_decodeList, List.drop_zero]

theorem decodeList_cons (fuel : Nat) (c : Byte) (tail out : List Byte) :
    decodeList (fuel + 1) (c :: tail) out =
      if c.val &&& 0x80 = 0 then
        if tail.length < c.val + 1 then some (Except.error 1)
        else decodeList fuel (tail.drop (c.val + 1)) (out ++ tail.take (c.val + 1))
      else
        match tail with
        | [] => some (Except.error 1)
        | v :: rest => decodeList fuel rest (out ++ List.replicate ((c.val &&& 0x7F) + 1) v) := by
  rfl

theorem decodeList_wire (ps : List Packet) (hwf : ∀ p ∈ ps, p.WellFormed) :
    ∀ (fuel : Nat) (rest out : List Byte), ps.length ≤ fuel →
      decodeList (fuel + 1) (wireOf ps ++ rest) out
        = decodeList (fuel + 1 - ps.length) rest (out ++ expandOf ps) := by
  induction ps with
  | nil => intro fuel rest out _; simp [wireOf, expandOf]
  | cons p ps ih =>
    intro fuel rest out hfuel
    have hp : p.WellFormed := hwf p (List.mem_cons_self _ _)
    have hps : ∀ q ∈ ps, q.WellFormed := fun q hq => hwf q (List.mem_cons_of_mem _ hq)
    obtain ⟨f, rfl⟩ : ∃ f, fuel = f + 1 := ⟨fuel - 1, by simp at hfuel; omega⟩
    have hf : ps.length ≤ f := by simpa using hfuel
    have hsub : f + 1 + 1 - (p :: ps).length = f + 1 - ps.length := by simp
    rw [hsub]
    cases p with
    | literal c bs =>
      obtain ⟨hb, hl⟩ := hp
      have e1 : wireOf (Packet.literal c bs :: ps) ++ rest = c :: (bs ++ (wireOf ps ++ rest)) := by
        simp [wireOf, Packet.wire]
      have e2 : expandOf (Packet.literal c bs :: ps) = bs ++ expandOf ps := by
        simp [expandOf, Packet.expand]
      have hlen : ¬ (bs ++ (wireOf ps ++ rest)).length < c.val + 1 := by
        simp only [List.length_append]; omega
      rw [e1, e2, decodeList_cons]
      simp only [hb, if_true, hlen, if_false]
      rw [← hl, List.drop_left, List.take_left, ih hps f rest _ hf, List.append_assoc]
    | run c v =>
      have hb : ¬ (c.val &&& 0x80 = 0) := hp
      have e1 : wireOf (Packet.run c v :: ps) ++ rest = c :: v :: (wireOf ps ++ rest) := by
        simp [wireOf, Packet.wire]
      have e2 : expandOf (Packet.run c v :: ps)
          = List.replicate ((c.val &&& 0x7F) + 1) v ++ expandOf ps := by
        simp [expandOf, Packet.expand]
      rw [e1, e2, decodeList_cons]
      simp only [hb, if_false]
      rw [ih hps f rest _ hf, List.append_assoc]

theorem wireOf_length_ge (ps : List Packet) : ps.length ≤ (wireOf ps).length := by
  induction ps with
  | nil => simp
  | cons p ps ih =>
    have : (wireOf (p :: ps)).length = (Packet.wire p).length + (wireOf ps).length := by
      simp [wireOf]
    have h1 : 1 ≤ (Packet.wire p).length := by cases p <;> simp [Packet.wire]
    simp only [List.length_cons]
    omega

/-- Decoding the wire form of well-formed packets yields the concatenated expansions. -/
theorem packbits_decode_wire (ps : List Packet) (hwf : ∀ p ∈ ps, p.WellFormed) :
    packbits_decode (wireOf ps) = some (Except.ok (expandOf ps)) := by
  have h := decodeList_wire ps hwf (wireOf ps).length [] [] (wireOf_length_ge ps)
  rw [List.append_nil] at h
  rw [packbits_decode_eq, h]
  obtain ⟨m, hm⟩ : ∃ m, (wireOf ps).length + 1 - ps.length = m + 1 :=
    ⟨(wireOf ps).length - ps.length, by have := wireOf_length_ge ps; omega⟩
  rw [hm]
  simp [decodeList]

/-- Decoding malformed input returns status 1. -/
theorem packbits_decode_malformed (inb : List Byte) (h : Malformed inb) :
    packbits_decode inb = some (Except.error 1) := by
  obtain ⟨ps, c, tail, hwf, rfl, hbad⟩ := h
  have hlen : ps.length ≤ (wireOf ps ++ c :: tail).length := by
    have := wireOf_length_ge ps
    simp only [List.length_append, List.length_cons]; omega
  rw [packbits_decode_eq, decodeList_wire ps hwf _ (c :: tail) [] hlen]
  obtain ⟨m, hm⟩ : ∃ m, (wireOf ps ++ c :: tail).length + 1 - ps.length = m + 1 :=
    ⟨(wireOf ps ++ c :: tail).length - ps.length, by omega⟩
  rw [hm, decodeList_cons]
  rcases hbad with ⟨hb, hl⟩ | ⟨hb, rfl⟩
  · simp [hb, hl]
  · simp [hb]

/-- Every input is a sequence of well-formed packets or is malformed. -/
theorem parse_or_malformed : ∀ (n : Nat) (inb : List Byte), inb.length ≤ n →
    (∃ ps : List Packet, (∀ p ∈ ps, p.WellFormed) ∧ inb = wireOf ps) ∨ Malformed inb := by
  intro n
  induction n with
  | zero =>
    intro inb h
    have : inb = [] := List.length_eq_zero.mp (Nat.le_zero.mp h)
    exact Or.inl ⟨[], by simp, by simp [this, wireOf]⟩
  | succ n ih =>
    intro inb h
    rcases inb with _ | ⟨c, tail⟩
    · exact Or.inl ⟨[], by simp, by simp [wireOf]⟩
    · have htl : tail.length ≤ n := by simpa using h
      by_cases hb : c.val &&& 0x80 = 0
      · by_cases hs : tail.length < c.val + 1
        · exact Or.inr ⟨[], c, tail, by simp, by simp [wireOf], Or.inl ⟨hb, hs⟩⟩
        · have hsplit : tail = tail.take (c.val + 1) ++ tail.drop (c.val + 1) :=
            (List.take_append_drop _ _).symm
          have htk : (tail.take (c.val + 1)).length = c.val + 1 := by
            rw [List.length_take]; omega
          have hpk : (Packet.literal c (tail.take (c.val + 1))).WellFormed := ⟨hb, htk⟩
          have hdl : (tail.drop (c.val + 1)).length ≤ n := by
            rw [List.length_drop]; omega
          rcases ih _ hdl with ⟨ps, hwf, hps⟩ | ⟨ps, c2, t2, hwf, hps, hbad⟩
          · refine Or.inl ⟨Packet.literal c (tail.take (c.val + 1)) :: ps, ?_, ?_⟩
            · intro p hp
              rcases List.mem_cons.mp hp with rfl | hp
              · exact hpk
              · exact hwf p hp
            · have : wireOf (Packet.literal c (tail.take (c.val + 1)) :: ps)
                  = c :: (tail.take (c.val + 1) ++ wireOf ps) := by simp [wireOf, Packet.wire]
              rw [this, ← hps, ← hsplit]
          · refine Or.inr ⟨Packet.literal c (tail.take (c.val + 1)) :: ps, c2, t2, ?_, ?_, hbad⟩
            · intro p hp
              rcases List.mem_cons.mp hp with rfl | hp
              · exact hpk
              · exact hwf p hp
            · have : wireOf (Packet.literal c (tail.take (c.val + 1)) :: ps) ++ c2 :: t2
                  = c :: (tail.take (c.val + 1) ++ (wireOf ps ++ c2 :: t2)) := by
                simp [wireOf, Packet.wire]
              rw [this, ← hps, ← hsplit]
      · rcases tail with _ | ⟨v, rest⟩
        · exact Or.inr ⟨[], c, [], by simp, by simp [wireOf], Or.inr ⟨hb, rfl⟩⟩
        · have hrl : rest.length ≤ n := by simp at htl; omega
          have hpk : (Packet.run c v).WellFormed := hb
          rcases ih _ hrl with ⟨ps, hwf, hps⟩ | ⟨ps, c2, t2, hwf, hps, hbad⟩
          · refine Or.inl ⟨Packet.run c v :: ps, ?_, ?_⟩
            · intro p hp
              rcases List.mem_cons.mp hp with rfl | hp
              · exact hpk
              · exact hwf p hp
            · simp [wireOf, Packet.wire, hps]
          · refine Or.inr ⟨Packet.run c v :: ps, c2, t2, ?_, ?_, hbad⟩
            · intro p hp
              rcases List.mem_cons.mp hp with rfl | hp
              · exact hpk
              · exact hwf p hp
            · simp [wireOf, Packet.wire, hps]

/-! ## Proofs: the encoder -/

theorem toByte_val_of_lt {x : Nat} (h : x < 256) : (toByte x).val = x := by
  simp [toByte, Nat.mod_eq_of_lt h]

theorem literal_ctrl_bit : ∀ c : Fin 128, (toByte c.val).val &&& 0x80 = 0 := by decide

theorem run_ctrl_bit : ∀ c : Fin 128,
    (toByte (0x80 ||| (toByte c.val).val)).val &&& 0x80 ≠ 0 ∧
    (toByte (0x80 ||| (toByte c.val).val)).val &&& 0x7F = c.val := by decide

theorem scanRun_spec (inb : List Byte) (base : Nat) : ∀ (fuel r : Nat),
    r ≤ scanRun inb base fuel r ∧
    (r ≤ 128 → scanRun inb base fuel r ≤ 128) ∧
    (base + r ≤ inb.length → base + scanRun inb base fuel r ≤ inb.length) ∧
    (∀ j, r ≤ j → j < scanRun inb base fuel r → inb.getD (base + j) 0 = inb.getD base 0) := by
  intro fuel
  induction fuel with
  | zero =>
    intro r
    refine ⟨Nat.le_refl _, fun h => h, fun h => h, ?_⟩
    intro j h1 h2
    simp only [scanRun] at h2
    omega
  | succ fuel ih =>
    intro r
    by_cases hc : base + r < inb.length ∧ inb.getD (base + r) 0 = inb.getD base 0 ∧ r < 128
    · have e : scanRun inb base (fuel + 1) r = scanRun inb base fuel (r + 1) := by
        simp only [scanRun, hc, and_self, if_true]
      obtain ⟨h1, h2, h3, h4⟩ := ih (r + 1)
      rw [e]
      refine ⟨by omega, fun _ => h2 (by omega), fun _ => h3 (by omega), ?_⟩
      intro j hj1 hj2
      rcases Nat.eq_or_lt_of_le hj1 with rfl | hlt
      · exact hc.2.1
      · exact h4 j hlt hj2
    · have e : scanRun inb base (fuel + 1) r = r := by
        simp only [scanRun, hc, if_false]
      rw [e]
      refine ⟨Nat.le_refl _, fun h => h, fun h => h, ?_⟩
      intro j h1 h2
      omega

theorem growLiteral_spec (inb : List Byte) (k i : Nat) : ∀ (fuel l : Nat),
    l ≤ 128 → i + l ≤ inb.length →
    l ≤ growLiteral inb k i fuel l ∧ growLiteral inb k i fuel l ≤ 128 ∧
      i + growLiteral inb k i fuel l ≤ inb.length := by
  intro fuel
  induction fuel with
  | zero => intro l h1 h2; exact ⟨Nat.le_refl _, h1, h2⟩
  | succ fuel ih =>
    intro l h1 h2
    rw [growLiteral]
    by_cases hc : i + l < inb.length ∧ l < 128
    · simp only [hc, and_self, if_true]
      by_cases hr : scanRun inb (i + l) 128 1 ≥ k
      · simp only [hr, if_true]; exact ⟨Nat.le_refl _, h1, h2⟩
      · simp only [hr, if_false]
        obtain ⟨a, b, c⟩ := ih (l + 1) (by omega) (by omega)
        exact ⟨by omega, b, c⟩
    · simp only [hc, if_false]; exact ⟨Nat.le_refl _, h1, h2⟩

/-- With 128 units of fuel `scanRun` stops because its loop condition is false. -/
theorem scanRun_exit (inb : List Byte) (base : Nat) : ∀ (fuel r : Nat), 128 - r ≤ fuel →
    ¬ (base + scanRun inb base fuel r < inb.length ∧
        inb.getD (base + scanRun inb base fuel r) 0 = inb.getD base 0 ∧
        scanRun inb base fuel r < 128) := by
  intro fuel
  induction fuel with
  | zero =>
    intro r h
    simp only [scanRun]
    omega
  | succ fuel ih =>
    intro r h
    by_cases hc : base + r < inb.length ∧ inb.getD (base + r) 0 = inb.getD base 0 ∧ r < 128
    · have e : scanRun inb base (fuel + 1) r = scanRun inb base fuel (r + 1) := by
        simp only [scanRun, hc, and_self, if_true]
      rw [e]
      exact ih (r + 1) (by omega)
    · have e : scanRun inb base (fuel + 1) r = r := by
        simp only [scanRun, hc, if_false]
      rw [e]
      exact hc

/-- With 128 units of fuel `growLiteral` stops because its loop condition is false or
because the `break` before a run of at least `k` bytes fires. -/
theorem growLiteral_exit (inb : List Byte) (k i : Nat) : ∀ (fuel l : Nat), 128 - l ≤ fuel →
    ¬ (i + growLiteral inb k i fuel l < inb.length ∧ growLiteral inb k i fuel l < 128) ∨
      scanRun inb (i + growLiteral inb k i fuel l) 128 1 ≥ k := by
  intro fuel
  induction fuel with
  | zero =>
    intro l h
    simp only [growLiteral]
    exact Or.inl (by omega)
  | succ fuel ih =>
    intro l h
    by_cases hc : i + l < inb.length ∧ l < 128
    · by_cases hr : scanRun inb (i + l) 128 1 ≥ k
      · have e : growLiteral inb k i (fuel + 1) l = l := by
          simp only [growLiteral, hc, and_self, if_true, hr]
        rw [e]
        exact Or.inr hr
      · have e : growLiteral inb k i (fuel + 1) l = growLiteral inb k i fuel (l + 1) := by
          simp only [growLiteral, hc, and_self, if_true, hr, if_false]
        rw [e]
        exact ih (l + 1) (by omega)
    · have e : growLiteral inb k i (fuel + 1) l = l := by
        simp only [growLiteral, hc, if_false]
      rw [e]
      exact Or.inl hc

/-- A stretch of equal bytes is a `replicate`. -/
theorem drop_eq_replicate_append (inb : List Byte) (v : Byte) : ∀ (run i : Nat),
    i + run ≤ inb.length → (∀ j, j < run → inb.getD (i + j) 0 = v) →
    inb.drop i = List.replicate run v ++ inb.drop (i + run) := by
  intro run
  induction run with
  | zero => intro i _ _; simp
  | succ run ih =>
    intro i hle hall
    have hlt : i < inb.length := by omega
    have h0 : inb.getD i 0 = v := by simpa using hall 0 (by omega)
    have hget : inb[i] = v := by
      rw [List.getD_eq_getElem?_getD, List.getElem?_eq_getElem hlt] at h0
      simpa using h0
    rw [List.drop_eq_getElem_cons hlt, hget, List.replicate_succ, List.cons_append]
    congr 1
    have := ih (i + 1) (by omega) (fun j hj => by
      have := hall (j + 1) (by omega)
      rwa [show i + (j + 1) = i + 1 + j by omega] at this)
    rw [this, show i + 1 + run = i + (run + 1) by omega]

theorem wireOf_cons (p : Packet) (ps : List Packet) :
    wireOf (p :: ps) = p.wire ++ wireOf ps := by simp [wireOf]

theorem expandOf_cons (p : Packet) (ps : List Packet) :
    expandOf (p :: ps) = p.expand ++ expandOf ps := by simp [expandOf]

theorem wireOf_append (ps qs : List Packet) :
    wireOf (ps ++ qs) = wireOf ps ++ wireOf qs := by simp [wireOf]

theorem expandOf_append (ps qs : List Packet) :
    expandOf (ps ++ qs) = expandOf ps ++ expandOf qs := by simp [expandOf]

theorem flushRuns_packets (inb : List Byte) (k : Nat) : ∀ (fuel i run : Nat) (out : List Byte),
    run ≤ 128 → i + run ≤ inb.length →
    (∀ j, j < run → inb.getD (i + j) 0 = inb.getD i 0) →
    inb.length - i < fuel →
    ∃ (ps : List Packet) (i1 : Nat), (∀ p ∈ ps, p.WellFormed) ∧
      flushRuns inb k fuel i run out = some (i1, out ++ wireOf ps) ∧
      i1 ≤ inb.length ∧ i ≤ i1 ∧ (0 < run → i < i1) ∧
      expandOf ps ++ inb.drop i1 = inb.drop i := by
  intro fuel
  induction fuel with
  | zero => intro i run out _ _ _ hf; omega
  | succ fuel ih =>
    intro i run out h128 hle hall hf
    by_cases hrun : run > 0
    · have hchunk : (if run > 128 then 128 else run) = run := by
        have : ¬ run > 128 := by omega
        simp only [this, if_false]
      have hsub : run - run = 0 := Nat.sub_self run
      obtain ⟨hbit, hlen⟩ := run_ctrl_bit ⟨run - 1, by omega⟩
      simp only at hbit hlen
      let more := scanRun inb (i + run) 128 0
      let run2 := if more ≥ k then more else 0
      obtain ⟨_, m128, mle, mall⟩ := scanRun_spec inb (i + run) 128 0
      have hr2le : run2 ≤ more := by
        show (if more ≥ k then more else 0) ≤ more
        split <;> omega
      have hall2 : ∀ j, j < run2 → inb.getD (i + run + j) 0 = inb.getD (i + run) 0 :=
        fun j hj => mall j (Nat.zero_le _) (by
          have : j < more := by omega
          exact this)
      have hm128 : more ≤ 128 := m128 (by omega)
      have hmle : i + run + more ≤ inb.length := mle (by omega)
      obtain ⟨ps, i1, hwf, hres, hi1, hii1, _, hexp⟩ :=
        ih (i + run) run2
          (out ++ [toByte (0x80 ||| (toByte (run - 1)).val), inb.getD i 0])
          (by omega) (by omega) hall2 (by omega)
      refine ⟨Packet.run (toByte (0x80 ||| (toByte (run - 1)).val)) (inb.getD i 0) :: ps,
        i1, ?_, ?_, hi1, by omega, fun _ => by omega, ?_⟩
      · intro p hp
        rcases List.mem_cons.mp hp with rfl | hp
        · exact hbit
        · exact hwf p hp
      · rw [flushRuns]
        simp only [hrun, if_true, hchunk, hsub]
        rw [wireOf_cons]
        simp only [Packet.wire, ← List.append_assoc]
        simpa [List.append_assoc] using hres
      · rw [expandOf_cons, List.append_assoc, hexp]
        simp only [Packet.expand, hlen]
        rw [show run - 1 + 1 = run by omega]
        exact (drop_eq_replicate_append inb (inb.getD i 0) run i hle hall).symm
    · have h0 : run = 0 := by omega
      refine ⟨[], i, by simp, ?_, by omega, Nat.le_refl _, fun h => by omega, by simp [expandOf]⟩
      rw [flushRuns]
      simp [hrun, wireOf]

theorem encodeLoop_packets (inb : List Byte) (k : Nat) : ∀ (fuel i : Nat) (out : List Byte),
    i ≤ inb.length → inb.length - i < fuel →
    ∃ ps : List Packet, (∀ p ∈ ps, p.WellFormed) ∧
      encodeLoop inb k fuel i out = some (out ++ wireOf ps) ∧ expandOf ps = inb.drop i := by
  intro fuel
  induction fuel with
  | zero => intro i out _ hf; omega
  | succ fuel ih =>
    intro i out hi hf
    by_cases hlt : i < inb.length
    · obtain ⟨r1, r128, rle, rall⟩ := scanRun_spec inb i 128 1
      by_cases hk : scanRun inb i 128 1 ≥ k
      · have hall : ∀ j, j < scanRun inb i 128 1 → inb.getD (i + j) 0 = inb.getD i 0 := by
          intro j hj
          rcases Nat.eq_zero_or_pos j with rfl | hpos
          · rfl
          · exact rall j hpos hj
        obtain ⟨ps1, i1, hwf1, hres1, hi1, _, hadv, hexp1⟩ :=
          flushRuns_packets inb k (inb.length + 1) i (scanRun inb i 128 1) out
            (r128 (by omega)) (rle (by omega)) hall (by omega)
        obtain ⟨ps2, hwf2, hres2, hexp2⟩ :=
          ih i1 (out ++ wireOf ps1) hi1 (by have := hadv (by omega); omega)
        refine ⟨ps1 ++ ps2, ?_, ?_, ?_⟩
        · intro p hp
          rcases List.mem_append.mp hp with hp | hp
          · exact hwf1 p hp
          · exact hwf2 p hp
        · rw [encodeLoop]
          simp only [hlt, if_true, hk, hres1, hres2, wireOf_append, List.append_assoc]
        · rw [expandOf_append, hexp2, hexp1]
      · obtain ⟨g1, g128, gle⟩ := growLiteral_spec inb k i 128 1 (by omega) (by omega)
        have hctrl : (toByte (growLiteral inb k i 128 1 - 1)).val
            = growLiteral inb k i 128 1 - 1 := toByte_val_of_lt (by omega)
        have hbit := literal_ctrl_bit ⟨growLiteral inb k i 128 1 - 1, by omega⟩
        simp only at hbit
        obtain ⟨ps2, hwf2, hres2, hexp2⟩ :=
          ih (i + growLiteral inb k i 128 1)
            (out ++ [toByte (growLiteral inb k i 128 1 - 1)]
              ++ (inb.drop i).take (growLiteral inb k i 128 1)) gle (by omega)
        refine ⟨Packet.literal (toByte (growLiteral inb k i 128 1 - 1))
          ((inb.drop i).take (growLiteral inb k i 128 1)) :: ps2, ?_, ?_, ?_⟩
        · intro p hp
          rcases List.mem_cons.mp hp with rfl | hp
          · refine ⟨hbit, ?_⟩
            rw [hctrl, List.length_take, List.length_drop]
            omega
          · exact hwf2 p hp
        · rw [encodeLoop]
          simp only [hlt, if_true, hk, if_false, hres2, wireOf_cons, Packet.wire]
          simp [List.append_assoc]
        · rw [expandOf_cons, hexp2]
          simp only [Packet.expand]
          rw [← List.drop_drop, List.take_append_drop]
    · refine ⟨[], by simp, ?_, ?_⟩
      · rw [encodeLoop]
        simp [hlt, wireOf]
      · have : i = inb.length := by omega
        simp [expandOf, this]

/-- The encoder returns, and its output is the wire form of well-formed packets whose
expansions concatenate to the input. -/
theorem packbits_encode_packets (inb : List Byte) (k_min_run : Int) :
    ∃ ps : List Packet, (∀ p ∈ ps, p.WellFormed) ∧
      packbits_encode_threshold inb k_min_run = some (wireOf ps) ∧ expandOf ps = inb := by
  obtain ⟨ps, hwf, hres, hexp⟩ :=
    encodeLoop_packets inb (sizeOfInt k_min_run) (inb.length + 1) 0 [] (Nat.zero_le _) (by omega)
  exact ⟨ps, hwf, by simpa [packbits_encode_threshold] using hres, by simpa using hexp⟩

theorem encode_then_decode (B : List Byte) (k : Int) :
    ∃ enc : List Byte, packbits_encode_threshold B k = some enc ∧
      packbits_decode enc = some (Except.ok B) := by
  obtain ⟨ps, hwf, hres, hexp⟩ := packbits_encode_packets B k
  exact ⟨wireOf ps, hres, by rw [packbits_decode_wire ps hwf, hexp]⟩

/-! ## Proofs: the block codec -/

theorem read_all_eq (fd : List Byte) (n : Nat) :
    read_all fd n
      = some (if n ≤ fd.length then (0, fd.take n, fd.drop n) else (1, fd, [])) := by
  unfold read_all
  rcases Nat.eq_zero_or_pos n with rfl | hn
  · simp [readAllLoop]
  · obtain ⟨m, rfl⟩ : ∃ m, n = m + 1 := ⟨n - 1, by omega⟩
    rw [readAllLoop]
    simp only [Nat.zero_lt_succ, if_true, sysRead, Nat.sub_zero, List.nil_append, Nat.zero_add]
    by_cases hnil : fd = []
    · subst hnil; simp
    · have hpos : 0 < fd.length := List.length_pos.mpr hnil
      have hne : ¬ (fd.take (m + 1)).length = 0 := by
        rw [List.length_take]; omega
      simp only [hne, if_false]
      rw [readAllLoop]
      by_cases hle : m + 1 ≤ fd.length
      · have h1 : (fd.take (m + 1)).length = m + 1 := by
          rw [List.length_take]; omega
        simp only [h1, Nat.lt_irrefl, if_false, hle, if_true]
      · have h1 : (fd.take (m + 1)).length = fd.length := by
          rw [List.length_take]; omega
        have h2 : fd.length < m + 1 := by omega
        have h3 : fd.drop (m + 1) = [] := List.drop_eq_nil_of_le (by omega)
        have h4 : fd.take (m + 1) = fd := List.take_of_length_le (by omega)
        rw [h3, h4]
        simp only [h2, if_true, hle, if_false, sysRead, List.take_nil, List.drop_nil,
          List.length_nil]

theorem or_shift (a b i : Nat) (h : a < 2 ^ i) : a ||| (b <<< i) = a + 2 ^ i * b := by
  rw [Nat.shiftLeft_eq, Nat.mul_comm b, Nat.or_comm, ← Nat.mul_add_lt_is_or h, Nat.add_comm]

theorem u32_combine (a b c d : Nat) (ha : a < 256) (hb : b < 256) (hc : c < 256) :
    a ||| (b <<< 8) ||| (c <<< 16) ||| (d <<< 24)
      = a + 256 * b + 65536 * c + 16777216 * d := by
  have h1 : a ||| (b <<< 8) = a + 256 * b := by
    have := or_shift a b 8 (by simpa using ha); simpa using this
  have h2 : (a + 256 * b) ||| (c <<< 16) = a + 256 * b + 65536 * c := by
    have := or_shift (a + 256 * b) c 16 (by norm_num; omega); simpa using this
  have h3 : (a + 256 * b + 65536 * c) ||| (d <<< 24)
      = a + 256 * b + 65536 * c + 16777216 * d := by
    have := or_shift (a + 256 * b + 65536 * c) d 24 (by norm_num; omega); simpa using this
  rw [h1, h2, h3]

theorem and_ff (x : Nat) : x &&& 0xFF = x % 256 := by
  have := Nat.and_pow_two_sub_one_eq_mod x 8
  simpa using this

theorem u32le_read_write (v : Nat) (hv : v < 2 ^ 32) : u32le_read (u32le_write v) = v := by
  simp only [u32le_read, u32le_write, List.getD_cons_zero, List.getD_cons_succ, toByte, and_ff,
    Nat.shiftRight_eq_div_pow, Nat.mod_mod]
  rw [u32_combine _ _ _ _ (Nat.mod_lt _ (by decide)) (Nat.mod_lt _ (by decide))
    (Nat.mod_lt _ (by decide))]
  norm_num at hv ⊢
  omega

theorem u32le_write_length (v : Nat) : (u32le_write v).length = 4 := rfl

theorem read_all_append (pre rest : List Byte) :
    read_all (pre ++ rest) pre.length = some (0, pre, rest) := by
  rw [read_all_eq]
  have h : pre.length ≤ (pre ++ rest).length := by simp
  simp only [h, if_true, List.take_left, List.drop_left]

theorem packbits_decode_nil : packbits_decode [] = some (Except.ok []) := by decide

/-- One iteration of the decompressor loop on a valid block. -/
theorem decompressLoop_block (b : Block) (hb : b.Valid) (fuel : Nat) (rest out : List Byte) :
    decompressLoop (fuel + 1) (b.wire ++ rest) out
      = decompressLoop fuel rest (out ++ b.decoded) := by
  obtain ⟨hlen, htag⟩ := hb
  have e : b.wire ++ rest = (b.tag :: u32le_write b.payload.length) ++ (b.payload ++ rest) := by
    simp [Block.wire]
  have h5 : (b.tag :: u32le_write b.payload.length).length = 5 := by
    simp [u32le_write_length]
  have hread := read_all_append (b.tag :: u32le_write b.payload.length) (b.payload ++ rest)
  rw [h5] at hread
  have hread2 := read_all_append b.payload rest
  rw [decompressLoop, e, hread]
  simp only [ne_eq, not_true_eq_false, if_false, List.getD_cons_zero, List.drop_succ_cons,
    List.drop_zero, u32le_read_write _ hlen]
  by_cases hz : b.payload.length = 0
  · have hnil : b.payload = [] := List.length_eq_zero.mp hz
    have hdec : b.decoded = [] := by
      rcases htag with h0 | ⟨h1, _⟩
      · simp [Block.decoded, h0, hnil]
      · simp [Block.decoded, h1, hnil, packbits_decode_nil]
    simp only [hz, if_true, hdec, List.append_nil]
    rw [hnil, List.nil_append]
  · simp only [hz, if_false, hread2, ne_eq, not_true_eq_false, List.take_length]
    rcases htag with h0 | ⟨h1, dec, hdec⟩
    · simp only [h0, if_true, Block.decoded]
    · have hne : ¬ b.tag = 0x00 := by rw [h1]; decide
      have h10 : ¬ ((1 : Byte) = 0) := by decide
      simp only [hne, if_false, h1, if_true, hdec, Block.decoded, h10]

/-- The decompressor loop consumes a sequence of valid blocks, one iteration each. -/
theorem decompressLoop_blocks (bs : List Block) (hbs : ∀ b ∈ bs, b.Valid) :
    ∀ (fuel : Nat) (rest out : List Byte), bs.length ≤ fuel →
      decompressLoop fuel (blocksWire bs ++ rest) out
        = decompressLoop (fuel - bs.length) rest (out ++ blocksDecoded bs) := by
  induction bs with
  | nil => intro fuel rest out _; simp [blocksWire, blocksDecoded]
  | cons b bs ih =>
    intro fuel rest out hfuel
    obtain ⟨f, rfl⟩ : ∃ f, fuel = f + 1 := ⟨fuel - 1, by simp at hfuel; omega⟩
    have hf : bs.length ≤ f := by simpa using hfuel
    have e1 : blocksWire (b :: bs) ++ rest = b.wire ++ (blocksWire bs ++ rest) := by
      simp [blocksWire]
    have e2 : blocksDecoded (b :: bs) = b.decoded ++ blocksDecoded bs := by
      simp [blocksDecoded]
    rw [e1, e2, decompressLoop_block b (hbs b (List.mem_cons_self _ _)),
      ih (fun q hq => hbs q (List.mem_cons_of_mem _ hq)) f rest _ hf, List.append_assoc]
    simp

theorem blocksWire_length_ge (bs : List Block) : 5 * bs.length ≤ (blocksWire bs).length := by
  induction bs with
  | nil => simp
  | cons b bs ih =>
    have : (blocksWire (b :: bs)).length = b.wire.length + (blocksWire bs).length := by
      simp [blocksWire]
    have h1 : 5 ≤ b.wire.length := by simp [Block.wire, u32le_write_length]
    simp only [List.length_cons]
    omega

theorem decompressLoop_eof (fuel : Nat) (out : List Byte) :
    decompressLoop (fuel + 1) [] out = some (0, out) := by
  rw [decompressLoop, read_all_eq]
  simp

/-- The decompressor on a magic header followed by valid blocks succeeds with their content. -/
theorem rle2_decompress_blocks (bs : List Block) (hbs : ∀ b ∈ bs, b.Valid) :
    rle2_decompress_stream (RLE2_MAGIC ++ blocksWire bs) = some (0, blocksDecoded bs) := by
  have hread := read_all_append RLE2_MAGIC (blocksWire bs)
  have h8 : RLE2_MAGIC.length = 8 := rfl
  rw [h8] at hread
  rw [rle2_decompress_stream, hread]
  simp only [ne_eq, not_true_eq_false, if_false]
  have hge := blocksWire_length_ge bs
  have h := decompressLoop_blocks bs hbs ((blocksWire bs).length + 1) [] [] (by omega)
  rw [List.append_nil, List.nil_append] at h
  rw [h]
  obtain ⟨m, hm⟩ : ∃ m, (blocksWire bs).length + 1 - bs.length = m + 1 :=
    ⟨(blocksWire bs).length - bs.length, by omega⟩
  rw [hm, decompressLoop_eof]

theorem blocksWire_cons (b : Block) (bs : List Block) :
    blocksWire (b :: bs) = b.wire ++ blocksWire bs := by simp [blocksWire]

theorem blocksDecoded_cons (b : Block) (bs : List Block) :
    blocksDecoded (b :: bs) = b.decoded ++ blocksDecoded bs := by simp [blocksDecoded]

/-- The compressor loop returns status 0 and appends valid blocks that stand for the
unread input; each iteration adds at most 5 bytes to the bytes it read. -/
theorem compressLoop_blocks : ∀ (fuel : Nat) (fd out : List Byte), fd.length < fuel →
    ∃ bs : List Block, (∀ b ∈ bs, b.Valid) ∧
      compressLoop fuel fd out = some (0, out ++ blocksWire bs) ∧
      blocksDecoded bs = fd ∧
      (blocksWire bs).length ≤ fd.length + 5 * ((fd.length + 65535) / 65536) := by
  intro fuel
  induction fuel with
  | zero => intro fd out h; omega
  | succ fuel ih =>
    intro fd out hf
    have hB : RLE2_BLOCK_SIZE = 65536 := rfl
    by_cases hnil : fd = []
    · subst hnil
      refine ⟨[], by simp, ?_, by simp [blocksDecoded], by simp [blocksWire]⟩
      rw [compressLoop]
      simp [sysRead, blocksWire]
    · have hpos : 0 < fd.length := List.length_pos.mpr hnil
      have htl : (fd.take 65536).length = min 65536 fd.length := List.length_take _ _
      have hne : ¬ (fd.take 65536).length = 0 := by rw [htl]; omega
      obtain ⟨enc, henc, hdec⟩ := encode_then_decode (fd.take 65536) RLE2_RUN_THRESHOLD
      have hdl : (fd.drop 65536).length = fd.length - 65536 := List.length_drop _ _
      by_cases hraw : enc.length ≥ (fd.take 65536).length
      · obtain ⟨bs, hv, hres, hd, hsz⟩ :=
          ih (fd.drop 65536)
            (out ++ (0x00 : Byte) :: u32le_write (fd.take 65536).length ++ fd.take 65536)
            (by omega)
        have hmod : (fd.take 65536).length % 2 ^ 32 = (fd.take 65536).length :=
          Nat.mod_eq_of_lt (by rw [htl]; omega)
        refine ⟨⟨0x00, fd.take 65536⟩ :: bs, ?_, ?_, ?_, ?_⟩
        · intro b hb
          rcases List.mem_cons.mp hb with rfl | hb
          · exact ⟨by show (fd.take 65536).length < 2 ^ 32; rw [htl]; omega,
              Or.inl rfl⟩
          · exact hv b hb
        · rw [compressLoop]
          simp only [sysRead, hB, hne, if_false, henc, hraw, if_true, hmod, List.take_length]
          rw [hres, blocksWire_cons]
          simp [Block.wire, List.append_assoc]
        · rw [blocksDecoded_cons, hd]
          simp [Block.decoded]
        · rw [blocksWire_cons, List.length_append]
          have : (Block.wire ⟨0x00, fd.take 65536⟩).length = 5 + (fd.take 65536).length := by
            simp [Block.wire, u32le_write_length]; omega
          rw [this, htl]
          rw [hdl] at hsz
          omega
      · obtain ⟨bs, hv, hres, hd, hsz⟩ :=
          ih (fd.drop 65536)
            (out ++ (0x01 : Byte) :: u32le_write enc.length ++ enc)
            (by omega)
        have hlt : enc.length < (fd.take 65536).length := by omega
        have hmod : enc.length % 2 ^ 32 = enc.length :=
          Nat.mod_eq_of_lt (by rw [htl] at hlt; omega)
        have h10 : ¬ ((1 : Byte) = 0) := by decide
        refine ⟨⟨0x01, enc⟩ :: bs, ?_, ?_, ?_, ?_⟩
        · intro b hb
          rcases List.mem_cons.mp hb with rfl | hb
          · exact ⟨by show enc.length < 2 ^ 32; rw [htl] at hlt; omega,
              Or.inr ⟨rfl, _, hdec⟩⟩
          · exact hv b hb
        · rw [compressLoop]
          simp only [sysRead, hB, hne, if_false, henc, hraw, hmod, List.take_length]
          rw [hres, blocksWire_cons]
          simp [Block.wire, List.append_assoc]
        · rw [blocksDecoded_cons, hd]
          simp [Block.decoded, h10, hdec]
        · rw [blocksWire_cons, List.length_append]
          have : (Block.wire ⟨0x01, enc⟩).length = 5 + enc.length := by
            simp [Block.wire, u32le_write_length]; omega
          rw [this]
          rw [hdl] at hsz
          rw [htl] at hlt
          omega

/-! ## Proofs: the cipher -/

theorem ext_getD {l1 l2 : List Byte} (hlen : l1.length = l2.length)
    (h : ∀ i, i < l1.length → l1.getD i 0 = l2.getD i 0) : l1 = l2 := by
  apply List.ext_getElem hlen
  intro i h1 h2
  have := h i h1
  rw [List.getD_eq_getElem?_getD, List.getD_eq_getElem?_getD, List.getElem?_eq_getElem h1,
    List.getElem?_eq_getElem h2] at this
  simpa using this

theorem getD_set (l : List Byte) (i j : Nat) (a : Byte) (hi : i < l.length) :
    (l.set i a).getD j 0 = if j = i then a else l.getD j 0 := by
  simp only [List.getD_eq_getElem?_getD, List.getElem?_set]
  by_cases h : i = j
  · subst h; simp [hi]
  · have h2 : ¬ j = i := fun e => h e.symm
    simp [h, h2]

theorem vigStep_eq (signedChar : Bool) (key : List Byte) (encrypt : Bool) (d : List Byte)
    (i : Nat) :
    (let k := charToInt signedChar (key.getD (i % key.length) 0)
      if encrypt = true then d.set i (intToByte (((d.getD i 0).val : Int) + k))
      else d.set i (intToByte (((d.getD i 0).val : Int) - k)))
      = d.set i (vigByte signedChar key encrypt i (d.getD i 0)) := by
  cases encrypt <;> simp [vigByte]

theorem vigFold_spec (signedChar : Bool) (key : List Byte) (encrypt : Bool) (data : List Byte) :
    ∀ m, m ≤ data.length →
      ((List.range m).foldl
        (fun d i =>
          let k := charToInt signedChar (key.getD (i % key.length) 0)
          if encrypt = true then d.set i (intToByte (((d.getD i 0).val : Int) + k))
          else d.set i (intToByte (((d.getD i 0).val : Int) - k))) data).length = data.length ∧
      ∀ i, ((List.range m).foldl
        (fun d i =>
          let k := charToInt signedChar (key.getD (i % key.length) 0)
          if encrypt = true then d.set i (intToByte (((d.getD i 0).val : Int) + k))
          else d.set i (intToByte (((d.getD i 0).val : Int) - k))) data).getD i 0
        = if i < m then vigByte signedChar key encrypt i (data.getD i 0) else data.getD i 0 := by
  intro m
  induction m with
  | zero => intro _; simp
  | succ m ih =>
    intro hm
    obtain ⟨hl, hg⟩ := ih (by omega)
    rw [List.range_succ, List.foldl_append, List.foldl_cons, List.foldl_nil, vigStep_eq]
    refine ⟨by rw [List.length_set, hl], ?_⟩
    intro i
    rw [getD_set _ _ _ _ (by omega), hg m]
    by_cases him : i = m
    · subst him; simp
    · rw [hg i]
      by_cases hlt : i < m
      · have : i < m + 1 := by omega
        simp [him, hlt, this]
      · have : ¬ i < m + 1 := by omega
        simp [him, hlt, this]

/-- `vigenere_process_block` keeps the length and transforms byte `i` with key index `i`. -/
theorem vigenere_process_block_spec (signedChar : Bool) (data key : List Byte) (encrypt : Bool) :
    (vigenere_process_block signedChar data key encrypt).length = data.length ∧
    ∀ i, i < data.length →
      (vigenere_process_block signedChar data key encrypt).getD i 0
        = vigByte signedChar key encrypt i (data.getD i 0) := by
  obtain ⟨hl, hg⟩ := vigFold_spec signedChar key encrypt data data.length (Nat.le_refl _)
  refine ⟨hl, ?_⟩
  intro i hi
  have := hg i
  simp only [hi, if_true] at this
  exact this

theorem vigByte_inv (signedChar : Bool) (key : List Byte) (j : Nat) (b : Byte) :
    vigByte signedChar key false j (vigByte signedChar key true j b) = b := by
  simp only [vigByte, if_true, Bool.false_eq_true, if_false]
  generalize charToInt signedChar (key.getD (j % key.length) 0) = k
  apply Fin.ext
  simp only [intToByte]
  have hb := b.isLt
  omega

theorem block_cipher_inverse (signedChar : Bool) (data key : List Byte) :
    vigenere_process_block signedChar (vigenere_process_block signedChar data key true) key false
      = data := by
  obtain ⟨hl1, hg1⟩ := vigenere_process_block_spec signedChar data key true
  obtain ⟨hl2, hg2⟩ := vigenere_process_block_spec signedChar
    (vigenere_process_block signedChar data key true) key false
  apply ext_getD (by rw [hl2, hl1])
  intro i hi
  rw [hl2, hl1] at hi
  rw [hg2 i (by rw [hl1]; exact hi), hg1 i hi, vigByte_inv]

theorem getD_append_left (l1 l2 : List Byte) (i : Nat) (h : i < l1.length) :
    (l1 ++ l2).getD i 0 = l1.getD i 0 := by
  simp only [List.getD_eq_getElem?_getD, List.getElem?_append_left h]

theorem getD_append_right (l1 l2 : List Byte) (i : Nat) (h : l1.length ≤ i) :
    (l1 ++ l2).getD i 0 = l2.getD (i - l1.length) 0 := by
  simp only [List.getD_eq_getElem?_getD, List.getElem?_append_right h]

theorem getD_take (l : List Byte) (n i : Nat) (h : i < n) : (l.take n).getD i 0 = l.getD i 0 := by
  simp only [List.getD_eq_getElem?_getD, List.getElem?_take_of_lt h]

theorem getD_drop (l : List Byte) (n i : Nat) : (l.drop n).getD i 0 = l.getD (n + i) 0 := by
  simp only [List.getD_eq_getElem?_getD, List.getElem?_drop]

theorem sysPread_spec (file : List Byte) (count pos : Nat) (h : pos + count ≤ file.length) :
    (sysPread file count pos).length = count ∧
    ∀ j, j < count → (sysPread file count pos).getD j 0 = file.getD (pos + j) 0 := by
  refine ⟨by simp only [sysPread, List.length_take, List.length_drop]; omega, ?_⟩
  intro j hj
  rw [sysPread, getD_take _ _ _ hj, getD_drop]

theorem sysPwrite_spec (file buf : List Byte) (pos : Nat) (h : pos + buf.length ≤ file.length) :
    (sysPwrite file buf pos).length = file.length ∧
    ∀ p, (sysPwrite file buf pos).getD p 0
      = if pos ≤ p ∧ p < pos + buf.length then buf.getD (p - pos) 0 else file.getD p 0 := by
  have hz : pos - file.length = 0 := by omega
  have e : sysPwrite file buf pos = file.take pos ++ buf ++ file.drop (pos + buf.length) := by
    simp [sysPwrite, hz]
  have htl : (file.take pos).length = pos := by rw [List.length_take]; omega
  rw [e]
  refine ⟨by simp only [List.length_append, htl, List.length_drop]; omega, ?_⟩
  intro p
  by_cases h1 : p < pos
  · have : ¬ (pos ≤ p ∧ p < pos + buf.length) := by omega
    rw [if_neg this, List.append_assoc, getD_append_left _ _ _ (by omega), getD_take _ _ _ h1]
  · by_cases h2 : p < pos + buf.length
    · have : pos ≤ p ∧ p < pos + buf.length := by omega
      rw [if_pos this, getD_append_left _ _ _ (by simp only [List.length_append, htl]; omega),
        getD_append_right _ _ _ (by omega), htl]
    · have : ¬ (pos ≤ p ∧ p < pos + buf.length) := by omega
      rw [if_neg this, getD_append_right _ _ _ (by simp only [List.length_append, htl]; omega),
        getD_drop]
      congr 1
      simp only [List.length_append, htl]
      omega

/-- The sequential stream cipher returns status 0; byte `p` of its output is byte `p` of
the input transformed with key index `p mod 65536`. -/
theorem streamLoop_spec (signedChar : Bool) (key : List Byte) (encrypt : Bool) :
    ∀ (fuel : Nat) (fd out : List Byte), fd.length < fuel →
      ∃ C : List Byte, streamLoop signedChar key encrypt fuel fd out = some (0, out ++ C) ∧
        C.length = fd.length ∧
        ∀ p, p < fd.length →
          C.getD p 0 = vigByte signedChar key encrypt (p % 65536) (fd.getD p 0) := by
  intro fuel
  induction fuel with
  | zero => intro fd out h; omega
  | succ fuel ih =>
    intro fd out hf
    have hV : VIGENERE_BLOCK_SIZE = 65536 := rfl
    by_cases hnil : fd = []
    · subst hnil
      refine ⟨[], ?_, rfl, fun p hp => by simp at hp⟩
      rw [streamLoop]
      simp [sysRead]
    · have hpos : 0 < fd.length := List.length_pos.mpr hnil
      have htl : (fd.take 65536).length = min 65536 fd.length := List.length_take _ _
      have hne : ¬ (fd.take 65536).length = 0 := by rw [htl]; omega
      have hdl : (fd.drop 65536).length = fd.length - 65536 := List.length_drop _ _
      obtain ⟨hl, hg⟩ := vigenere_process_block_spec signedChar (fd.take 65536) key encrypt
      obtain ⟨C, hres, hlen, hget⟩ := ih (fd.drop 65536)
        (out ++ vigenere_process_block signedChar (fd.take 65536) key encrypt) (by omega)
      refine ⟨vigenere_process_block signedChar (fd.take 65536) key encrypt ++ C, ?_, ?_, ?_⟩
      · rw [streamLoop]
        simp only [sysRead, hV, hne, if_false, hres, List.append_assoc]
      · rw [List.length_append, hl, htl, hlen, hdl]; omega
      · intro p hp
        by_cases h1 : p < 65536
        · have hp2 : p < (fd.take 65536).length := by rw [htl]; omega
          rw [getD_append_left _ _ _ (by rw [hl]; exact hp2), hg p hp2, getD_take _ _ _ h1,
            Nat.mod_eq_of_lt h1]
        · have hfull : (fd.take 65536).length = 65536 := by rw [htl]; omega
          rw [getD_append_right _ _ _ (by rw [hl, hfull]; omega), hl, hfull,
            hget (p - 65536) (by rw [hdl]; omega), getD_drop]
          have e1 : (p - 65536) % 65536 = p % 65536 := by omega
          have e2 : 65536 + (p - 65536) = p := by omega
          rw [e1, e2]

/-- The worker of a region returns code 0; it overwrites the region `[pos, pos+remaining)`
of the output file, byte `p` with key index `(p - pos) mod 65536`, and nothing else. -/
theorem threadLoop_spec (signedChar : Bool) (src key : List Byte) (encrypt : Bool) :
    ∀ (fuel pos remaining : Nat) (dst : List Byte),
      pos + remaining ≤ src.length → dst.length = src.length → remaining < fuel →
      ∃ dst1 : List Byte,
        threadLoop signedChar src key encrypt fuel pos remaining dst = some (0, dst1) ∧
        dst1.length = src.length ∧
        ∀ p, dst1.getD p 0
          = if pos ≤ p ∧ p < pos + remaining then
              vigByte signedChar key encrypt ((p - pos) % 65536) (src.getD p 0)
            else dst.getD p 0 := by
  intro fuel
  induction fuel with
  | zero => intro pos remaining dst _ _ h; omega
  | succ fuel ih =>
    intro pos remaining dst hle hdst hf
    have hV : VIGENERE_BLOCK_SIZE = 65536 := rfl
    by_cases hrem : remaining > 0
    · obtain ⟨n, hn, hn1, hn2⟩ : ∃ n, (if remaining > 65536 then 65536 else remaining) = n ∧
          0 < n ∧ n ≤ remaining ∧ (n = 65536 ∨ n = remaining) ∧ n ≤ 65536 := by
        by_cases h : remaining > 65536
        · exact ⟨65536, by simp [h], by omega, by omega, Or.inl rfl, by omega⟩
        · exact ⟨remaining, by simp [h], hrem, Nat.le_refl _, Or.inr rfl, by omega⟩
      obtain ⟨hn2, hn3, hn4⟩ := hn2
      obtain ⟨hrl, hrg⟩ := sysPread_spec src n pos (by omega)
      obtain ⟨hl, hg⟩ := vigenere_process_block_spec signedChar (sysPread src n pos) key encrypt
      obtain ⟨hwl, hwg⟩ := sysPwrite_spec dst
        (vigenere_process_block signedChar (sysPread src n pos) key encrypt) pos
        (by rw [hl, hrl, hdst]; omega)
      obtain ⟨dst1, hres, hlen, hget⟩ := ih (pos + n) (remaining - n)
        (sysPwrite dst (vigenere_process_block signedChar (sysPread src n pos) key encrypt) pos)
        (by omega) (by rw [hwl, hdst]) (by omega)
      refine ⟨dst1, ?_, hlen, ?_⟩
      · rw [threadLoop]
        have hne : ¬ n = 0 := by omega
        simp only [hrem, if_true, hV, hn, hrl, hne, if_false]
        exact hres
      · intro p
        rw [hget p]
        by_cases h1 : pos + n ≤ p ∧ p < pos + n + (remaining - n)
        · have h2 : pos ≤ p ∧ p < pos + remaining := by omega
          have e : (p - (pos + n)) % 65536 = (p - pos) % 65536 := by
            rcases hn3 with h | h
            · subst h; omega
            · omega
          rw [if_pos h1, if_pos h2, e]
        · rw [if_neg h1, hwg p, hl, hrl]
          by_cases h3 : pos ≤ p ∧ p < pos + n
          · have h2 : pos ≤ p ∧ p < pos + remaining := by omega
            rw [if_pos h3, if_pos h2, hg (p - pos) (by rw [hrl]; omega),
              hrg (p - pos) (by omega)]
            have e1 : (p - pos) % 65536 = p - pos := Nat.mod_eq_of_lt (by omega)
            have e2 : pos + (p - pos) = p := by omega
            rw [e1, e2]
          · have h2 : ¬ (pos ≤ p ∧ p < pos + remaining) := by omega
            rw [if_neg h3, if_neg h2]
    · refine ⟨dst, ?_, hdst, ?_⟩
      · rw [threadLoop]
        simp [hrem]
      · intro p
        have : ¬ (pos ≤ p ∧ p < pos + remaining) := by omega
        rw [if_neg this]

/-! ## Proofs: the region partition -/

theorem taskLoop_chain (F chunk : Nat) (hc : 0 < chunk) : ∀ (cnt i : Nat),
    F ≤ (i + cnt) * chunk → RegionChain (taskLoop F chunk cnt i) (min (i * chunk) F) F := by
  intro cnt
  induction cnt with
  | zero =>
    intro i h
    simp only [taskLoop, RegionChain]
    simp only [Nat.add_zero] at h
    omega
  | succ cnt ih =>
    intro i h
    rw [taskLoop]
    by_cases hge : i * chunk ≥ F
    · simp only [hge, if_true, RegionChain]; omega
    · simp only [hge, if_false, RegionChain]
      have hnext : (i + 1) * chunk = i * chunk + chunk := Nat.succ_mul i chunk
      have hih := ih (i + 1) (by rw [show i + 1 + cnt = i + (cnt + 1) by omega]; exact h)
      rw [hnext] at hih
      refine ⟨by omega, by split <;> omega, ?_⟩
      have e : min (i * chunk) F
          + ((if i * chunk + chunk > F then F else i * chunk + chunk) - i * chunk)
          = min (i * chunk + chunk) F := by split <;> omega
      rw [e]
      exact hih

theorem regionChain_bounds : ∀ (rs : List FileBlockTask) (s e : Nat), RegionChain rs s e →
    s ≤ e ∧ (rs.map (fun r => r.length)).sum = e - s ∧
      ∀ r ∈ rs, s ≤ r.offset ∧ 0 < r.length ∧ r.offset + r.length ≤ e := by
  intro rs
  induction rs with
  | nil =>
    intro s e h
    simp only [RegionChain] at h
    subst h
    simp
  | cons r rs ih =>
    intro s e h
    obtain ⟨h1, h2, h3⟩ := h
    obtain ⟨a, b, c⟩ := ih _ _ h3
    refine ⟨by omega, by simp only [List.map_cons, List.sum_cons, b]; omega, ?_⟩
    intro q hq
    rcases List.mem_cons.mp hq with rfl | hq
    · exact ⟨by omega, h2, by omega⟩
    · obtain ⟨x, y, z⟩ := c q hq
      exact ⟨by omega, y, z⟩

theorem regionChain_adjacent : ∀ (rs : List FileBlockTask) (s e : Nat), RegionChain rs s e →
    List.Chain' (fun a b => b.offset = a.offset + a.length) rs := by
  intro rs
  induction rs with
  | nil => intro s e _; exact List.chain'_nil
  | cons r rs ih =>
    intro s e h
    obtain ⟨h1, _, h3⟩ := h
    rcases rs with _ | ⟨r2, rs⟩
    · exact List.chain'_singleton r
    · refine List.chain'_cons.mpr ⟨?_, ih _ _ h3⟩
      rw [h3.1, h1]

theorem regionChain_disjoint : ∀ (rs : List FileBlockTask) (s e : Nat), RegionChain rs s e →
    List.Pairwise (fun a b => a.offset + a.length ≤ b.offset) rs := by
  intro rs
  induction rs with
  | nil => intro s e _; exact List.Pairwise.nil
  | cons r rs ih =>
    intro s e h
    obtain ⟨h1, _, h3⟩ := h
    refine List.Pairwise.cons ?_ (ih _ _ h3)
    intro q hq
    obtain ⟨_, _, c⟩ := regionChain_bounds _ _ _ h3
    have := (c q hq).1
    omega

theorem ceil_chunk (F n : Nat) (hn : 1 ≤ n) :
    F ≤ n * ((F + n - 1) / n) ∧ (1 ≤ F → 0 < (F + n - 1) / n) := by
  have h1 := Nat.div_add_mod (F + n - 1) n
  have h2 := Nat.mod_lt (F + n - 1) (by omega : n > 0)
  refine ⟨by omega, ?_⟩
  intro hF
  exact Nat.div_pos (by omega) (by omega)

theorem fileRegions_chain (F n : Nat) (hF : 1 ≤ F) (hn : 1 ≤ n) :
    RegionChain (fileRegions F n) 0 F := by
  obtain ⟨h1, h2⟩ := ceil_chunk F n hn
  have := taskLoop_chain F ((F + n - 1) / n) (h2 hF) n 0 (by simpa using h1)
  simpa [fileRegions] using this

/-! ## Proofs: the file cipher -/

theorem mod_chunk_of_region (i chunk p : Nat) (h1 : i * chunk ≤ p) (h2 : p < i * chunk + chunk) :
    p % chunk = p - i * chunk := by
  have e : p = (p - i * chunk) + i * chunk := by omega
  have hlt : p - i * chunk < chunk := by omega
  calc p % chunk = ((p - i * chunk) + i * chunk) % chunk := by rw [← e]
    _ = (p - i * chunk) % chunk := Nat.add_mul_mod_self_right _ _ _
    _ = p - i * chunk := Nat.mod_eq_of_lt hlt

/-- All workers return code 0; together they overwrite the positions below
`min ((i + cnt) * chunk) F` from `i * chunk` on, byte `p` with key index
`(p mod chunk) mod 65536`. -/
theorem runTasks_spec (signedChar : Bool) (src key : List Byte) (encrypt : Bool)
    (chunk : Nat) (hc : 0 < chunk) : ∀ (cnt i : Nat) (dst : List Byte),
    dst.length = src.length →
    ∃ (rcs : List Nat) (dst1 : List Byte),
      runTasks signedChar src key encrypt (taskLoop src.length chunk cnt i) dst
        = some (rcs, dst1) ∧
      (∀ rc ∈ rcs, rc = 0) ∧ dst1.length = src.length ∧
      ∀ p, dst1.getD p 0
        = if i * chunk ≤ p ∧ p < (i + cnt) * chunk ∧ p < src.length then
            vigByte signedChar key encrypt ((p % chunk) % 65536) (src.getD p 0)
          else dst.getD p 0 := by
  intro cnt
  induction cnt with
  | zero =>
    intro i dst hdst
    refine ⟨[], dst, by simp [taskLoop, runTasks], by simp, hdst, ?_⟩
    intro p
    have : ¬ (i * chunk ≤ p ∧ p < (i + 0) * chunk ∧ p < src.length) := by
      simp only [Nat.add_zero]; omega
    rw [if_neg this]
  | succ cnt ih =>
    intro i dst hdst
    have hnext : (i + 1) * chunk = i * chunk + chunk := Nat.succ_mul i chunk
    have hend : (i + (cnt + 1)) * chunk = (i + 1 + cnt) * chunk := by
      rw [show i + (cnt + 1) = i + 1 + cnt by omega]
    have hmono : (i + 1) * chunk ≤ (i + 1 + cnt) * chunk :=
      Nat.mul_le_mul_right chunk (by omega)
    by_cases hge : i * chunk ≥ src.length
    · refine ⟨[], dst, by simp [taskLoop, runTasks, hge], by simp, hdst, ?_⟩
      intro p
      have : ¬ (i * chunk ≤ p ∧ p < (i + (cnt + 1)) * chunk ∧ p < src.length) := by omega
      rw [if_neg this]
    · obtain ⟨len, hlen, hpos, hle, hlen2⟩ :
          ∃ len, (if i * chunk + chunk > src.length then src.length else i * chunk + chunk)
            - i * chunk = len ∧ 0 < len ∧ i * chunk + len ≤ src.length ∧
            i * chunk + len = min (i * chunk + chunk) src.length :=
        ⟨_, rfl, by split <;> omega, by split <;> omega, by split <;> omega⟩
      obtain ⟨d1, hres1, hl1, hg1⟩ :=
        threadLoop_spec signedChar src key encrypt (len + 1) (i * chunk) len dst hle hdst
          (by omega)
      obtain ⟨rcs, d2, hres2, hz, hl2, hg2⟩ := ih (i + 1) d1 hl1
      refine ⟨0 :: rcs, d2, ?_, ?_, hl2, ?_⟩
      · rw [taskLoop]
        simp only [hge, if_false, hlen, runTasks, thread_vigenere_block, hres1, hres2]
      · intro rc hrc
        rcases List.mem_cons.mp hrc with rfl | hrc
        · rfl
        · exact hz rc hrc
      · intro p
        rw [hg2 p, hend]
        by_cases hA : (i + 1) * chunk ≤ p ∧ p < (i + 1 + cnt) * chunk ∧ p < src.length
        · have hB : i * chunk ≤ p ∧ p < (i + 1 + cnt) * chunk ∧ p < src.length := by omega
          rw [if_pos hA, if_pos hB]
        · rw [if_neg hA, hg1 p]
          by_cases hC : i * chunk ≤ p ∧ p < i * chunk + len
          · have hB : i * chunk ≤ p ∧ p < (i + 1 + cnt) * chunk ∧ p < src.length := by omega
            rw [if_pos hC, if_pos hB,
              mod_chunk_of_region i chunk p hC.1 (by omega)]
          · have hB : ¬ (i * chunk ≤ p ∧ p < (i + 1 + cnt) * chunk ∧ p < src.length) := by
              omega
            rw [if_neg hC, if_neg hB]

theorem joinAll_zero (rcs : List Nat) (h : ∀ rc ∈ rcs, rc = 0) : joinAll rcs = 0 := by
  unfold joinAll
  induction rcs with
  | nil => rfl
  | cons rc rcs ih =>
    have h0 : rc = 0 := h rc (List.mem_cons_self _ _)
    subst h0
    simpa using ih (fun q hq => h q (List.mem_cons_of_mem _ hq))

theorem clampNproc_range (nprocOnline : Int) :
    1 ≤ clampNproc nprocOnline ∧ clampNproc nprocOnline ≤ 8 := by
  simp only [clampNproc, MAX_CRYPTO_THREADS]
  constructor <;> (split <;> split <;> simp_all)

/-- With a non-empty key the file cipher returns status 0 and a destination of the same
length as the source, byte `p` being byte `p` of the source transformed with key index
`keyPhase filesize nprocOnline p`. -/
theorem vigenere_file_parallel_spec (signedChar : Bool) (nprocOnline : Int)
    (src key : List Byte) (encrypt : Bool) (hkey : key ≠ []) :
    ∃ C : List Byte,
      vigenere_file_parallel signedChar nprocOnline src key encrypt = some (0, some C) ∧
      C.length = src.length ∧
      ∀ p, p < src.length →
        C.getD p 0
          = vigByte signedChar key encrypt (keyPhase src.length nprocOnline p) (src.getD p 0) := by
  have hV : VIGENERE_BLOCK_SIZE = 65536 := rfl
  by_cases hseq : src.length = 0 ∨ src.length < PARALLEL_FILE_THRESHOLD
      ∨ clampNproc nprocOnline = 1
  · obtain ⟨C, hres, hlen, hget⟩ :=
      streamLoop_spec signedChar key encrypt (src.length + 1) src [] (by omega)
    refine ⟨C, ?_, hlen, ?_⟩
    · rw [vigenere_file_parallel]
      simp only [hkey, if_false, hseq, if_true, vigenere_process_stream, hres, List.nil_append]
    · intro p hp
      rw [hget p hp, keyPhase, if_pos hseq, hV]
  · obtain ⟨hlo, hhi⟩ := clampNproc_range nprocOnline
    have hF : 1 ≤ src.length := by omega
    have hn : 1 ≤ (clampNproc nprocOnline).toNat := by omega
    obtain ⟨hcover, hchunk⟩ := ceil_chunk src.length (clampNproc nprocOnline).toNat hn
    obtain ⟨rcs, d, hres, hz, hl, hg⟩ :=
      runTasks_spec signedChar src key encrypt
        ((src.length + (clampNproc nprocOnline).toNat - 1) / (clampNproc nprocOnline).toNat)
        (hchunk hF) (clampNproc nprocOnline).toNat 0 (List.replicate src.length 0)
        (by simp)
    refine ⟨d, ?_, hl, ?_⟩
    · rw [vigenere_file_parallel]
      simp only [hkey, if_false, hseq, fileRegions, hres, joinAll_zero rcs hz]
    · intro p hp
      rw [hg p, keyPhase, if_neg hseq, hV]
      have : 0 * ((src.length + (clampNproc nprocOnline).toNat - 1)
            / (clampNproc nprocOnline).toNat) ≤ p ∧
          p < (0 + (clampNproc nprocOnline).toNat)
            * ((src.length + (clampNproc nprocOnline).toNat - 1)
              / (clampNproc nprocOnline).toNat) ∧ p < src.length := by
        refine ⟨by simp, ?_, hp⟩
        rw [Nat.zero_add]
        omega
      rw [if_pos this]

theorem decompressLoop_unknown_tag (tag : Byte) (payload : List Byte) (h0 : tag ≠ 0x00)
    (h1 : tag ≠ 0x01) (hne : payload ≠ []) (hlen : payload.length < 2 ^ 32)
    (fuel : Nat) (rest out : List Byte) :
    decompressLoop (fuel + 1) (Block.wire ⟨tag, payload⟩ ++ rest) out = some (8, out) := by
  have e : Block.wire ⟨tag, payload⟩ ++ rest
      = (tag :: u32le_write payload.length) ++ (payload ++ rest) := by
    simp [Block.wire]
  have h5 : (tag :: u32le_write payload.length).length = 5 := by
    simp [u32le_write_length]
  have hread := read_all_append (tag :: u32le_write payload.length) (payload ++ rest)
  rw [h5] at hread
  have hread2 := read_all_append payload rest
  have hz : ¬ payload.length = 0 := fun h => hne (List.length_eq_zero.mp h)
  rw [decompressLoop, e, hread]
  simp only [ne_eq, not_true_eq_false, if_false, List.getD_cons_zero, List.drop_succ_cons,
    List.drop_zero, u32le_read_write _ hlen, hz, hread2, h0, h1]

/-! ## Proofs: cipher bytes and worker codes -/

theorem intToByte_add_val (signedChar : Bool) (b k : Byte) :
    ((intToByte ((b.val : Int) + charToInt signedChar k)).val : Int)
      = ((b.val : Int) + (k.val : Int)) % 256 := by
  have hb := b.isLt
  have hk := k.isLt
  simp only [intToByte, charToInt]
  split <;> omega

theorem intToByte_sub_val (signedChar : Bool) (b k : Byte) :
    ((intToByte ((b.val : Int) - charToInt signedChar k)).val : Int)
      = ((b.val : Int) - (k.val : Int)) % 256 := by
  have hb := b.isLt
  have hk := k.isLt
  simp only [intToByte, charToInt]
  split <;> omega

/-- Whatever the signedness of `char`, the cipher byte is the sum (difference) of the data
byte and the unsigned key byte, modulo 256. -/
theorem vigByte_val (signedChar : Bool) (key : List Byte) (encrypt : Bool) (j : Nat) (b : Byte) :
    ((vigByte signedChar key encrypt j b).val : Int)
      = if encrypt = true then
          ((b.val : Int) + ((key.getD (j % key.length) 0).val : Int)) % 256
        else ((b.val : Int) - ((key.getD (j % key.length) 0).val : Int)) % 256 := by
  cases encrypt
  · simp only [vigByte, Bool.false_eq_true, if_false]
    exact intToByte_sub_val signedChar b _
  · simp only [vigByte, if_true]
    exact intToByte_add_val signedChar b _

theorem joinStep_keep (rcs : List Nat) : ∀ acc : Nat, acc ≠ 0 →
    rcs.foldl (fun final_rc rc => if rc ≠ 0 ∧ final_rc = 0 then rc else final_rc) acc = acc := by
  induction rcs with
  | nil => intro acc _; rfl
  | cons rc rcs ih =>
    intro acc h
    rw [List.foldl_cons]
    have : (if rc ≠ 0 ∧ acc = 0 then rc else acc) = acc := by
      have : ¬ (rc ≠ 0 ∧ acc = 0) := fun hh => h hh.2
      rw [if_neg this]
    rw [this]
    exact ih acc h

theorem joinAll_first_nonzero (pre : List Nat) (rc : Nat) (post : List Nat)
    (hpre : ∀ x ∈ pre, x = 0) (hrc : rc ≠ 0) : joinAll (pre ++ rc :: post) = rc := by
  unfold joinAll
  induction pre with
  | nil =>
    rw [List.nil_append, List.foldl_cons]
    have : (if rc ≠ 0 ∧ (0 : Nat) = 0 then rc else 0) = rc := by simp [hrc]
    rw [this]
    exact joinStep_keep post rc hrc
  | cons x pre ih =>
    have hx : x = 0 := hpre x (List.mem_cons_self _ _)
    subst hx
    rw [List.cons_append, List.foldl_cons]
    have : (if (0 : Nat) ≠ 0 ∧ (0 : Nat) = 0 then 0 else 0) = 0 := by simp
    rw [this]
    exact ih (fun y hy => hpre y (List.mem_cons_of_mem _ hy))

theorem joinAll_eq_zero_iff (rcs : List Nat) : joinAll rcs = 0 ↔ ∀ rc ∈ rcs, rc = 0 := by
  constructor
  · intro h
    by_contra hne
    push_neg at hne
    obtain ⟨rc, hmem, hrc⟩ := hne
    -- split at the first non-zero code
    have : ∃ pre x post, rcs = pre ++ x :: post ∧ (∀ y ∈ pre, y = 0) ∧ x ≠ 0 := by
      clear h
      induction rcs with
      | nil => simp at hmem
      | cons a rcs ih =>
        by_cases ha : a = 0
        · rcases List.mem_cons.mp hmem with h1 | h1
          · exact absurd (h1 ▸ ha) hrc
          · obtain ⟨pre, x, post, e, hp, hx⟩ := ih h1
            refine ⟨a :: pre, x, post, by rw [e]; rfl, ?_, hx⟩
            intro y hy
            rcases List.mem_cons.mp hy with h2 | h2
            · rw [h2]; exact ha
            · exact hp y h2
        · exact ⟨[], a, rcs, rfl, by simp, ha⟩
    obtain ⟨pre, x, post, e, hp, hx⟩ := this
    rw [e, joinAll_first_nonzero pre x post hp hx] at h
    exact hx h
  · exact joinAll_zero rcs

/-- A worker always returns a code: the loop of `thread_vigenere_block` terminates. -/
theorem threadLoop_total (signedChar : Bool) (src key : List Byte) (encrypt : Bool) :
    ∀ (fuel pos remaining : Nat) (dst : List Byte), remaining < fuel →
      ∃ (rc : Nat) (dst1 : List Byte),
        threadLoop signedChar src key encrypt fuel pos remaining dst = some (rc, dst1) := by
  intro fuel
  induction fuel with
  | zero => intro pos remaining dst h; omega
  | succ fuel ih =>
    intro pos remaining dst hf
    rw [threadLoop]
    by_cases hrem : remaining > 0
    · simp only [hrem, if_true]
      by_cases hr : (sysPread src
          (if remaining > VIGENERE_BLOCK_SIZE then VIGENERE_BLOCK_SIZE else remaining) pos).length = 0
      · simp only [hr, if_true]
        exact ⟨3, dst, rfl⟩
      · simp only [hr, if_false]
        exact ih _ _ _ (by omega)
    · simp only [hrem, if_false]
      exact ⟨0, dst, rfl⟩

/-- Every dispatched worker is run and contributes one code. -/
theorem runTasks_total (signedChar : Bool) (src key : List Byte) (encrypt : Bool) :
    ∀ (tasks : List FileBlockTask) (dst : List Byte),
      ∃ (rcs : List Nat) (dst1 : List Byte),
        runTasks signedChar src key encrypt tasks dst = some (rcs, dst1) ∧
        rcs.length = tasks.length := by
  intro tasks
  induction tasks with
  | nil => intro dst; exact ⟨[], dst, rfl, rfl⟩
  | cons t ts ih =>
    intro dst
    obtain ⟨rc, d1, h1⟩ :=
      threadLoop_total signedChar src key encrypt (t.length + 1) t.offset t.length dst (by omega)
    obtain ⟨rcs, d2, h2, hl⟩ := ih d1
    refine ⟨rc :: rcs, d2, ?_, by simp [hl]⟩
    simp only [runTasks, thread_vigenere_block, h1, h2]

/-! ## Proofs: the plan of the file cipher -/

theorem taskLoop_eq_map (F chunk : Nat) : ∀ (cnt i : Nat),
    (∀ j, j < i + cnt → j * chunk < F) →
    taskLoop F chunk cnt i
      = (List.range' i cnt).map
          (fun j => (⟨j * chunk, min ((j + 1) * chunk) F - j * chunk⟩ : FileBlockTask)) := by
  intro cnt
  induction cnt with
  | zero => intro i _; rfl
  | succ cnt ih =>
    intro i h
    have hi : i * chunk < F := h i (by omega)
    have hge : ¬ i * chunk ≥ F := by omega
    have hnext : (i + 1) * chunk = i * chunk + chunk := Nat.succ_mul i chunk
    rw [taskLoop, List.range'_succ, List.map_cons,
      ih (i + 1) (fun j hj => h j (by omega))]
    simp only [hge, if_false]
    congr 1
    rw [hnext]
    congr 1
    split <;> omega

theorem parallel_offsets_in_file (F nn : Nat) (hF : 1048576 ≤ F) (h2 : 1 ≤ nn) (h8 : nn ≤ 8) :
    ∀ j, j < nn → j * ((F + nn - 1) / nn) < F := by
  intro j hj
  have hP : nn * ((F + nn - 1) / nn) ≤ F + nn - 1 := Nat.mul_div_le _ _
  have hc8 : 8 ≤ (F + nn - 1) / nn :=
    (Nat.le_div_iff_mul_le (by omega)).mpr (by omega)
  have hle : j * ((F + nn - 1) / nn) ≤ (nn - 1) * ((F + nn - 1) / nn) :=
    Nat.mul_le_mul_right _ (by omega)
  have hsplit : ∀ c : Nat, (nn - 1) * c + c = nn * c := by
    intro c
    obtain ⟨m, rfl⟩ : ∃ m, nn = m + 1 := ⟨nn - 1, by omega⟩
    rw [Nat.add_sub_cancel, Nat.succ_mul]
  have := hsplit ((F + nn - 1) / nn)
  omega

theorem vigenere_file_parallel_plan (signedChar : Bool) (nprocOnline : Int)
    (src key : List Byte) (encrypt : Bool) (hkey : key ≠ []) :
    vigenere_file_parallel signedChar nprocOnline src key encrypt
      = match cipherPlan src.length nprocOnline with
        | none =>
          (vigenere_process_stream signedChar src key encrypt).map (fun r => (r.1, some r.2))
        | some regions =>
          (runTasks signedChar src key encrypt regions (List.replicate src.length 0)).map
            (fun r => (joinAll r.1, some r.2)) := by
  rw [vigenere_file_parallel, cipherPlan]
  simp only [hkey, if_false]
  by_cases hseq : src.length = 0 ∨ src.length < PARALLEL_FILE_THRESHOLD
      ∨ clampNproc nprocOnline = 1
  · simp only [hseq, if_true]
    cases vigenere_process_stream signedChar src key encrypt with
    | none => rfl
    | some r => rfl
  · simp only [hseq, if_false]
    cases runTasks signedChar src key encrypt
        (fileRegions src.length (clampNproc nprocOnline).toNat)
        (List.replicate src.length 0) with
    | none => rfl
    | some r => rfl

/-! ## Proofs: blocks the decompressor passes over -/

theorem decompressLoop_fuel : ∀ (fuel : Nat) (fd out : List Byte), fd.length < fuel →
    ∀ fuel2, fuel ≤ fuel2 → decompressLoop fuel2 fd out = decompressLoop fuel fd out := by
  intro fuel
  induction fuel with
  | zero => intro fd out h; omega
  | succ fuel ih =>
    intro fd out hf fuel2 hle
    obtain ⟨f2, rfl⟩ : ∃ f2, fuel2 = f2 + 1 := ⟨fuel2 - 1, by omega⟩
    have hf2 : fuel ≤ f2 := by omega
    rw [decompressLoop, decompressLoop, read_all_eq]
    by_cases h5 : 5 ≤ fd.length
    · have hd5 : (fd.drop 5).length < fuel := by rw [List.length_drop]; omega
      simp only [h5, if_true, ne_eq, not_true_eq_false, if_false]
      by_cases hz : u32le_read ((fd.take 5).drop 1) = 0
      · simp only [hz, if_true]
        exact ih _ _ hd5 f2 hf2
      · simp only [hz, if_false, read_all_eq]
        by_cases hp : u32le_read ((fd.take 5).drop 1) ≤ (fd.drop 5).length
        · have hd : ((fd.drop 5).drop (u32le_read ((fd.take 5).drop 1))).length < fuel := by
            rw [List.length_drop]; omega
          simp only [hp, if_true, ne_eq, not_true_eq_false, if_false]
          by_cases h0 : (fd.take 5).getD 0 0 = 0x00
          · simp only [h0, if_true]
            exact ih _ _ hd f2 hf2
          · simp only [h0, if_false]
            by_cases h1 : (fd.take 5).getD 0 0 = 0x01
            · simp only [h1, if_true]
              rcases packbits_decode
                  (((fd.drop 5).take (u32le_read ((fd.take 5).drop 1))).take
                    (u32le_read ((fd.take 5).drop 1))) with _ | r
              · rfl
              · cases r with
                | error e => rfl
                | ok o => exact ih _ _ hd f2 hf2
            · simp only [h1, if_false]
        · simp only [hp, if_false, ne_eq, Nat.succ_ne_zero, not_false_eq_true, if_true]
    · simp only [h5, if_false, ne_eq, Nat.succ_ne_zero, not_false_eq_true, if_true]

/-- One iteration of the decompressor loop on a block with an empty payload: the block is
skipped, whatever its tag. -/
theorem decompressLoop_empty_block (tag : Byte) (fuel : Nat) (rest out : List Byte) :
    decompressLoop (fuel + 1) (Block.wire ⟨tag, []⟩ ++ rest) out
      = decompressLoop fuel rest out := by
  have e : Block.wire ⟨tag, []⟩ ++ rest = (tag :: u32le_write 0) ++ rest := by
    simp [Block.wire]
  have h5 : (tag :: u32le_write 0).length = 5 := by simp [u32le_write_length]
  have hread := read_all_append (tag :: u32le_write 0) rest
  rw [h5] at hread
  rw [decompressLoop, e, hread]
  simp only [ne_eq, not_true_eq_false, if_false, List.drop_succ_cons, List.drop_zero,
    u32le_read_write 0 (by decide), if_true]

theorem decoded_empty_block (tag : Byte) : Block.decoded ⟨tag, []⟩ = [] := by
  by_cases h : tag = 0x00
  · simp [Block.decoded, h]
  · simp [Block.decoded, h, packbits_decode_nil]

/-- The decompressor loop passes over blocks that are valid or have an empty payload. -/
theorem decompressLoop_passable (bs : List Block)
    (hbs : ∀ b ∈ bs, b.Valid ∨ b.payload = []) :
    ∀ (fuel : Nat) (rest out : List Byte), bs.length ≤ fuel →
      decompressLoop fuel (blocksWire bs ++ rest) out
        = decompressLoop (fuel - bs.length) rest (out ++ blocksDecoded bs) := by
  induction bs with
  | nil => intro fuel rest out _; simp [blocksWire, blocksDecoded]
  | cons b bs ih =>
    intro fuel rest out hfuel
    obtain ⟨f, rfl⟩ : ∃ f, fuel = f + 1 := ⟨fuel - 1, by simp at hfuel; omega⟩
    have hf : bs.length ≤ f := by simpa using hfuel
    have e1 : blocksWire (b :: bs) ++ rest = b.wire ++ (blocksWire bs ++ rest) := by
      simp [blocksWire]
    have e2 : blocksDecoded (b :: bs) = b.decoded ++ blocksDecoded bs := by
      simp [blocksDecoded]
    have hstep : decompressLoop (f + 1) (b.wire ++ (blocksWire bs ++ rest)) out
        = decompressLoop f (blocksWire bs ++ rest) (out ++ b.decoded) := by
      rcases hbs b (List.mem_cons_self _ _) with hv | hn
      · exact decompressLoop_block b hv f _ out
      · obtain ⟨tag, payload⟩ := b
        simp only at hn
        subst hn
        rw [decompressLoop_empty_block, decoded_empty_block, List.append_nil]
    rw [e1, e2, hstep, ih (fun q hq => hbs q (List.mem_cons_of_mem _ hq)) f rest _ hf,
      List.append_assoc]
    simp

/-! ## Proofs: the blocks the compressor writes -/

theorem u32le_write_bytes (v : Nat) :
    u32le_write v = [toByte (v % 256), toByte (v / 256 % 256), toByte (v / 65536 % 256),
      toByte (v / 16777216 % 256)] := by
  simp only [u32le_write, and_ff, Nat.shiftRight_eq_div_pow]

theorem encode_nonempty (chunk enc : List Byte) (k : Int) (hne : chunk ≠ [])
    (h : packbits_encode_threshold chunk k = some enc) : enc ≠ [] := by
  obtain ⟨enc2, h2, hdec⟩ := encode_then_decode chunk k
  rw [h] at h2
  injection h2 with h2
  subst h2
  intro hnil
  rw [hnil, packbits_decode_nil] at hdec
  injection hdec with hdec
  injection hdec with hdec
  exact hne hdec.symm

/-- The compressor loop writes one block per consecutive chunk of the unread input. -/
theorem compressLoop_chunks : ∀ (fuel : Nat) (fd out : List Byte), fd.length < fuel →
    ∃ (cs : List (List Byte)) (bs : List Block), IsChunking fd cs ∧
      List.Forall₂ IsChunkBlock cs bs ∧
      (∀ b ∈ bs, b.payload ≠ [] ∧ b.payload.length < 2 ^ 32) ∧
      compressLoop fuel fd out = some (0, out ++ blocksWire bs) := by
  intro fuel
  induction fuel with
  | zero => intro fd out h; omega
  | succ fuel ih =>
    intro fd out hf
    have hB : RLE2_BLOCK_SIZE = 65536 := rfl
    by_cases hnil : fd = []
    · subst hnil
      refine ⟨[], [], ⟨rfl, by simp, by simp⟩, List.Forall₂.nil, by simp, ?_⟩
      rw [compressLoop]
      simp [sysRead, blocksWire]
    · have hpos : 0 < fd.length := List.length_pos.mpr hnil
      have htl : (fd.take 65536).length = min 65536 fd.length := List.length_take _ _
      have hne : ¬ (fd.take 65536).length = 0 := by rw [htl]; omega
      have hcne : fd.take 65536 ≠ [] := fun h => hne (by rw [h]; rfl)
      obtain ⟨enc, henc, _⟩ := encode_then_decode (fd.take 65536) RLE2_RUN_THRESHOLD
      have hencne := encode_nonempty _ _ _ hcne henc
      have hdl : (fd.drop 65536).length = fd.length - 65536 := List.length_drop _ _
      -- the chunk list of the whole input from the chunk list of the rest
      have hchunk : ∀ cs, IsChunking (fd.drop 65536) cs →
          IsChunking fd (fd.take 65536 :: cs) := by
        intro cs hcs
        obtain ⟨h1, h2, h3⟩ := hcs
        refine ⟨by rw [List.flatten_cons, h1, List.take_append_drop], ?_, ?_⟩
        · intro c hc
          rcases List.mem_cons.mp hc with rfl | hc
          · exact ⟨hcne, by rw [htl, hB]; omega⟩
          · exact h2 c hc
        · intro c hc
          rcases cs with _ | ⟨c2, cs2⟩
          · simp at hc
          · rw [List.dropLast_cons₂] at hc
            rcases List.mem_cons.mp hc with rfl | hc
            · have hlen2 : 0 < (fd.drop 65536).length := by
                rw [← h1, List.flatten_cons, List.length_append]
                have := List.length_pos.mpr (h2 c2 (List.mem_cons_self _ _)).1
                omega
              rw [htl, hB]
              omega
            · exact h3 c hc
      by_cases hraw : enc.length ≥ (fd.take 65536).length
      · obtain ⟨cs, bs, hcs, hfa, hpl, hres⟩ :=
          ih (fd.drop 65536)
            (out ++ (0x00 : Byte) :: u32le_write (fd.take 65536).length ++ fd.take 65536)
            (by omega)
        have hmod : (fd.take 65536).length % 2 ^ 32 = (fd.take 65536).length :=
          Nat.mod_eq_of_lt (by rw [htl]; omega)
        refine ⟨fd.take 65536 :: cs, ⟨0x00, fd.take 65536⟩ :: bs, hchunk cs hcs,
          List.Forall₂.cons ⟨enc, henc, Or.inr ⟨by omega, rfl⟩⟩ hfa, ?_, ?_⟩
        · intro b hb
          rcases List.mem_cons.mp hb with rfl | hb
          · exact ⟨hcne, by show (fd.take 65536).length < 2 ^ 32; rw [htl]; omega⟩
          · exact hpl b hb
        · rw [compressLoop]
          simp only [sysRead, hB, hne, if_false, henc, hraw, if_true, hmod, List.take_length]
          rw [hres, blocksWire_cons]
          simp [Block.wire, List.append_assoc]
      · obtain ⟨cs, bs, hcs, hfa, hpl, hres⟩ :=
          ih (fd.drop 65536)
            (out ++ (0x01 : Byte) :: u32le_write enc.length ++ enc)
            (by omega)
        have hlt : enc.length < (fd.take 65536).length := by omega
        have hmod : enc.length % 2 ^ 32 = enc.length :=
          Nat.mod_eq_of_lt (by rw [htl] at hlt; omega)
        refine ⟨fd.take 65536 :: cs, ⟨0x01, enc⟩ :: bs, hchunk cs hcs,
          List.Forall₂.cons ⟨enc, henc, Or.inl ⟨hlt, rfl⟩⟩ hfa, ?_, ?_⟩
        · intro b hb
          rcases List.mem_cons.mp hb with rfl | hb
          · exact ⟨hencne, by show enc.length < 2 ^ 32; rw [htl] at hlt; omega⟩
          · exact hpl b hb
        · rw [compressLoop]
          simp only [sysRead, hB, hne, if_false, henc, hraw, hmod, List.take_length]
          rw [hres, blocksWire_cons]
          simp [Block.wire, List.append_assoc]

/-! ## Proofs: the directory operations -/

theorem compressDirLoop_names : ∀ (es : List DirEntry) (tc id : Nat) (started : List ThreadTask),
    (compressDirLoop es tc id started).map (fun t => (t.input_name, t.output_name))
      = started.map (fun t => (t.input_name, t.output_name))
        ++ (es.filter (fun e => decide (e.d_name ≠ ['.'] ∧ e.d_name ≠ ['.', '.'] ∧
              e.stat = some StatKind.regular))).map
            (fun e => (e.d_name, e.d_name ++ ['.', 'r', 'l', 'e'])) := by
  intro es
  induction es with
  | nil => intro tc id started; simp [compressDirLoop]
  | cons e es ih =>
    intro tc id started
    rw [compressDirLoop]
    by_cases hdot : e.d_name = ['.'] ∨ e.d_name = ['.', '.']
    · have hf : decide (e.d_name ≠ ['.'] ∧ e.d_name ≠ ['.', '.'] ∧
          e.stat = some StatKind.regular) = false := by
        rw [decide_eq_false_iff_not]
        intro h
        rcases hdot with h1 | h1
        · exact h.1 h1
        · exact h.2.1 h1
      simp only [hdot, if_true, List.filter_cons, hf]
      exact ih tc id started
    · simp only [hdot, if_false]
      rcases hst : e.stat with _ | kind
      · have hf : decide (e.d_name ≠ ['.'] ∧ e.d_name ≠ ['.', '.'] ∧
            e.stat = some StatKind.regular) = false := by
          rw [decide_eq_false_iff_not, hst]
          intro h
          exact Option.noConfusion h.2.2
        simp only [List.filter_cons, hf]
        exact ih tc id started
      · by_cases hreg : kind = StatKind.regular
        · subst hreg
          have ht : decide (e.d_name ≠ ['.'] ∧ e.d_name ≠ ['.', '.'] ∧
              e.stat = some StatKind.regular) = true := by
            rw [decide_eq_true_iff, hst]
            exact ⟨fun h => hdot (Or.inl h), fun h => hdot (Or.inr h), rfl⟩
          simp only [ne_eq, not_true_eq_false, if_false, List.filter_cons, ht, if_true,
            List.map_cons]
          rw [ih]
          simp
        · have hf : decide (e.d_name ≠ ['.'] ∧ e.d_name ≠ ['.', '.'] ∧
              e.stat = some StatKind.regular) = false := by
            rw [decide_eq_false_iff_not, hst]
            intro h
            exact hreg (Option.some.inj h.2.2)
          simp only [ne_eq, hreg, not_false_eq_true, if_true, List.filter_cons, hf]
          exact ih tc id started

theorem joinBatch_append (a b : List Nat) (rc : Nat) :
    joinBatch (a ++ b) rc = joinBatch b (joinBatch a rc) := by
  simp [joinBatch, List.foldl_append]

theorem joinBatch_zeros (l : List Nat) (rc : Nat) (h : ∀ c ∈ l, c = 0) :
    joinBatch l rc = rc := by
  induction l generalizing rc with
  | nil => rfl
  | cons c l ih =>
    have hc : c = 0 := h c (List.mem_cons_self _ _)
    subst hc
    simp only [joinBatch, List.foldl_cons, ne_eq, not_true_eq_false, if_false]
    exact ih rc (fun x hx => h x (List.mem_cons_of_mem _ hx))

/-- The status of `process_directory` is the last result that is not 0. -/
theorem joinBatch_last_nonzero (pre : List Nat) (c : Nat) (post : List Nat) (rc : Nat)
    (hc : c ≠ 0) (hpost : ∀ x ∈ post, x = 0) : joinBatch (pre ++ c :: post) rc = c := by
  rw [joinBatch_append]
  have : joinBatch (c :: post) (joinBatch pre rc) = joinBatch post c := by
    simp [joinBatch, hc]
  rw [this]
  exact joinBatch_zeros post c hpost

theorem joinBatch_eq_zero_iff (l : List Nat) : joinBatch l 0 = 0 ↔ ∀ c ∈ l, c = 0 := by
  constructor
  · intro h
    induction l using List.reverseRecOn with
    | nil => simp
    | append_singleton l c ih =>
      rw [joinBatch_append] at h
      by_cases hc : c = 0
      · subst hc
        have h2 : joinBatch [0] (joinBatch l 0) = joinBatch l 0 := by simp [joinBatch]
        rw [h2] at h
        intro x hx
        rcases List.mem_append.mp hx with hx | hx
        · exact ih h x hx
        · simpa using hx
      · have h2 : joinBatch [c] (joinBatch l 0) = c := by simp [joinBatch, hc]
        rw [h2] at h
        exact absurd h hc
  · exact joinBatch_zeros l 0

theorem processDirLoop_closed (codes : DirEntry → Nat) :
    ∀ (es : List DirEntry) (batch : List Nat) (rc : Nat) (started : List DirEntry),
      processDirLoop (fun e => some (codes e)) es batch rc started
        = some (joinBatch
            (batch ++ (es.filter (fun e => decide (e.d_name.head? ≠ some '.' ∧
              e.stat = some StatKind.regular))).map codes) rc,
            started ++ es.filter (fun e => decide (e.d_name.head? ≠ some '.' ∧
              e.stat = some StatKind.regular))) := by
  intro es
  induction es with
  | nil => intro batch rc started; simp [processDirLoop]
  | cons e es ih =>
    intro batch rc started
    rw [processDirLoop]
    by_cases hdot : e.d_name.head? = some '.'
    · have hf : decide (e.d_name.head? ≠ some '.' ∧ e.stat = some StatKind.regular)
          = false := by
        rw [decide_eq_false_iff_not]
        intro h
        exact h.1 hdot
      simp only [hdot, if_true, List.filter_cons, hf]
      exact ih batch rc started
    · simp only [hdot, if_false]
      rcases hst : e.stat with _ | kind
      · have hf : decide (e.d_name.head? ≠ some '.' ∧ e.stat = some StatKind.regular)
            = false := by
          rw [decide_eq_false_iff_not, hst]
          intro h
          exact Option.noConfusion h.2
        simp only [List.filter_cons, hf]
        exact ih batch rc started
      · by_cases hreg : kind = StatKind.regular
        · subst hreg
          have ht : decide (e.d_name.head? ≠ some '.' ∧ e.stat = some StatKind.regular)
              = true := by
            rw [decide_eq_true_iff, hst]
            exact ⟨hdot, rfl⟩
          simp only [ne_eq, not_true_eq_false, if_false, List.filter_cons, ht, if_true,
            List.map_cons]
          by_cases hfull : (batch ++ [codes e]).length = MAX_CRYPTO_THREADS
          · simp only [hfull, if_true]
            rw [ih, List.nil_append, ← joinBatch_append, List.append_assoc,
              List.append_assoc]
            rfl
          · simp only [hfull, if_false]
            rw [ih]
            simp [List.append_assoc]
        · have hf : decide (e.d_name.head? ≠ some '.' ∧ e.stat = some StatKind.regular)
              = false := by
            rw [decide_eq_false_iff_not, hst]
            intro h
            exact hreg (Option.some.inj h.2)
          simp only [ne_eq, hreg, not_false_eq_true, if_true, List.filter_cons, hf]
          exact ih batch rc started

theorem joinBatch_const (l : List DirEntry) (c : Nat) :
    joinBatch (l.map (fun _ => c)) 0 = if l = [] then 0 else c := by
  induction l using List.reverseRecOn with
  | nil => rfl
  | append_singleton l e _ =>
    have hne : ¬ (l ++ [e] = []) := by simp
    rw [if_neg hne, List.map_append, joinBatch_append]
    by_cases hc : c = 0
    · subst hc
      have hz : ∀ (m : List DirEntry), ∀ c ∈ m.map (fun _ => (0 : Nat)), c = 0 := by
        intro m c hc
        obtain ⟨_, _, rfl⟩ := List.mem_map.mp hc
        rfl
      rw [joinBatch_zeros _ _ (hz [e]), joinBatch_zeros _ _ (hz l)]
    · simp [joinBatch, hc]

theorem file_worker_status (signedChar : Bool) (nprocOnline : Int) (key : List Byte)
    (encrypt : Bool) :
    (fun e : DirEntry =>
        (vigenere_file_parallel signedChar nprocOnline e.content key encrypt).map (fun r => r.1))
      = fun _ => some (if key = [] then 1 else 0) := by
  funext e
  by_cases hk : key = []
  · subst hk
    simp [vigenere_file_parallel]
  · obtain ⟨C, hres, _, _⟩ :=
      vigenere_file_parallel_spec signedChar nprocOnline e.content key encrypt hk
    rw [hres, if_neg hk]
    rfl

/-! ## Proofs: what the encoder emits where -/

theorem scanRun_fuel (inb : List Byte) (base : Nat) : ∀ (fuel r : Nat), 128 - r ≤ fuel →
    scanRun inb base (fuel + 1) r = scanRun inb base fuel r := by
  intro fuel
  induction fuel with
  | zero =>
    intro r h
    have : ¬ (base + r < inb.length ∧ inb.getD (base + r) 0 = inb.getD base 0 ∧ r < 128) := by
      omega
    simp only [scanRun, this, if_false]
  | succ fuel ih =>
    intro r h
    by_cases hc : base + r < inb.length ∧ inb.getD (base + r) 0 = inb.getD base 0 ∧ r < 128
    · have e1 : scanRun inb base (fuel + 1 + 1) r = scanRun inb base (fuel + 1) (r + 1) := by
        simp only [scanRun, hc, and_self, if_true]
      have e2 : scanRun inb base (fuel + 1) r = scanRun inb base fuel (r + 1) := by
        simp only [scanRun, hc, and_self, if_true]
      rw [e1, e2]
      exact ih (r + 1) (by omega)
    · have e1 : scanRun inb base (fuel + 1 + 1) r = r := by
        simp only [scanRun, hc, if_false]
      have e2 : scanRun inb base (fuel + 1) r = r := by
        simp only [scanRun, hc, if_false]
      rw [e1, e2]

/-- The scan that starts at 0 (the `more` scan) agrees with the scan that starts at 1
inside the input, and finds nothing at the end of the input. -/
theorem scanRun_from_zero (inb : List Byte) (i : Nat) :
    scanRun inb i 128 0 = if i < inb.length then scanRun inb i 128 1 else 0 := by
  by_cases h : i < inb.length
  · have hc : i + 0 < inb.length ∧ inb.getD (i + 0) 0 = inb.getD i 0 ∧ 0 < 128 :=
      ⟨by omega, rfl, by omega⟩
    have e : scanRun inb i 128 0 = scanRun inb i 127 1 := by
      show scanRun inb i (127 + 1) 0 = scanRun inb i 127 1
      simp only [scanRun, hc, and_self, if_true]
    rw [e, if_pos h]
    exact (scanRun_fuel inb i 127 1 (by omega)).symm
  · have hc : ¬ (i + 0 < inb.length ∧ inb.getD (i + 0) 0 = inb.getD i 0 ∧ 0 < 128) := by
      omega
    have e : scanRun inb i 128 0 = 0 := by
      show scanRun inb i (127 + 1) 0 = 0
      simp only [scanRun, hc, if_false]
    rw [e, if_neg h]

/-- Every byte `growLiteral` adds to the literal starts no run of `k` bytes. -/
theorem growLiteral_scan (inb : List Byte) (k i : Nat) : ∀ (fuel l : Nat),
    ∀ q, l ≤ q → q < growLiteral inb k i fuel l → scanRun inb (i + q) 128 1 < k := by
  intro fuel
  induction fuel with
  | zero =>
    intro l q h1 h2
    simp only [growLiteral] at h2
    omega
  | succ fuel ih =>
    intro l q h1 h2
    by_cases hc : i + l < inb.length ∧ l < 128
    · by_cases hr : scanRun inb (i + l) 128 1 ≥ k
      · have e : growLiteral inb k i (fuel + 1) l = l := by
          simp only [growLiteral, hc, and_self, if_true, hr]
        rw [e] at h2
        omega
      · have e : growLiteral inb k i (fuel + 1) l = growLiteral inb k i fuel (l + 1) := by
          simp only [growLiteral, hc, and_self, if_true, hr, if_false]
        rw [e] at h2
        rcases Nat.eq_or_lt_of_le h1 with rfl | hlt
        · omega
        · exact ih (l + 1) q hlt h2
    · have e : growLiteral inb k i (fuel + 1) l = l := by
        simp only [growLiteral, hc, if_false]
      rw [e] at h2
      omega

theorem traceSeg_append (B : List Byte) (k : Nat) : ∀ (ps qs : List Packet) (a b c : Nat),
    TraceSeg B k a ps b → TraceSeg B k b qs c → TraceSeg B k a (ps ++ qs) c := by
  intro ps
  induction ps with
  | nil =>
    intro qs a b c h1 h2
    simp only [TraceSeg] at h1
    subst h1
    exact h2
  | cons p ps ih =>
    intro qs a b c h1 h2
    exact ⟨h1.1, ih qs _ b c h1.2 h2⟩

theorem traceSeg_le (B : List Byte) (k : Nat) : ∀ (ps : List Packet) (a b : Nat),
    TraceSeg B k a ps b → a ≤ b := by
  intro ps
  induction ps with
  | nil => intro a b h; simp only [TraceSeg] at h; omega
  | cons p ps ih =>
    intro a b h
    have := ih _ b h.2
    omega

theorem run_packet_length (r : Nat) (h1 : 1 ≤ r) (h2 : r ≤ 128) (v : Byte) :
    (Packet.expand (Packet.run (toByte (0x80 ||| (toByte (r - 1)).val)) v)).length = r := by
  obtain ⟨_, hlen⟩ := run_ctrl_bit ⟨r - 1, by omega⟩
  simp only at hlen
  simp only [Packet.expand, List.length_replicate, hlen]
  omega

theorem flushRuns_trace (inb : List Byte) (k : Nat) :
    ∀ (fuel i run : Nat) (out : List Byte), i ≤ inb.length → inb.length - i < fuel →
    (run = 0 ∨ (i < inb.length ∧ run = scanRun inb i 128 1 ∧ k ≤ run)) →
    ∃ (ps : List Packet) (i1 : Nat),
      flushRuns inb k fuel i run out = some (i1, out ++ wireOf ps) ∧
      i1 ≤ inb.length ∧ (0 < run → i < i1) ∧ TraceSeg inb k i ps i1 := by
  intro fuel
  induction fuel with
  | zero => intro i run out _ hf _; omega
  | succ fuel ih =>
    intro i run out hi hf hrun
    rcases hrun with h0 | ⟨hlt, hr, hk⟩
    · subst h0
      refine ⟨[], i, ?_, hi, fun h => by omega, rfl⟩
      rw [flushRuns]
      simp [wireOf]
    · obtain ⟨r1, r128, rle, _⟩ := scanRun_spec inb i 128 1
      have h1 : 1 ≤ run := by omega
      have h128 : run ≤ 128 := by rw [hr]; exact r128 (by omega)
      have hle : i + run ≤ inb.length := by rw [hr]; exact rle (by omega)
      have hchunk : (if run > 128 then 128 else run) = run := by
        have : ¬ run > 128 := by omega
        simp only [this, if_false]
      have hsub : run - run = 0 := Nat.sub_self run
      have hpos : run > 0 := by omega
      have hlen := run_packet_length run h1 h128 (inb.getD i 0)
      -- the state after this packet
      have hnext : (if scanRun inb (i + run) 128 0 ≥ k then scanRun inb (i + run) 128 0 else 0)
            = 0 ∨
          (i + run < inb.length ∧
            (if scanRun inb (i + run) 128 0 ≥ k then scanRun inb (i + run) 128 0 else 0)
              = scanRun inb (i + run) 128 1 ∧
            k ≤ (if scanRun inb (i + run) 128 0 ≥ k then scanRun inb (i + run) 128 0
              else 0)) := by
        rw [scanRun_from_zero]
        by_cases hin : i + run < inb.length
        · rw [if_pos hin]
          by_cases hm : scanRun inb (i + run) 128 1 ≥ k
          · rw [if_pos hm]
            exact Or.inr ⟨hin, rfl, hm⟩
          · rw [if_neg hm]
            exact Or.inl rfl
        · rw [if_neg hin]
          left
          split <;> rfl
      obtain ⟨ps, i1, hres, hi1, _, htr⟩ :=
        ih (i + run)
          (if scanRun inb (i + run) 128 0 ≥ k then scanRun inb (i + run) 128 0 else 0)
          (out ++ [toByte (0x80 ||| (toByte (run - 1)).val), inb.getD i 0])
          hle (by omega) hnext
      have hi1' : i + run ≤ i1 := traceSeg_le inb k ps _ _ htr
      refine ⟨Packet.run (toByte (0x80 ||| (toByte (run - 1)).val)) (inb.getD i 0) :: ps,
        i1, ?_, hi1, fun _ => by omega, ?_⟩
      · rw [flushRuns]
        simp only [hpos, if_true, hchunk, hsub]
        rw [wireOf_cons]
        simp only [Packet.wire, ← List.append_assoc]
        simpa [List.append_assoc] using hres
      · refine ⟨⟨hlt, by rw [← hr]; exact hk, by rw [← hr], rfl⟩, ?_⟩
        rw [hlen]
        exact htr

theorem encodeLoop_trace (inb : List Byte) (k : Nat) : ∀ (fuel i : Nat) (out : List Byte),
    i ≤ inb.length → inb.length - i < fuel →
    ∃ ps : List Packet,
      encodeLoop inb k fuel i out = some (out ++ wireOf ps) ∧
      TraceSeg inb k i ps inb.length := by
  intro fuel
  induction fuel with
  | zero => intro i out _ hf; omega
  | succ fuel ih =>
    intro i out hi hf
    by_cases hlt : i < inb.length
    · by_cases hk : scanRun inb i 128 1 ≥ k
      · obtain ⟨r1, _, _, _⟩ := scanRun_spec inb i 128 1
        obtain ⟨ps1, i1, hres1, hi1, hadv, htr1⟩ :=
          flushRuns_trace inb k (inb.length + 1) i (scanRun inb i 128 1) out hi (by omega)
            (Or.inr ⟨hlt, rfl, hk⟩)
        obtain ⟨ps2, hres2, htr2⟩ :=
          ih i1 (out ++ wireOf ps1) hi1 (by have := hadv (by omega); omega)
        refine ⟨ps1 ++ ps2, ?_, traceSeg_append inb k ps1 ps2 _ _ _ htr1 htr2⟩
        rw [encodeLoop]
        simp only [hlt, if_true, hk, hres1, hres2, wireOf_append, List.append_assoc]
      · obtain ⟨g1, g128, gle⟩ := growLiteral_spec inb k i 128 1 (by omega) (by omega)
        have hexit := growLiteral_exit inb k i 128 1 (by omega)
        have hscan := growLiteral_scan inb k i 128 1
        obtain ⟨ps2, hres2, htr2⟩ :=
          ih (i + growLiteral inb k i 128 1)
            (out ++ [toByte (growLiteral inb k i 128 1 - 1)]
              ++ (inb.drop i).take (growLiteral inb k i 128 1)) gle (by omega)
        have hblen : ((inb.drop i).take (growLiteral inb k i 128 1)).length
            = growLiteral inb k i 128 1 := by
          rw [List.length_take, List.length_drop]; omega
        refine ⟨Packet.literal (toByte (growLiteral inb k i 128 1 - 1))
          ((inb.drop i).take (growLiteral inb k i 128 1)) :: ps2, ?_, ?_, ?_⟩
        · rw [encodeLoop]
          simp only [hlt, if_true, hk, if_false, hres2, wireOf_cons, Packet.wire]
          simp [List.append_assoc]
        · refine ⟨growLiteral inb k i 128 1, g1, g128, gle, rfl, rfl, ?_, ?_⟩
          · intro p hp1 hp2
            rcases Nat.eq_or_lt_of_le hp1 with rfl | hgt
            · omega
            · have := hscan (p - i) (by omega) (by omega)
              rwa [show i + (p - i) = p by omega] at this
          · rcases hexit with h | h
            · by_cases hend : i + growLiteral inb k i 128 1 = inb.length
              · exact Or.inl hend
              · exact Or.inr (Or.inl (by omega))
            · exact Or.inr (Or.inr h)
        · show TraceSeg inb k (i + (Packet.expand (Packet.literal _ _)).length) ps2 _
          simp only [Packet.expand, hblen]
          exact htr2
    · refine ⟨[], ?_, ?_⟩
      · rw [encodeLoop]
        simp [hlt, wireOf]
      · show i = inb.length
        omega

/-- The encoder returns the wire form of a packet sequence emitted from offset 0 to the
end of the input. -/
theorem packbits_encode_trace (inb : List Byte) (k_min_run : Int) :
    ∃ ps : List Packet, packbits_encode_threshold inb k_min_run = some (wireOf ps) ∧
      TraceSeg inb (sizeOfInt k_min_run) 0 ps inb.length := by
  obtain ⟨ps, hres, htr⟩ :=
    encodeLoop_trace inb (sizeOfInt k_min_run) (inb.length + 1) 0 [] (Nat.zero_le _) (by omega)
  exact ⟨ps, by simpa [packbits_encode_threshold] using hres, htr⟩

/-! ## Proofs: packets and maximal runs -/

theorem getD_drop_take (B : List Byte) (a len : Nat) (hle : a + len ≤ B.length) :
    ((B.drop a).take len).length = len := by
  rw [List.length_take, List.length_drop]; omega

/-- The packets of a trace are well formed and stand for the input between its ends. -/
theorem traceSeg_packets (B : List Byte) (k : Nat) : ∀ (ps : List Packet) (a b : Nat),
    TraceSeg B k a ps b →
      (∀ p ∈ ps, p.WellFormed) ∧ expandOf ps ++ B.drop b = B.drop a := by
  intro ps
  induction ps with
  | nil =>
    intro a b h
    simp only [TraceSeg] at h
    subst h
    exact ⟨by simp, by simp [expandOf]⟩
  | cons p ps ih =>
    intro a b h
    obtain ⟨hp, hrest⟩ := h
    obtain ⟨hwf, hexp⟩ := ih _ b hrest
    cases p with
    | literal c bs =>
      obtain ⟨len, h1, h128, hle, hc, hbs, _, _⟩ := hp
      have hbl : bs.length = len := by rw [hbs]; exact getD_drop_take B a len hle
      have hcv : c.val = len - 1 := by rw [hc]; exact toByte_val_of_lt (by omega)
      have hbit := literal_ctrl_bit ⟨len - 1, by omega⟩
      simp only at hbit
      refine ⟨?_, ?_⟩
      · intro q hq
        rcases List.mem_cons.mp hq with rfl | hq
        · exact ⟨by rw [hc]; exact hbit, by rw [hbl, hcv]; omega⟩
        · exact hwf q hq
      · simp only [Packet.expand, hbl] at hexp
        rw [expandOf_cons, List.append_assoc, hexp]
        simp only [Packet.expand]
        rw [hbs, ← List.drop_drop, List.take_append_drop]
    | run c v =>
      obtain ⟨hlt, hk, hc, hv⟩ := hp
      obtain ⟨r1, r128, rle, rall⟩ := scanRun_spec B a 128 1
      have hr1 : 1 ≤ scanRun B a 128 1 := r1
      have hr128 : scanRun B a 128 1 ≤ 128 := r128 (by omega)
      obtain ⟨hbit, hlen⟩ := run_ctrl_bit ⟨scanRun B a 128 1 - 1, by omega⟩
      simp only at hbit hlen
      have hel : (Packet.expand (Packet.run c v)).length = scanRun B a 128 1 := by
        rw [hc]; exact run_packet_length _ hr1 hr128 v
      refine ⟨?_, ?_⟩
      · intro q hq
        rcases List.mem_cons.mp hq with rfl | hq
        · show c.val &&& 0x80 ≠ 0
          rw [hc]; exact hbit
        · exact hwf q hq
      · rw [hel] at hexp
        rw [expandOf_cons, List.append_assoc, hexp]
        have hall : ∀ j, j < scanRun B a 128 1 → B.getD (a + j) 0 = v := by
          intro j hj
          rw [hv]
          rcases Nat.eq_zero_or_pos j with rfl | hpos
          · rfl
          · exact rall j hpos hj
        have hexpand : Packet.expand (Packet.run c v)
            = List.replicate (scanRun B a 128 1) v := by
          simp only [Packet.expand, hc, hlen]
          congr 1
          omega
        rw [hexpand]
        exact (drop_eq_replicate_append B v _ a (rle (by omega)) hall).symm

/-- Every placed packet of a trace is a packet the encoder emits at its offset. -/
theorem traceSeg_placed (B : List Byte) (k : Nat) : ∀ (ps : List Packet) (a b : Nat),
    TraceSeg B k a ps b → ∀ c pk, (c, pk) ∈ placePackets a ps → PacketAt B k c pk := by
  intro ps
  induction ps with
  | nil => intro a b _ c pk h; simp [placePackets] at h
  | cons p ps ih =>
    intro a b h c pk hmem
    rw [placePackets] at hmem
    rcases List.mem_cons.mp hmem with heq | hmem
    · injection heq with h1 h2
      subst h1 h2
      exact h.1
    · exact ih _ b h.2 c pk hmem

/-- Every input position between the ends of a trace is covered by a placed packet. -/
theorem traceSeg_cover (B : List Byte) (k : Nat) : ∀ (ps : List Packet) (a b : Nat),
    TraceSeg B k a ps b → ∀ p, a ≤ p → p < b →
      ∃ c pk, (c, pk) ∈ placePackets a ps ∧ c ≤ p ∧ p < c + pk.expand.length := by
  intro ps
  induction ps with
  | nil =>
    intro a b h p h1 h2
    simp only [TraceSeg] at h
    omega
  | cons q ps ih =>
    intro a b h p h1 h2
    by_cases hin : p < a + q.expand.length
    · exact ⟨a, q, by rw [placePackets]; exact List.mem_cons_self _ _, h1, hin⟩
    · obtain ⟨c, pk, hmem, hc1, hc2⟩ := ih _ b h.2 p (by omega) h2
      exact ⟨c, pk, by rw [placePackets]; exact List.mem_cons_of_mem _ hmem, hc1, hc2⟩

theorem run_byte (B : List Byte) (s L p : Nat) (h : IsMaxRun B s L) (h1 : s ≤ p)
    (h2 : p < s + L) : B.getD p 0 = B.getD s 0 := by
  have := h.2.2.1 (p - s) (by omega)
  rwa [show s + (p - s) = p by omega] at this

/-- Inside a maximal run the scan finds the rest of the run, cut at 128. -/
theorem scanRun_in_run (B : List Byte) (s L p : Nat) (h : IsMaxRun B s L) (h1 : s ≤ p)
    (h2 : p < s + L) : scanRun B p 128 1 = min 128 (s + L - p) := by
  obtain ⟨r1, r128, rle, rall⟩ := scanRun_spec B p 128 1
  have hexit := scanRun_exit B p 128 1 (by omega)
  have hn : s + L ≤ B.length := h.2.1
  have hr128 : scanRun B p 128 1 ≤ 128 := r128 (by omega)
  have hrle : p + scanRun B p 128 1 ≤ B.length := rle (by omega)
  have hp : B.getD p 0 = B.getD s 0 := run_byte B s L p h h1 h2
  have hup : scanRun B p 128 1 ≤ s + L - p := by
    by_contra hcon
    have hb := rall (s + L - p) (by omega) (by omega)
    rw [show p + (s + L - p) = s + L by omega, hp] at hb
    rcases h.2.2.2.2 with he | he
    · omega
    · exact he hb
  have hlow : min 128 (s + L - p) ≤ scanRun B p 128 1 := by
    by_contra hcon
    apply hexit
    refine ⟨by omega, ?_, by omega⟩
    rw [hp]
    exact run_byte B s L _ h (by omega) (by omega)
  omega

/-- The bytes of a run packet lie inside one maximal run. -/
theorem run_packet_within (B : List Byte) (s L a p : Nat) (h : IsMaxRun B s L)
    (ha : a < B.length) (hp1 : a ≤ p) (hp2 : p < a + scanRun B a 128 1) (hs1 : s ≤ p)
    (hs2 : p < s + L) : s ≤ a ∧ a + scanRun B a 128 1 ≤ s + L := by
  obtain ⟨r1, r128, rle, rall⟩ := scanRun_spec B a 128 1
  have hrle : a + scanRun B a 128 1 ≤ B.length := rle (by omega)
  have hall : ∀ q, a ≤ q → q < a + scanRun B a 128 1 → B.getD q 0 = B.getD a 0 := by
    intro q hq1 hq2
    rcases Nat.eq_or_lt_of_le hq1 with rfl | hlt
    · rfl
    · have := rall (q - a) (by omega) (by omega)
      rwa [show a + (q - a) = q by omega] at this
  have hps : B.getD p 0 = B.getD s 0 := run_byte B s L p h hs1 hs2
  have hpa : B.getD p 0 = B.getD a 0 := hall p hp1 hp2
  constructor
  · by_contra hcon
    have hb := hall (s - 1) (by omega) (by omega)
    rcases h.2.2.2.1 with he | he
    · omega
    · apply he
      rw [hb, ← hpa, hps]
  · by_contra hcon
    have hb := hall (s + L) (by omega) (by omega)
    rcases h.2.2.2.2 with he | he
    · omega
    · apply he
      rw [hb, ← hpa, hps]

/-- A literal packet emitted at a good offset holds bytes of a run of at least `k` bytes
only when the run is longer than 128 bytes and leaves fewer than `k` bytes after its
chunks of 128, and then only those last bytes. -/
theorem literal_touches_run_tail (B : List Byte) (k : Nat) (hk2 : k ≤ 128) (a : Nat)
    (c : Byte) (bs : List Byte) (hpk : PacketAt B k a (Packet.literal c bs))
    (hgood : GoodOffset B k a) (s L p : Nat) (hrun : IsMaxRun B s L) (hL : k ≤ L)
    (hp1 : a ≤ p) (hp2 : p < a + bs.length) (hs1 : s ≤ p) (hs2 : p < s + L) :
    128 < L ∧ 1 ≤ L % 128 ∧ L % 128 < k ∧ s + (L - L % 128) ≤ p := by
  obtain ⟨len, h1, h128, hle, _, hbs, hscan, _⟩ := hpk
  have hbl : bs.length = len := by rw [hbs]; exact getD_drop_take B a len hle
  rw [hbl] at hp2
  have hsa : s < a := by
    by_contra hcon
    have h3 := hscan s (by omega) (by omega)
    rw [scanRun_in_run B s L s hrun (Nat.le_refl _) (by omega)] at h3
    omega
  have h4 := hscan a (Nat.le_refl _) (by omega)
  rw [scanRun_in_run B s L a hrun (by omega) (by omega)] at h4
  have h5 := hgood s L hrun hL hsa (by omega)
  omega

theorem good_after_literal (B : List Byte) (k : Nat) (hk2 : k ≤ 128) (a : Nat)
    (c : Byte) (bs : List Byte) (hpk : PacketAt B k a (Packet.literal c bs)) :
    GoodOffset B k (a + bs.length) := by
  obtain ⟨len, h1, h128, hle, _, hbs, hscan, hexit⟩ := hpk
  have hbl : bs.length = len := by rw [hbs]; exact getD_drop_take B a len hle
  rw [hbl]
  intro s L hrun hL hs1 hs2
  exfalso
  have hn : s + L ≤ B.length := hrun.2.1
  have hsa : s < a := by
    by_contra hcon
    have h3 := hscan s (by omega) (by omega)
    rw [scanRun_in_run B s L s hrun (Nat.le_refl _) (by omega)] at h3
    omega
  have h4 := hscan a (Nat.le_refl _) (by omega)
  rw [scanRun_in_run B s L a hrun (by omega) (by omega)] at h4
  rcases hexit with he | he | he
  · omega
  · omega
  · rw [scanRun_in_run B s L (a + len) hrun (by omega) hs2] at he
    omega

theorem good_after_run (B : List Byte) (k : Nat) (a : Nat) (c v : Byte)
    (hpk : PacketAt B k a (Packet.run c v)) (hgood : GoodOffset B k a) :
    GoodOffset B k (a + (Packet.expand (Packet.run c v)).length) := by
  obtain ⟨hlt, hk, hc, _⟩ := hpk
  obtain ⟨r1, r128, _, _⟩ := scanRun_spec B a 128 1
  have hr1 : 1 ≤ scanRun B a 128 1 := r1
  have hr128 : scanRun B a 128 1 ≤ 128 := r128 (by omega)
  have hel : (Packet.expand (Packet.run c v)).length = scanRun B a 128 1 := by
    rw [hc]; exact run_packet_length _ hr1 hr128 v
  rw [hel]
  intro s L hrun hL hs1 hs2
  obtain ⟨hsa, hend⟩ := run_packet_within B s L a (a + scanRun B a 128 1 - 1) hrun hlt
    (by omega) (by omega) (by omega) (by omega)
  have hr := scanRun_in_run B s L a hrun hsa (by omega)
  rcases Nat.eq_or_lt_of_le hsa with heq | hlt2
  · omega
  · have := hgood s L hrun hL hlt2 (by omega)
    omega

/-- Every packet of a trace that starts at a good offset is placed at a good offset. -/
theorem traceSeg_good (B : List Byte) (k : Nat) (hk2 : k ≤ 128) :
    ∀ (ps : List Packet) (a b : Nat), TraceSeg B k a ps b → GoodOffset B k a →
      ∀ c pk, (c, pk) ∈ placePackets a ps → GoodOffset B k c := by
  intro ps
  induction ps with
  | nil => intro a b _ _ c pk h; simp [placePackets] at h
  | cons p ps ih =>
    intro a b h hgood c pk hmem
    rw [placePackets] at hmem
    rcases List.mem_cons.mp hmem with heq | hmem
    · injection heq with h1 h2
      subst h1
      exact hgood
    · have hnext : GoodOffset B k (a + p.expand.length) := by
        cases p with
        | literal c2 bs => exact good_after_literal B k hk2 a c2 bs h.1
        | run c2 v => exact good_after_run B k a c2 v h.1 hgood
      exact ih _ b h.2 hnext c pk hmem

theorem goodOffset_zero (B : List Byte) (k : Nat) : GoodOffset B k 0 := by
  intro s L _ _ h
  omega

/-- The packets the encoder emits for threshold 3, with the facts about them that the
claims on runs need. -/
theorem encode_threshold3_packets (B : List Byte) :
    ∃ ps : List Packet, (∀ p ∈ ps, p.WellFormed) ∧
      packbits_encode_threshold B RLE2_RUN_THRESHOLD = some (wireOf ps) ∧
      expandOf ps = B ∧ TraceSeg B 3 0 ps B.length := by
  obtain ⟨ps, hres, htr⟩ := packbits_encode_trace B RLE2_RUN_THRESHOLD
  have h3 : sizeOfInt RLE2_RUN_THRESHOLD = 3 := by decide
  rw [h3] at htr
  obtain ⟨hwf, hexp⟩ := traceSeg_packets B 3 ps 0 B.length htr
  refine ⟨ps, hwf, hres, ?_, htr⟩
  simpa using hexp

theorem isMaxRun_replicate (n : Nat) (v : Byte) (hn : 0 < n) :
    IsMaxRun (List.replicate n v) 0 n := by
  refine ⟨hn, by simp, ?_, Or.inl rfl, Or.inl (by simp)⟩
  intro j hj
  simp [List.getD_eq_getElem?_getD, List.getElem?_replicate, hj, hn]

/-- The wire form determines the well-formed packets: an output has one reading. -/
theorem wireOf_injective : ∀ (ps qs : List Packet), (∀ p ∈ ps, p.WellFormed) →
    (∀ q ∈ qs, q.WellFormed) → wireOf ps = wireOf qs → ps = qs := by
  intro ps
  induction ps with
  | nil =>
    intro qs _ hq h
    rcases qs with _ | ⟨q, qs⟩
    · rfl
    · exfalso
      rw [wireOf_cons] at h
      cases q <;> simp [wireOf, Packet.wire] at h
  | cons p ps ih =>
    intro qs hp hq h
    rcases qs with _ | ⟨q, qs⟩
    · exfalso
      rw [wireOf_cons] at h
      cases p <;> simp [wireOf, Packet.wire] at h
    · have hpw := hp p (List.mem_cons_self _ _)
      have hqw := hq q (List.mem_cons_self _ _)
      have hps : ∀ x ∈ ps, x.WellFormed := fun x hx => hp x (List.mem_cons_of_mem _ hx)
      have hqs : ∀ x ∈ qs, x.WellFormed := fun x hx => hq x (List.mem_cons_of_mem _ hx)
      rw [wireOf_cons, wireOf_cons] at h
      cases p with
      | literal c bs =>
        cases q with
        | literal c2 bs2 =>
          simp only [Packet.wire, List.cons_append, List.cons.injEq] at h
          obtain ⟨hc, hrest⟩ := h
          subst hc
          have hlen : bs.length = bs2.length := by rw [hpw.2, hqw.2]
          obtain ⟨hb, ht⟩ := List.append_inj hrest hlen
          subst hb
          rw [ih qs hps hqs ht]
        | run c2 v2 =>
          exfalso
          simp only [Packet.wire, List.cons_append, List.cons.injEq] at h
          obtain ⟨hc, _⟩ := h
          subst hc
          exact hqw hpw.1
      | run c v =>
        cases q with
        | literal c2 bs2 =>
          exfalso
          simp only [Packet.wire, List.cons_append, List.cons.injEq] at h
          obtain ⟨hc, _⟩ := h
          subst hc
          exact hpw hqw.1
        | run c2 v2 =>
          simp only [Packet.wire, List.cons_append, List.cons.injEq, List.nil_append] at h
          obtain ⟨hc, hv, ht⟩ := h
          subst hc hv
          rw [ih qs hps hqs ht]

/-! ## Proofs: key phase of the sequential and of the region-parallel cipher -/

theorem keyPhase_of_dvd (F : Nat) (n : Int) (p : Nat)
    (hdiv : VIGENERE_BLOCK_SIZE ∣ (F + (clampNproc n).toNat - 1) / (clampNproc n).toNat) :
    keyPhase F n p = p % VIGENERE_BLOCK_SIZE := by
  unfold keyPhase
  split
  · rfl
  · exact Nat.mod_mod_of_dvd p hdiv

/-- The sequential cipher byte by byte: the key index is the position within the 64 KiB
window, windows counted from the start of the file. -/
theorem vigenere_process_stream_spec (signedChar : Bool) (B K : List Byte) (encrypt : Bool)
    (hK : K ≠ []) :
    ∃ C : List Byte, vigenere_process_stream signedChar B K encrypt = some (0, C) ∧
      C.length = B.length ∧
      ∀ p, p < B.length →
        C.getD p 0 = vigByte signedChar K encrypt (p % 65536) (B.getD p 0) := by
  obtain ⟨C, hres, hlen, hget⟩ :=
    streamLoop_spec signedChar K encrypt (B.length + 1) B [] (by omega)
  refine ⟨C, ?_, hlen, hget⟩
  rw [vigenere_process_stream, if_neg hK, hres, List.nil_append]

theorem getD_replicate_zero (n p : Nat) : (List.replicate n (0 : Byte)).getD p 0 = 0 := by
  by_cases h : p < n
  · simp [List.getD_eq_getElem?_getD, List.getElem?_replicate, h]
  · simp [List.getD_eq_getElem?_getD, List.getElem?_replicate, h]

/-- In parallel mode the partition loop runs all its iterations: region `j` starts at
`j * chunk`, every region but the last has `chunk` bytes and the last has the rest. -/
theorem fileRegions_parallel (F n : Nat) (hF : 1048576 ≤ F) (h1 : 1 ≤ n) (h8 : n ≤ 8) :
    fileRegions F n
      = (List.range n).map (fun j =>
          (⟨j * ((F + n - 1) / n),
            if j + 1 < n then (F + n - 1) / n else F - j * ((F + n - 1) / n)⟩
            : FileBlockTask)) := by
  have hoff := parallel_offsets_in_file F n hF h1 h8
  have hceil := (ceil_chunk F n h1).1
  rw [fileRegions, taskLoop_eq_map F _ n 0 (fun j hj => hoff j (by omega)),
    ← List.range_eq_range']
  apply List.map_congr_left
  intro j hj
  have hjn : j < n := List.mem_range.mp hj
  have hnext : (j + 1) * ((F + n - 1) / n) = j * ((F + n - 1) / n) + (F + n - 1) / n :=
    Nat.succ_mul j _
  congr 1
  by_cases hlast : j + 1 < n
  · have := hoff (j + 1) hlast
    rw [if_pos hlast, Nat.min_eq_left (by omega), hnext, Nat.add_sub_cancel_left]
  · have hj1 : j + 1 = n := by omega
    rw [if_neg hlast, hj1, Nat.min_eq_right hceil]

/-! ## Proofs: the packets of the encoder, their lengths and their size -/

theorem sizeOfInt_of_int (t : Int) (h0 : 0 ≤ t) (h1 : t ≤ 2147483647) :
    sizeOfInt t = t.toNat := by
  unfold sizeOfInt
  rw [Int.emod_eq_of_lt h0 (by norm_num; omega)]

theorem scanRun_at_end (B : List Byte) (p : Nat) (h : B.length ≤ p + 1) :
    scanRun B p 128 1 = 1 := by
  have hc : ¬ (p + 1 < B.length ∧ B.getD (p + 1) 0 = B.getD p 0 ∧ 1 < 128) := by omega
  show scanRun B p (127 + 1) 1 = 1
  simp only [scanRun, hc, if_false]

/-- The scan finds every run it can: where `k ≤ 128` equal bytes start, it counts at
least `k`. -/
theorem scanRun_ge_of_run (B : List Byte) (k p : Nat) (hk1 : 1 ≤ k) (hk : k ≤ 128)
    (h : RunStartsAt B k p) : k ≤ scanRun B p 128 1 := by
  by_contra hcon
  obtain ⟨r1, _, _, _⟩ := scanRun_spec B p 128 1
  apply scanRun_exit B p 128 1 (by omega)
  exact ⟨by have := h.1; omega, h.2 _ (by omega), by omega⟩

/-- What the scan counts is a run: where it counts `k ≥ 2`, `k` equal bytes start. -/
theorem run_of_scanRun_ge (B : List Byte) (k p : Nat) (hk : 2 ≤ k)
    (h : k ≤ scanRun B p 128 1) : RunStartsAt B k p := by
  obtain ⟨r1, _, rle, rall⟩ := scanRun_spec B p 128 1
  have hin : p + 1 < B.length := by
    by_contra hcon
    rw [scanRun_at_end B p (by omega)] at h
    omega
  have := rle (by omega)
  refine ⟨by omega, ?_⟩
  intro j hj
  rcases Nat.eq_zero_or_pos j with rfl | hpos
  · rfl
  · exact rall j hpos (by omega)

theorem runStartsAt_replicate (n t p : Nat) (v : Byte) (h : p + t ≤ n) :
    RunStartsAt (List.replicate n v) t p := by
  refine ⟨by simpa using h, ?_⟩
  intro j hj
  have a1 : p + j < n := by omega
  have a2 : p < n := by omega
  simp [List.getD_eq_getElem?_getD, List.getElem?_replicate, a1, a2]

theorem mem_placePackets : ∀ (ps : List Packet) (a : Nat) (p : Packet), p ∈ ps →
    ∃ c, (c, p) ∈ placePackets a ps := by
  intro ps
  induction ps with
  | nil => intro a p h; simp at h
  | cons q ps ih =>
    intro a p h
    rcases List.mem_cons.mp h with rfl | h
    · exact ⟨a, by rw [placePackets]; exact List.mem_cons_self _ _⟩
    · obtain ⟨c, hc⟩ := ih (a + q.expand.length) p h
      exact ⟨c, by rw [placePackets]; exact List.mem_cons_of_mem _ hc⟩

/-- A trace that starts at the end of the input is empty. -/
theorem traceSeg_at_end (B : List Byte) (k : Nat) (ps : List Packet) (a b : Nat)
    (h : TraceSeg B k a ps b) (ha : B.length ≤ a) : ps = [] := by
  rcases ps with _ | ⟨p, ps⟩
  · rfl
  · exfalso
    cases p with
    | literal c bs =>
      obtain ⟨len, h1, _, hle, _⟩ := h.1
      omega
    | run c v =>
      have := h.1.1
      omega

theorem literal_packet_length (B : List Byte) (k a : Nat) (c : Byte) (bs : List Byte)
    (h : PacketAt B k a (Packet.literal c bs)) :
    1 ≤ bs.length ∧ bs.length ≤ 128 ∧ a + bs.length ≤ B.length ∧
      (∀ p, a ≤ p → p < a + bs.length → scanRun B p 128 1 < k) := by
  obtain ⟨len, h1, h128, hle, _, hbs, hscan, _⟩ := h
  have hbl : bs.length = len := by rw [hbs]; exact getD_drop_take B a len hle
  rw [hbl]
  exact ⟨h1, h128, hle, hscan⟩

theorem run_packet_at_length (B : List Byte) (k a : Nat) (c v : Byte)
    (h : PacketAt B k a (Packet.run c v)) :
    (Packet.expand (Packet.run c v)).length = scanRun B a 128 1 ∧
      k ≤ scanRun B a 128 1 ∧ scanRun B a 128 1 ≤ 128 ∧ 1 ≤ scanRun B a 128 1 ∧
      a + scanRun B a 128 1 ≤ B.length := by
  obtain ⟨hlt, hk, hc, _⟩ := h
  obtain ⟨r1, r128, rle, _⟩ := scanRun_spec B a 128 1
  refine ⟨?_, hk, r128 (by omega), r1, rle (by omega)⟩
  rw [hc]
  exact run_packet_length _ r1 (r128 (by omega)) v

/-- Size of a trace for a threshold of at least 3: a literal packet costs one byte more
than it carries, a run packet at least one byte less, and a literal packet shorter than
128 bytes is followed by a run packet or by the end of the input. -/
theorem traceSeg_size (B : List Byte) (k : Nat) (hk : 3 ≤ k) : ∀ (ps : List Packet) (a : Nat),
    TraceSeg B k a ps B.length → a ≤ B.length →
      (wireOf ps).length ≤ (B.length - a) + (B.length - a + 127) / 128 ∧
      (∀ c v rest, ps = Packet.run c v :: rest →
        (wireOf ps).length + 1 ≤ (B.length - a) + (B.length - a + 127) / 128) := by
  intro ps
  induction ps with
  | nil =>
    intro a _ _
    refine ⟨by simp [wireOf], ?_⟩
    intro c v rest h
    cases h
  | cons p ps ih =>
    intro a h ha
    obtain ⟨hp, hrest⟩ := h
    cases p with
    | run c v =>
      obtain ⟨hel, hk2, h128, _, hle⟩ := run_packet_at_length B k a c v hp
      rw [hel] at hrest
      obtain ⟨ih1, _⟩ := ih _ hrest hle
      have hw : (wireOf (Packet.run c v :: ps)).length = 2 + (wireOf ps).length := by
        rw [wireOf_cons]
        simp [Packet.wire]
        omega
      rw [hw]
      refine ⟨by omega, fun _ _ _ _ => by omega⟩
    | literal c bs =>
      obtain ⟨len, h1, h128, hle, _, hbs, hscan, hexit⟩ := hp
      have hbl : bs.length = len := by rw [hbs]; exact getD_drop_take B a len hle
      have hw : (wireOf (Packet.literal c bs :: ps)).length = 1 + len + (wireOf ps).length := by
        rw [wireOf_cons]
        simp [Packet.wire, hbl]
        omega
      have hrest2 : TraceSeg B k (a + len) ps B.length := by
        have := hrest
        simp only [Packet.expand, hbl] at this
        exact this
      obtain ⟨ih1, ih2⟩ := ih _ hrest2 hle
      rw [hw]
      refine ⟨?_, fun _ _ _ h => by cases h⟩
      by_cases hend : a + len = B.length
      · have hnil := traceSeg_at_end B k ps _ _ hrest2 (by omega)
        subst hnil
        simp only [wireOf, List.flatMap_nil, List.length_nil]
        omega
      · rcases hexit with he | he | he
        · exact absurd he hend
        · omega
        · rcases ps with _ | ⟨q, qs⟩
          · simp only [TraceSeg] at hrest2
            exact absurd hrest2 hend
          · cases q with
            | literal c2 bs2 =>
              exfalso
              obtain ⟨l1, _, _, hs2⟩ := literal_packet_length B k _ c2 bs2 hrest2.1
              have := hs2 (a + len) (Nat.le_refl _) (by omega)
              omega
            | run c2 v2 =>
              have := ih2 c2 v2 qs rfl
              omega

/-- A trace whose scans find no run of `k` bytes and whose input fits one literal packet
is that one packet. -/
theorem traceSeg_single_literal (B : List Byte) (k : Nat) (ps : List Packet)
    (h1 : 1 ≤ B.length) (h2 : B.length ≤ 128)
    (hscan : ∀ p, scanRun B p 128 1 < k) (htr : TraceSeg B k 0 ps B.length) :
    ps = [Packet.literal (toByte (B.length - 1)) B] := by
  rcases ps with _ | ⟨p, ps⟩
  · simp only [TraceSeg] at htr
    omega
  · obtain ⟨hp, hrest⟩ := htr
    cases p with
    | run c v =>
      exfalso
      have := hp.2.1
      have := hscan 0
      omega
    | literal c bs =>
      obtain ⟨len, l1, l128, lle, hc, hbs, _, hexit⟩ := hp
      have hl : len = B.length := by
        rcases hexit with he | he | he
        · omega
        · omega
        · have := hscan (0 + len)
          omega
      subst hl
      have hbs2 : bs = B := by rw [hbs, List.drop_zero, List.take_length]
      have hnil := traceSeg_at_end B k ps _ _ hrest (by simp [Packet.expand, hbs2])
      rw [hc, hnil, hbs2]

/-! ## Proofs: a block of full run packets -/

/-- The wire form of `m` run packets of 128 bytes each has `2 * m` bytes and stands for
`128 * m` bytes. -/
theorem full_runs (v : Byte) : ∀ m : Nat,
    (wireOf (List.replicate m (Packet.run 0xFF v))).length = 2 * m ∧
    expandOf (List.replicate m (Packet.run 0xFF v)) = List.replicate (128 * m) v := by
  intro m
  induction m with
  | zero => exact ⟨rfl, rfl⟩
  | succ m ih =>
    obtain ⟨h1, h2⟩ := ih
    have he : Packet.expand (Packet.run 0xFF v) = List.replicate 128 v := rfl
    rw [List.replicate_succ, wireOf_cons, expandOf_cons, List.length_append, h1, h2, he,
      List.append_replicate_replicate]
    refine ⟨?_, by congr 1; omega⟩
    simp only [Packet.wire, List.length_cons, List.length_nil]
    omega

theorem blocksDecoded_run_block (pl out : List Byte)
    (h : packbits_decode pl = some (Except.ok out)) :
    blocksDecoded [(⟨0x01, pl⟩ : Block)] = out ∧
      blocksWire [(⟨0x01, pl⟩ : Block)] = Block.wire ⟨0x01, pl⟩ := by
  have htag : ¬ ((0x01 : Byte) = 0x00) := by decide
  constructor
  · simp only [blocksDecoded, List.flatMap_cons, List.flatMap_nil, List.append_nil,
      Block.decoded, htag, if_false, h]
  · simp only [blocksWire, List.flatMap_cons, List.flatMap_nil, List.append_nil]

/-! ## Proofs: the single-file operations and the pipelines of `main` -/

theorem rle2_compress_then_decompress (B : List Byte) :
    ∃ bs : List Block, rle2_compress_stream B = some (0, RLE2_MAGIC ++ blocksWire bs) ∧
      rle2_decompress_stream (RLE2_MAGIC ++ blocksWire bs) = some (0, B) := by
  obtain ⟨bs, hv, hres, hd, _⟩ := compressLoop_blocks (B.length + 1) B RLE2_MAGIC (by omega)
  refine ⟨bs, hres, ?_⟩
  rw [rle2_decompress_blocks bs hv, hd]

theorem file_cipher_inverse (signedChar : Bool) (n : Int) (B K : List Byte) (hK : K ≠ []) :
    ∃ C : List Byte, encrypt_file signedChar n B K = some (0, some C) ∧
      decrypt_file signedChar n C K = some (0, some B) := by
  obtain ⟨C, hres, hlen, hget⟩ := vigenere_file_parallel_spec signedChar n B K true hK
  obtain ⟨D, hres2, hlen2, hget2⟩ := vigenere_file_parallel_spec signedChar n C K false hK
  refine ⟨C, hres, ?_⟩
  have hDB : D = B := by
    apply ext_getD (by rw [hlen2, hlen])
    intro p hp
    rw [hlen2] at hp
    rw [hget2 p hp, hlen, hget p (by rw [← hlen]; exact hp), vigByte_inv]
  rw [decrypt_file, hres2, hDB]

theorem has_flag_perm (ops ops2 : List Char) (h : ops.Perm ops2) (f : Char) :
    has_flag ops f = has_flag ops2 f := by
  simp only [has_flag, h.mem_iff]

/-- The file decompressor accepts what the file compressor writes. -/
theorem file_codec_inverse (B : List Byte) :
    ∃ Z : List Byte, compress_file_rle B = some (0, some Z) ∧
      decompress_file_rle Z = some (0, some B) := by
  obtain ⟨bs, hc, hd⟩ := rle2_compress_then_decompress B
  refine ⟨RLE2_MAGIC ++ blocksWire bs, by rw [compress_file_rle, hc], ?_⟩
  have hhdr : (sysRead (RLE2_MAGIC ++ blocksWire bs) 8).1 = RLE2_MAGIC := by
    show (RLE2_MAGIC ++ blocksWire bs).take 8 = RLE2_MAGIC
    exact List.take_left' rfl
  have hl : ¬ (RLE2_MAGIC.length ≠ 8) := by decide
  simp only [decompress_file_rle, hhdr, hl, if_false, if_true, hd]

/-! ## The claims -/

/-- C1: for every byte sequence `B`, `rle2_compress_stream` returns status 0, and
`rle2_decompress_stream` run on the bytes it wrote returns status 0 and writes exactly `B`. -/
theorem rle2_roundtrip (B : List Byte) :
    ∃ C : List Byte, rle2_compress_stream B = some (0, C) ∧
      rle2_decompress_stream C = some (0, B) := by
  obtain ⟨bs, hv, hres, hd, _⟩ := compressLoop_blocks (B.length + 1) B RLE2_MAGIC (by omega)
  refine ⟨RLE2_MAGIC ++ blocksWire bs, hres, ?_⟩
  rw [rle2_decompress_blocks bs hv, hd]

/-- C2: for every buffer `B` and every non-empty key `K` (whatever the signedness of
`char`), `vigenere_process_block` in decrypt mode applied to the result of
`vigenere_process_block` in encrypt mode returns `B`. -/
theorem vigenere_block_roundtrip (signedChar : Bool) (B K : List Byte) (_hK : K ≠ []) :
    vigenere_process_block signedChar (vigenere_process_block signedChar B K true) K false
      = B :=
  block_cipher_inverse signedChar B K

theorem vigenere_block_roundtrip_witness :
    ([0x4B, 0x45, 0x59] : List Byte) ≠ [] ∧
    vigenere_process_block true
      (vigenere_process_block true [1, 2, 3, 250, 255] [0x4B, 0x45, 0x59] true)
      [0x4B, 0x45, 0x59] false = [1, 2, 3, 250, 255] :=
  ⟨by decide, vigenere_block_roundtrip true [1, 2, 3, 250, 255] [0x4B, 0x45, 0x59] (by decide)⟩

/-- C3: for every file content `B`, non-empty key `K` and processing-unit count `n`,
`encrypt_file` returns status 0 and `decrypt_file` with the same `K` and `n` on its output
returns status 0 and reproduces `B`, in sequential and in region-parallel mode alike. -/
theorem file_cipher_roundtrip (signedChar : Bool) (n : Int) (B K : List Byte) (hK : K ≠ []) :
    ∃ C : List Byte, encrypt_file signedChar n B K = some (0, some C) ∧
      decrypt_file signedChar n C K = some (0, some B) := by
  obtain ⟨C, hres, hlen, hget⟩ := vigenere_file_parallel_spec signedChar n B K true hK
  obtain ⟨D, hres2, hlen2, hget2⟩ := vigenere_file_parallel_spec signedChar n C K false hK
  refine ⟨C, hres, ?_⟩
  have hDB : D = B := by
    apply ext_getD (by rw [hlen2, hlen])
    intro p hp
    rw [hlen2] at hp
    rw [hget2 p hp, hlen, hget p (by rw [← hlen]; exact hp), vigByte_inv]
  rw [decrypt_file, hres2, hDB]

theorem file_cipher_roundtrip_witness :
    ([0x4B, 0x45, 0x59] : List Byte) ≠ [] ∧
    ∃ C : List Byte,
      encrypt_file true 4 (List.replicate 5000000 0x41) [0x4B, 0x45, 0x59] = some (0, some C) ∧
      decrypt_file true 4 C [0x4B, 0x45, 0x59] = some (0, some (List.replicate 5000000 0x41)) :=
  ⟨by decide, file_cipher_roundtrip true 4 (List.replicate 5000000 0x41) [0x4B, 0x45, 0x59]
    (by decide)⟩

/-- C4: for every byte sequence `B`, the stream written by `rle2_compress_stream` has at
most `len(B) + 5 * ceil(len(B) / RLE2_BLOCK_SIZE) + 8` bytes. -/
theorem rle2_compress_size (B : List Byte) :
    ∃ C : List Byte, rle2_compress_stream B = some (0, C) ∧
      C.length ≤ B.length + 5 * ((B.length + (RLE2_BLOCK_SIZE - 1)) / RLE2_BLOCK_SIZE) + 8 := by
  obtain ⟨bs, _, hres, _, hsz⟩ := compressLoop_blocks (B.length + 1) B RLE2_MAGIC (by omega)
  refine ⟨RLE2_MAGIC ++ blocksWire bs, hres, ?_⟩
  have h8 : RLE2_MAGIC.length = 8 := rfl
  have hB : RLE2_BLOCK_SIZE = 65536 := rfl
  rw [List.length_append, h8, hB]
  omega

/-- C5: for every byte sequence `B` and every minimum-run threshold `k`,
`packbits_encode_threshold` returns, and `packbits_decode` applied to its output returns
status 0 with exactly `B`. -/
theorem packbits_roundtrip (B : List Byte) (k : Int) :
    ∃ enc : List Byte, packbits_encode_threshold B k = some enc ∧
      packbits_decode enc = some (Except.ok B) :=
  encode_then_decode B k

theorem packbits_roundtrip_witness :
    ∃ enc : List Byte,
      packbits_encode_threshold (List.replicate 400 0x41) RLE2_RUN_THRESHOLD = some enc ∧
      packbits_decode enc = some (Except.ok (List.replicate 400 0x41)) :=
  packbits_roundtrip (List.replicate 400 0x41) RLE2_RUN_THRESHOLD

/-- C6: for every file size `F ≥ 1` and worker count `n ≥ 1`, the regions built by the
partition loop of `vigenere_file_parallel` partition `[0, F)` exactly. -/
theorem fileRegions_partition (F n : Nat) (hF : 1 ≤ F) (hn : 1 ≤ n) :
    IsPartition (fileRegions F n) F := by
  have hch := fileRegions_chain F n hF hn
  obtain ⟨_, hsum, hall⟩ := regionChain_bounds _ _ _ hch
  refine ⟨?_, regionChain_adjacent _ _ _ hch, fun r hr => (hall r hr).2.1,
    regionChain_disjoint _ _ _ hch, by simpa using hsum⟩
  rcases hrs : fileRegions F n with _ | ⟨r, rs⟩
  · rw [hrs] at hch
    simp only [RegionChain] at hch
    omega
  · rw [hrs] at hch
    simp [hch.1]

theorem fileRegions_partition_witness :
    1 ≤ 10 ∧ 1 ≤ 3 ∧ IsPartition (fileRegions 10 3) 10 :=
  ⟨by decide, by decide, fileRegions_partition 10 3 (by decide) (by decide)⟩

/-- C7: `packbits_decode` is the reference PackBits decoder: it returns status 1 exactly
on malformed input (a literal packet announcing more bytes than remain, or a run packet
without its value byte), and otherwise the input is a sequence of well-formed packets and
it returns status 0 with the concatenation of their expansions. -/
theorem packbits_decode_reference (inb : List Byte) :
    (packbits_decode inb = some (Except.error 1) ↔ Malformed inb) ∧
    ((Malformed inb ∧ packbits_decode inb = some (Except.error 1)) ∨
      ∃ ps : List Packet, (∀ p ∈ ps, p.WellFormed) ∧ inb = wireOf ps ∧
        packbits_decode inb = some (Except.ok (expandOf ps))) := by
  rcases parse_or_malformed inb.length inb (Nat.le_refl _) with ⟨ps, hwf, hps⟩ | hbad
  · have hok : packbits_decode inb = some (Except.ok (expandOf ps)) := by
      rw [hps]; exact packbits_decode_wire ps hwf
    refine ⟨⟨fun h => ?_, fun h => packbits_decode_malformed inb h⟩,
      Or.inr ⟨ps, hwf, hps, hok⟩⟩
    rw [hok] at h
    injection h with h
    exact Except.noConfusion h
  · exact ⟨⟨fun _ => hbad, fun h => packbits_decode_malformed inb h⟩,
      Or.inl ⟨hbad, packbits_decode_malformed inb hbad⟩⟩

/-- C8: `rle2_decompress_stream` returns status 1 and writes nothing whenever the input
has fewer than 8 bytes or its first 8 bytes are not 'R','L','E','2',0,0,0,0. -/
theorem rle2_decompress_bad_magic (fd : List Byte)
    (h : fd.length < 8 ∨ fd.take 8 ≠ RLE2_MAGIC) :
    rle2_decompress_stream fd = some (1, []) := by
  rw [rle2_decompress_stream, read_all_eq]
  by_cases hlen : 8 ≤ fd.length
  · have hne : fd.take 8 ≠ RLE2_MAGIC := by
      rcases h with h | h
      · omega
      · exact h
    simp [hlen, hne]
  · simp [hlen]

theorem rle2_decompress_bad_magic_witness :
    (([0x52, 0x4C, 0x45, 0x31, 0, 0, 0, 0, 0, 1, 0, 0, 0, 0x41] : List Byte).length < 8 ∨
      ([0x52, 0x4C, 0x45, 0x31, 0, 0, 0, 0, 0, 1, 0, 0, 0, 0x41] : List Byte).take 8
        ≠ RLE2_MAGIC) ∧
    rle2_decompress_stream [0x52, 0x4C, 0x45, 0x31, 0, 0, 0, 0, 0, 1, 0, 0, 0, 0x41]
      = some (1, []) :=
  ⟨by decide, rle2_decompress_bad_magic _ (by decide)⟩

/-- C9: the code at the failing inputs.  A stream that ends after 1 byte of a block
header, and a stream that ends after 4 bytes of the header following a complete RAW
block, are both accepted with status 0. -/
theorem rle2_decompress_short_header_accepted :
    rle2_decompress_stream (RLE2_MAGIC ++ [0x00]) = some (0, []) ∧
    rle2_decompress_stream
      (RLE2_MAGIC ++ [0x00, 0x01, 0x00, 0x00, 0x00, 0x41] ++ [0x01, 0x02, 0x00, 0x00])
      = some (0, [0x41]) := by
  constructor <;> decide

/-- C10, as stated, fails: a complete block with the unknown tag 0x02 and declared
payload length 0 is skipped and the stream is accepted with status 0. -/
theorem rle2_decompress_skips_empty_unknown_block :
    rle2_decompress_stream (RLE2_MAGIC ++ [0x02, 0x00, 0x00, 0x00, 0x00]) = some (0, []) := by
  decide

/-- C10, amended: after a valid header and valid preceding blocks, a complete block whose
tag is neither 0x00 nor 0x01 and whose declared payload length is not 0 makes
`rle2_decompress_stream` return status 8, having written the content of the preceding
blocks only. -/
theorem rle2_decompress_unknown_tag (pre : List Block) (hpre : ∀ b ∈ pre, b.Valid)
    (tag : Byte) (payload rest : List Byte) (h0 : tag ≠ 0x00) (h1 : tag ≠ 0x01)
    (hne : payload ≠ []) (hlen : payload.length < 2 ^ 32) :
    rle2_decompress_stream
      (RLE2_MAGIC ++ (blocksWire pre ++ (Block.wire ⟨tag, payload⟩ ++ rest)))
      = some (8, blocksDecoded pre) := by
  have hread := read_all_append RLE2_MAGIC (blocksWire pre ++ (Block.wire ⟨tag, payload⟩ ++ rest))
  have h8 : RLE2_MAGIC.length = 8 := rfl
  rw [h8] at hread
  rw [rle2_decompress_stream, hread]
  simp only [ne_eq, not_true_eq_false, if_false]
  have hge := blocksWire_length_ge pre
  rw [decompressLoop_blocks pre hpre _ _ [] (by simp only [List.length_append]; omega)]
  obtain ⟨m, hm⟩ : ∃ m, (blocksWire pre ++ (Block.wire ⟨tag, payload⟩ ++ rest)).length + 1
      - pre.length = m + 1 :=
    ⟨(blocksWire pre ++ (Block.wire ⟨tag, payload⟩ ++ rest)).length - pre.length, by
      simp only [List.length_append]; omega⟩
  rw [hm, decompressLoop_unknown_tag tag payload h0 h1 hne hlen, List.nil_append]

theorem rle2_decompress_unknown_tag_witness :
    (∀ b ∈ [(⟨0x00, [0x41]⟩ : Block)], b.Valid) ∧ (0x02 : Byte) ≠ 0x00 ∧ (0x02 : Byte) ≠ 0x01 ∧
    ([0x09] : List Byte) ≠ [] ∧ ([0x09] : List Byte).length < 2 ^ 32 ∧
    rle2_decompress_stream
      (RLE2_MAGIC ++ (blocksWire [⟨0x00, [0x41]⟩] ++ (Block.wire ⟨0x02, [0x09]⟩ ++ [])))
      = some (8, blocksDecoded [⟨0x00, [0x41]⟩]) :=
  have hv : ∀ b ∈ [(⟨0x00, [0x41]⟩ : Block)], b.Valid := by
    intro b hb
    rw [List.mem_singleton] at hb
    subst hb
    exact ⟨by decide, Or.inl rfl⟩
  ⟨hv, by decide, by decide, by decide, by decide,
    rle2_decompress_unknown_tag [⟨0x00, [0x41]⟩] hv 0x02 [0x09] [] (by decide) (by decide)
      (by decide) (by decide)⟩

/-- C11: with a key of length 0, `vigenere_encrypt_stream` and `vigenere_decrypt_stream`
return status 1 and write no byte, and `encrypt_file` and `decrypt_file` return status 1
before the destination file is opened. -/
theorem empty_key_rejected (signedChar : Bool) (nprocOnline : Int) (fd : List Byte) :
    vigenere_encrypt_stream signedChar fd [] = some (1, []) ∧
    vigenere_decrypt_stream signedChar fd [] = some (1, []) ∧
    encrypt_file signedChar nprocOnline fd [] = some (1, none) ∧
    decrypt_file signedChar nprocOnline fd [] = some (1, none) := by
  refine ⟨?_, ?_, ?_, ?_⟩
  · simp [vigenere_encrypt_stream, vigenere_process_stream]
  · simp [vigenere_decrypt_stream, vigenere_process_stream]
  · simp [encrypt_file, vigenere_file_parallel]
  · simp [decrypt_file, vigenere_file_parallel]

/-- C13: for every buffer, non-empty key `K` and index `i` below the buffer length,
`vigenere_process_block` keeps the length and sets byte `i` to
`(in[i] + K[i mod len K]) mod 256` when encrypting and `(in[i] - K[i mod len K]) mod 256`
when decrypting, the key byte taken as an unsigned value, whether plain `char` is signed
or not. -/
theorem vigenere_block_bytewise (signedChar : Bool) (data K : List Byte) (encrypt : Bool)
    (_hK : K ≠ []) (i : Nat) (hi : i < data.length) :
    (vigenere_process_block signedChar data K encrypt).length = data.length ∧
    (((vigenere_process_block signedChar data K encrypt).getD i 0).val : Int)
      = if encrypt = true then
          (((data.getD i 0).val : Int) + ((K.getD (i % K.length) 0).val : Int)) % 256
        else (((data.getD i 0).val : Int) - ((K.getD (i % K.length) 0).val : Int)) % 256 := by
  obtain ⟨hl, hg⟩ := vigenere_process_block_spec signedChar data K encrypt
  refine ⟨hl, ?_⟩
  rw [hg i hi]
  exact vigByte_val signedChar K encrypt i (data.getD i 0)

theorem vigenere_block_bytewise_witness :
    ([0x4B, 0xF5, 0x59] : List Byte) ≠ [] ∧ 1 < ([1, 2, 3, 250, 255] : List Byte).length ∧
    (vigenere_process_block true [1, 2, 3, 250, 255] [0x4B, 0xF5, 0x59] true).length
      = ([1, 2, 3, 250, 255] : List Byte).length ∧
    (((vigenere_process_block true [1, 2, 3, 250, 255] [0x4B, 0xF5, 0x59] true).getD 1 0).val
        : Int)
      = if true = true then
          (((([1, 2, 3, 250, 255] : List Byte).getD 1 0).val : Int)
            + (((([0x4B, 0xF5, 0x59] : List Byte).getD
                (1 % ([0x4B, 0xF5, 0x59] : List Byte).length) 0).val : Int))) % 256
        else
          (((([1, 2, 3, 250, 255] : List Byte).getD 1 0).val : Int)
            - (((([0x4B, 0xF5, 0x59] : List Byte).getD
                (1 % ([0x4B, 0xF5, 0x59] : List Byte).length) 0).val : Int))) % 256 :=
  ⟨by decide, by decide,
    vigenere_block_bytewise true [1, 2, 3, 250, 255] [0x4B, 0xF5, 0x59] true (by decide) 1
      (by decide)⟩

/-- C15: the status of the region scheduler is 0 exactly when every worker code is 0, and
otherwise the code of the first worker whose code is not 0; every dispatched worker is run
and contributes its code to the join loop, whose result `vigenere_file_parallel` returns
in parallel mode. -/
theorem scheduler_status (rcs : List Nat) :
    (joinAll rcs = 0 ↔ ∀ rc ∈ rcs, rc = 0) ∧
    (∀ (pre : List Nat) (rc : Nat) (post : List Nat), rcs = pre ++ rc :: post →
      (∀ x ∈ pre, x = 0) → rc ≠ 0 → joinAll rcs = rc) ∧
    (∀ (signedChar : Bool) (src key : List Byte) (encrypt : Bool)
      (tasks : List FileBlockTask) (dst : List Byte),
      ∃ (codes : List Nat) (dst1 : List Byte),
        runTasks signedChar src key encrypt tasks dst = some (codes, dst1) ∧
        codes.length = tasks.length) ∧
    (∀ (signedChar : Bool) (nprocOnline : Int) (src key : List Byte) (encrypt : Bool),
      key ≠ [] →
      ¬ (src.length = 0 ∨ src.length < PARALLEL_FILE_THRESHOLD ∨ clampNproc nprocOnline = 1) →
      ∃ (codes : List Nat) (dst1 : List Byte),
        runTasks signedChar src key encrypt
          (fileRegions src.length (clampNproc nprocOnline).toNat)
          (List.replicate src.length 0) = some (codes, dst1) ∧
        vigenere_file_parallel signedChar nprocOnline src key encrypt
          = some (joinAll codes, some dst1)) := by
  refine ⟨joinAll_eq_zero_iff rcs, ?_, ?_, ?_⟩
  · intro pre rc post e hpre hrc
    rw [e]
    exact joinAll_first_nonzero pre rc post hpre hrc
  · intro signedChar src key encrypt tasks dst
    exact runTasks_total signedChar src key encrypt tasks dst
  · intro signedChar nprocOnline src key encrypt hkey hpar
    obtain ⟨codes, d1, h1, _⟩ := runTasks_total signedChar src key encrypt
      (fileRegions src.length (clampNproc nprocOnline).toNat) (List.replicate src.length 0)
    refine ⟨codes, d1, h1, ?_⟩
    rw [vigenere_file_parallel]
    simp only [hkey, if_false, hpar, h1]

/-- C14: the mode decision and the region list of `vigenere_file_parallel` depend on the
file size `F` and the processing-unit count `n` only.  With `n` clamped to `[1, 8]`, the
file is processed sequentially exactly when `F` is below 1 MiB or the clamped count is 1;
otherwise there are `min n 8` workers, `chunk = ceil (F / workers)`, and worker `i` gets
`[i * chunk, min ((i + 1) * chunk) F)`. -/
theorem plan_of_size_and_units (F : Nat) (n : Int) :
    clampNproc n = max 1 (min n 8) ∧
    (∀ (signedChar : Bool) (src key : List Byte) (encrypt : Bool), key ≠ [] →
      src.length = F →
      vigenere_file_parallel signedChar n src key encrypt
        = match cipherPlan F n with
          | none =>
            (vigenere_process_stream signedChar src key encrypt).map
              (fun r => (r.1, some r.2))
          | some regions =>
            (runTasks signedChar src key encrypt regions (List.replicate F 0)).map
              (fun r => (joinAll r.1, some r.2))) ∧
    (cipherPlan F n = none ↔ (F < 1048576 ∨ clampNproc n = 1)) ∧
    (¬ (F < 1048576 ∨ clampNproc n = 1) →
      clampNproc n = min n 8 ∧
      cipherPlan F n = some
        ((List.range (clampNproc n).toNat).map
          (fun i =>
            (⟨i * ((F + (clampNproc n).toNat - 1) / (clampNproc n).toNat),
              min ((i + 1) * ((F + (clampNproc n).toNat - 1) / (clampNproc n).toNat)) F
                - i * ((F + (clampNproc n).toNat - 1) / (clampNproc n).toNat)⟩
              : FileBlockTask)))) := by
  have hT : PARALLEL_FILE_THRESHOLD = 1048576 := rfl
  have hclamp : clampNproc n = max 1 (min n 8) := by
    simp only [clampNproc, MAX_CRYPTO_THREADS]
    split <;> split <;> simp_all <;> omega
  obtain ⟨hlo, hhi⟩ := clampNproc_range n
  refine ⟨hclamp, ?_, ?_, ?_⟩
  · intro signedChar src key encrypt hkey hlen
    subst hlen
    exact vigenere_file_parallel_plan signedChar n src key encrypt hkey
  · rw [cipherPlan, hT]
    constructor
    · intro h
      by_contra hne
      have : ¬ (F = 0 ∨ F < 1048576 ∨ clampNproc n = 1) := by
        intro h3
        rcases h3 with h3 | h3 | h3
        · exact hne (Or.inl (by omega))
        · exact hne (Or.inl h3)
        · exact hne (Or.inr h3)
      simp only [this, if_false] at h
      exact Option.noConfusion h
    · intro h
      have : F = 0 ∨ F < 1048576 ∨ clampNproc n = 1 := by
        rcases h with h | h
        · exact Or.inr (Or.inl h)
        · exact Or.inr (Or.inr h)
      simp only [this, if_true]
  · intro hpar
    have hF : 1048576 ≤ F := by
      by_contra h
      exact hpar (Or.inl (by omega))
    have hn1 : clampNproc n ≠ 1 := fun h => hpar (Or.inr h)
    have hmin : clampNproc n = min n 8 := by omega
    refine ⟨hmin, ?_⟩
    have hnot : ¬ (F = 0 ∨ F < 1048576 ∨ clampNproc n = 1) := by
      intro h3
      rcases h3 with h3 | h3 | h3
      · omega
      · omega
      · exact hn1 h3
    rw [cipherPlan, hT]
    simp only [hnot, if_false, fileRegions]
    rw [taskLoop_eq_map, List.range_eq_range']
    intro j hj
    exact parallel_offsets_in_file F (clampNproc n).toNat hF (by omega) (by omega) j
      (by omega)

/-- C18: a block with payload length 0 (tag RAW or RUN, or any other tag) is a no-op:
inserting it at a block boundary, that is after the header and any sequence of blocks
that the decompressor passes over, changes neither the status nor the output of
`rle2_decompress_stream`. -/
theorem empty_block_noop (pre : List Block) (hpre : ∀ b ∈ pre, b.Valid ∨ b.payload = [])
    (tag : Byte) (rest : List Byte) :
    rle2_decompress_stream (RLE2_MAGIC ++ (blocksWire pre ++ (Block.wire ⟨tag, []⟩ ++ rest)))
      = rle2_decompress_stream (RLE2_MAGIC ++ (blocksWire pre ++ rest)) := by
  have h8 : RLE2_MAGIC.length = 8 := rfl
  have hread1 := read_all_append RLE2_MAGIC (blocksWire pre ++ (Block.wire ⟨tag, []⟩ ++ rest))
  have hread2 := read_all_append RLE2_MAGIC (blocksWire pre ++ rest)
  rw [h8] at hread1 hread2
  have hge := blocksWire_length_ge pre
  have hw : (Block.wire ⟨tag, []⟩).length = 5 := by simp [Block.wire, u32le_write_length]
  rw [rle2_decompress_stream, rle2_decompress_stream, hread1, hread2]
  simp only [ne_eq, not_true_eq_false, if_false]
  rw [decompressLoop_passable pre hpre _ _ []
      (by simp only [List.length_append]; omega),
    decompressLoop_passable pre hpre _ _ []
      (by simp only [List.length_append]; omega)]
  obtain ⟨m, hm⟩ : ∃ m, (blocksWire pre ++ (Block.wire ⟨tag, []⟩ ++ rest)).length + 1
      - pre.length = m + 1 :=
    ⟨(blocksWire pre ++ (Block.wire ⟨tag, []⟩ ++ rest)).length - pre.length, by
      simp only [List.length_append]; omega⟩
  rw [hm, decompressLoop_empty_block]
  have hm2 : m = (blocksWire pre ++ rest).length + 1 - pre.length + 4 := by
    simp only [List.length_append, hw] at hm ⊢
    omega
  rw [hm2]
  exact decompressLoop_fuel _ _ _ (by simp only [List.length_append]; omega) _ (by omega)

theorem empty_block_noop_witness :
    (∀ b ∈ [(⟨0x00, [0x41]⟩ : Block)], b.Valid ∨ b.payload = []) ∧
    rle2_decompress_stream
      (RLE2_MAGIC ++ (blocksWire [⟨0x00, [0x41]⟩]
        ++ (Block.wire ⟨0x01, []⟩ ++ [0x00, 0x01, 0x00, 0x00, 0x00, 0x42])))
      = rle2_decompress_stream
          (RLE2_MAGIC ++ (blocksWire [⟨0x00, [0x41]⟩]
            ++ [0x00, 0x01, 0x00, 0x00, 0x00, 0x42])) :=
  have hv : ∀ b ∈ [(⟨0x00, [0x41]⟩ : Block)], b.Valid ∨ b.payload = [] := by
    intro b hb
    rw [List.mem_singleton] at hb
    subst hb
    exact Or.inl ⟨by decide, Or.inl rfl⟩
  ⟨hv, empty_block_noop [⟨0x00, [0x41]⟩] hv 0x01 [0x00, 0x01, 0x00, 0x00, 0x00, 0x42]⟩

/-- C12: for every input `B`, `rle2_compress_stream` returns status 0 and writes the 8
magic bytes followed by one block per consecutive chunk of `B`, in input order; nothing
follows the header for empty `B` and no block has an empty payload; each block is its tag,
its payload length as 4 little-endian bytes and its payload, and it is the RUN block of
the chunk exactly when the run-transform encoding is strictly shorter than the chunk, the
RAW block otherwise. -/
theorem rle2_compress_format (B : List Byte) :
    ∃ (cs : List (List Byte)) (bs : List Block),
      IsChunking B cs ∧ List.Forall₂ IsChunkBlock cs bs ∧
      (B = [] → bs = []) ∧
      (∀ b ∈ bs, b.payload ≠ [] ∧ b.payload.length < 2 ^ 32 ∧
        b.wire = b.tag :: toByte (b.payload.length % 256)
          :: toByte (b.payload.length / 256 % 256)
          :: toByte (b.payload.length / 65536 % 256)
          :: toByte (b.payload.length / 16777216 % 256) :: b.payload) ∧
      rle2_compress_stream B = some (0, RLE2_MAGIC ++ blocksWire bs) := by
  obtain ⟨cs, bs, hcs, hfa, hpl, hres⟩ :=
    compressLoop_chunks (B.length + 1) B RLE2_MAGIC (by omega)
  refine ⟨cs, bs, hcs, hfa, ?_, ?_, hres⟩
  · intro hB
    subst hB
    obtain ⟨h1, h2, _⟩ := hcs
    have hcsnil : cs = [] := by
      rcases cs with _ | ⟨c, cs⟩
      · rfl
      · exfalso
        have hc := (h2 c (List.mem_cons_self _ _)).1
        rw [List.flatten_cons] at h1
        have := List.append_eq_nil.mp h1
        exact hc this.1
    subst hcsnil
    cases hfa
    rfl
  · intro b hb
    obtain ⟨h1, h2⟩ := hpl b hb
    refine ⟨h1, h2, ?_⟩
    simp [Block.wire, u32le_write_bytes]

/-- C19, as stated, fails: `encrypt_directory` on a directory that opens and holds one
regular file returns status 1 when the per-file operation fails (here: empty key). -/
theorem encrypt_directory_reports_failure :
    encrypt_directory true 4 true [⟨['a'], false, some StatKind.regular, [1, 2, 3]⟩] []
      = some (1, [⟨['a'], false, some StatKind.regular, [1, 2, 3]⟩]) := by
  decide

/-- C19, amended: when the source directory opens and the destination exists or is
created, `compress_directory_rle` and `decompress_directory_rle` return 0 whatever the
per-file results; `process_directory`, which `encrypt_directory` and `decrypt_directory`
run, returns 0 exactly when every started file has status 0 and otherwise the status of
the last started file whose status is not 0 (status 1 for every file when the key is
empty, status 0 for every file otherwise). -/
theorem directory_status (entries : List DirEntry) (destExists mkdirOk : Bool)
    (codes : DirEntry → Nat) (hdest : destExists = true ∨ mkdirOk = true) :
    (compress_directory_rle true destExists mkdirOk entries).1 = 0 ∧
    (decompress_directory_rle true destExists mkdirOk entries).1 = 0 ∧
    (∃ started : List DirEntry,
      started = entries.filter (fun e => decide (e.d_name.head? ≠ some '.' ∧
        e.stat = some StatKind.regular)) ∧
      process_directory (fun e => some (codes e)) true entries
        = some (joinBatch (started.map codes) 0, started) ∧
      (joinBatch (started.map codes) 0 = 0 ↔ ∀ e ∈ started, codes e = 0) ∧
      (∀ (pre : List DirEntry) (e : DirEntry) (post : List DirEntry),
        started = pre ++ e :: post → codes e ≠ 0 → (∀ x ∈ post, codes x = 0) →
        joinBatch (started.map codes) 0 = codes e) ∧
      ∀ (signedChar : Bool) (nprocOnline : Int) (key : List Byte),
        encrypt_directory signedChar nprocOnline true entries key
          = some (if started = [] then 0 else if key = [] then 1 else 0, started) ∧
        decrypt_directory signedChar nprocOnline true entries key
          = some (if started = [] then 0 else if key = [] then 1 else 0, started)) := by
  have hd : ¬ (destExists = false ∧ mkdirOk = false) := by
    intro h
    rcases hdest with h1 | h1
    · rw [h.1] at h1; exact Bool.noConfusion h1
    · rw [h.2] at h1; exact Bool.noConfusion h1
  refine ⟨by simp [compress_directory_rle, hd], by simp [decompress_directory_rle, hd],
    _, rfl, ?_, ?_, ?_, ?_⟩
  · rw [process_directory]
    simp only [Bool.true_eq_false, if_false]
    rw [processDirLoop_closed]
    simp
  · rw [joinBatch_eq_zero_iff]
    constructor
    · intro h e he
      exact h (codes e) (List.mem_map.mpr ⟨e, he, rfl⟩)
    · intro h c hc
      obtain ⟨e, he, rfl⟩ := List.mem_map.mp hc
      exact h e he
  · intro pre e post hst hne hpost
    rw [hst, List.map_append, List.map_cons]
    exact joinBatch_last_nonzero _ _ _ 0 hne (by
      intro x hx
      obtain ⟨y, hy, rfl⟩ := List.mem_map.mp hx
      exact hpost y hy)
  · intro signedChar nprocOnline key
    have hstatus : ∀ encrypt : Bool,
        process_directory
          (fun e : DirEntry =>
            (vigenere_file_parallel signedChar nprocOnline e.content key encrypt).map
              (fun r => r.1)) true entries
          = some (if entries.filter (fun e => decide (e.d_name.head? ≠ some '.' ∧
                e.stat = some StatKind.regular)) = [] then 0
              else if key = [] then 1 else 0,
              entries.filter (fun e => decide (e.d_name.head? ≠ some '.' ∧
                e.stat = some StatKind.regular))) := by
      intro encrypt
      rw [file_worker_status, process_directory]
      simp only [Bool.true_eq_false, if_false]
      rw [processDirLoop_closed (fun _ => if key = [] then 1 else 0), List.nil_append,
        List.nil_append, joinBatch_const]
    exact ⟨hstatus true, hstatus false⟩

theorem directory_status_witness :
    ((true : Bool) = true ∨ (false : Bool) = true) ∧
    (compress_directory_rle true true false scenarioDirectory).1 = 0 :=
  ⟨by decide, (directory_status scenarioDirectory true false (fun _ => 1) (by decide)).1⟩

/-- C20, as stated, fails: in the scenario directory (20 regular files, a symbolic link,
a subdirectory and a dotfile) `compress_directory_rle` starts 21 compressions, one of them
for the dotfile. -/
theorem compress_directory_takes_dotfile :
    (compress_directory_rle true true true scenarioDirectory).1 = 0 ∧
    (compress_directory_rle true true true scenarioDirectory).2.length = 21 ∧
    ['.', 'h', 'i', 'd', 'd', 'e', 'n', '.', 'r', 'l', 'e']
      ∈ (compress_directory_rle true true true scenarioDirectory).2.map
          (fun t => t.output_name) := by
  decide

/-- C20, amended: `compress_directory_rle` starts one compression, with output name
`<name>.rle`, for exactly those entries whose name is neither `.` nor `..` and for which
`stat()`, which follows symbolic links, succeeds and reports a regular file, in directory
order; every other entry is skipped. -/
theorem compress_directory_dispatch (entries : List DirEntry) (destExists mkdirOk : Bool)
    (hdest : destExists = true ∨ mkdirOk = true) :
    (compress_directory_rle true destExists mkdirOk entries).1 = 0 ∧
    (compress_directory_rle true destExists mkdirOk entries).2.map
        (fun t => (t.input_name, t.output_name))
      = (entries.filter (fun e => decide (e.d_name ≠ ['.'] ∧ e.d_name ≠ ['.', '.'] ∧
          e.stat = some StatKind.regular))).map
        (fun e => (e.d_name, e.d_name ++ ['.', 'r', 'l', 'e'])) := by
  have hd : ¬ (destExists = false ∧ mkdirOk = false) := by
    intro h
    rcases hdest with h1 | h1
    · rw [h.1] at h1; exact Bool.noConfusion h1
    · rw [h.2] at h1; exact Bool.noConfusion h1
  refine ⟨by simp [compress_directory_rle, hd], ?_⟩
  simp only [compress_directory_rle, Bool.true_eq_false, if_false, hd]
  rw [compressDirLoop_names]
  simp

theorem compress_directory_dispatch_witness :
    ((true : Bool) = true ∨ (true : Bool) = true) ∧
    (compress_directory_rle true true true scenarioDirectory).1 = 0 ∧
    (compress_directory_rle true true true scenarioDirectory).2.map
        (fun t => (t.input_name, t.output_name))
      = (scenarioDirectory.filter (fun e => decide (e.d_name ≠ ['.'] ∧
          e.d_name ≠ ['.', '.'] ∧ e.stat = some StatKind.regular))).map
        (fun e => (e.d_name, e.d_name ++ ['.', 'r', 'l', 'e'])) :=
  ⟨by decide, compress_directory_dispatch scenarioDirectory true true (by decide)⟩

/-- C16, as stated, fails: for 129 equal bytes the encoder emits a run packet of 128 bytes
and then a literal packet with the last byte of the run. -/
theorem run_of_129_ends_in_literal :
    packbits_encode_threshold (List.replicate 129 0x41) RLE2_RUN_THRESHOLD
      = some (wireOf [Packet.run 0xFF 0x41, Packet.literal 0x00 [0x41]]) ∧
    expandOf [Packet.run 0xFF 0x41, Packet.literal 0x00 [0x41]] = List.replicate 129 0x41 ∧
    ¬ RunsIsolated (List.replicate 129 0x41) 3
        [Packet.run 0xFF 0x41, Packet.literal 0x00 [0x41]] := by
  refine ⟨by set_option maxRecDepth 100000 in decide,
    by set_option maxRecDepth 100000 in decide, ?_⟩
  intro h
  have hmem : (128, Packet.literal 0x00 [0x41])
      ∈ placePackets 0 [Packet.run 0xFF 0x41, Packet.literal 0x00 [0x41]] := by
    have hl : (Packet.expand (Packet.run 0xFF 0x41)).length = 128 := by
      rw [Packet.expand, List.length_replicate]
      rfl
    simp only [placePackets, hl, Nat.zero_add]
    exact List.mem_cons_of_mem _ (List.mem_cons_self _ _)
  exact h 0 129 (isMaxRun_replicate 129 0x41 (by omega)) (by omega) 128 0x00 [0x41] hmem 128
    (by omega) (by simp) ⟨by omega, by omega⟩

/-- C16, amended: for every input and threshold 3, the encoder returns a packet sequence
in which a byte of a maximal run of `L ≥ 3` equal bytes lies in a literal packet only when
`L > 128` and `L mod 128` is 1 or 2, and then only among the last `L mod 128` bytes of the
run; every other byte of the run lies in a run packet. -/
theorem runs_kept_out_of_literals (B : List Byte) :
    ∃ ps : List Packet, (∀ p ∈ ps, p.WellFormed) ∧
      packbits_encode_threshold B RLE2_RUN_THRESHOLD = some (wireOf ps) ∧
      expandOf ps = B ∧
      ∀ s L, IsMaxRun B s L → 3 ≤ L →
        ∀ a c bs, (a, Packet.literal c bs) ∈ placePackets 0 ps →
          ∀ p, a ≤ p → p < a + bs.length → s ≤ p → p < s + L →
            128 < L ∧ 1 ≤ L % 128 ∧ L % 128 ≤ 2 ∧ s + (L - L % 128) ≤ p := by
  obtain ⟨ps, hwf, hres, hexp, htr⟩ := encode_threshold3_packets B
  refine ⟨ps, hwf, hres, hexp, ?_⟩
  intro s L hrun hL a c bs hmem p hp1 hp2 hs1 hs2
  have hpk := traceSeg_placed B 3 ps 0 B.length htr a _ hmem
  have hgood := traceSeg_good B 3 (by omega) ps 0 B.length htr (goodOffset_zero B 3) a _ hmem
  have := literal_touches_run_tail B 3 (by omega) a c bs hpk hgood s L p hrun hL hp1 hp2
    hs1 hs2
  omega

/-- C17: for every input and threshold 3, the encoder returns a packet sequence in which
every byte of a maximal run of exactly 2 equal bytes lies in a literal packet, and every
maximal run of exactly 3 equal bytes is one run packet, control byte 0x82 followed by the
value, placed at the start of the run. -/
theorem threshold_boundary (B : List Byte) :
    ∃ ps : List Packet, (∀ p ∈ ps, p.WellFormed) ∧
      packbits_encode_threshold B RLE2_RUN_THRESHOLD = some (wireOf ps) ∧
      expandOf ps = B ∧
      (∀ s, IsMaxRun B s 2 → ∀ p, s ≤ p → p < s + 2 →
        ∃ a c bs, (a, Packet.literal c bs) ∈ placePackets 0 ps ∧ a ≤ p ∧
          p < a + bs.length) ∧
      (∀ s, IsMaxRun B s 3 → (s, Packet.run 0x82 (B.getD s 0)) ∈ placePackets 0 ps ∧
        (Packet.expand (Packet.run 0x82 (B.getD s 0))).length = 3) := by
  obtain ⟨ps, hwf, hres, hexp, htr⟩ := encode_threshold3_packets B
  refine ⟨ps, hwf, hres, hexp, ?_, ?_⟩
  · intro s hrun p hp1 hp2
    have hn : s + 2 ≤ B.length := hrun.2.1
    obtain ⟨a, pk, hmem, ha1, ha2⟩ :=
      traceSeg_cover B 3 ps 0 B.length htr p (Nat.zero_le _) (by omega)
    have hpk := traceSeg_placed B 3 ps 0 B.length htr a pk hmem
    cases pk with
    | literal c bs => exact ⟨a, c, bs, hmem, ha1, ha2⟩
    | run c v =>
      exfalso
      obtain ⟨hlt, hk, hc, _⟩ := hpk
      obtain ⟨r1, r128, _, _⟩ := scanRun_spec B a 128 1
      have hel : (Packet.expand (Packet.run c v)).length = scanRun B a 128 1 := by
        rw [hc]; exact run_packet_length _ r1 (r128 (by omega)) v
      rw [hel] at ha2
      have := run_packet_within B s 2 a p hrun hlt ha1 ha2 hp1 hp2
      omega
  · intro s hrun
    have hn : s + 3 ≤ B.length := hrun.2.1
    obtain ⟨a, pk, hmem, ha1, ha2⟩ :=
      traceSeg_cover B 3 ps 0 B.length htr s (Nat.zero_le _) (by omega)
    have hpk := traceSeg_placed B 3 ps 0 B.length htr a pk hmem
    have hgood := traceSeg_good B 3 (by omega) ps 0 B.length htr (goodOffset_zero B 3) a pk hmem
    cases pk with
    | literal c bs =>
      exfalso
      have := literal_touches_run_tail B 3 (by omega) a c bs hpk hgood s 3 s hrun (by omega)
        ha1 ha2 (Nat.le_refl _) (by omega)
      omega
    | run c v =>
      obtain ⟨hlt, hk, hc, hv⟩ := hpk
      obtain ⟨r1, r128, _, _⟩ := scanRun_spec B a 128 1
      have hel : (Packet.expand (Packet.run c v)).length = scanRun B a 128 1 := by
        rw [hc]; exact run_packet_length _ r1 (r128 (by omega)) v
      rw [hel] at ha2
      obtain ⟨hsa, _⟩ := run_packet_within B s 3 a s hrun hlt ha1 ha2 (Nat.le_refl _)
        (by omega)
      have has : a = s := by omega
      subst has
      have hr := scanRun_in_run B a 3 a hrun (Nat.le_refl _) (by omega)
      have hr3 : scanRun B a 128 1 = 3 := by omega
      rw [hr3] at hc
      have hc2 : c = 0x82 := by rw [hc]; decide
      rw [hc2, hv] at hmem
      refine ⟨hmem, ?_⟩
      rw [Packet.expand, List.length_replicate]
      rfl

/-- C21: the round trip is not guaranteed across processing-unit counts.  There are a file
of 1 MiB, a non-empty key and two processing-unit counts (2 and 3) such that `encrypt_file`
with the first count and `decrypt_file` with the second both return status 0, and the
decrypted file differs from the original (at position 393216 the two runs use different
key bytes). -/
theorem roundtrip_needs_same_unit_count (signedChar : Bool) :
    ∃ (B K : List Byte) (n1 n2 : Int),
      PARALLEL_FILE_THRESHOLD ≤ B.length ∧ K ≠ [] ∧ n1 ≠ n2 ∧
      ∃ C D : List Byte, encrypt_file signedChar n1 B K = some (0, some C) ∧
        decrypt_file signedChar n2 C K = some (0, some D) ∧ D ≠ B := by
  have hK : ([0x4B, 0x45, 0x59] : List Byte) ≠ [] := by decide
  obtain ⟨C, hres, hlen, hget⟩ :=
    vigenere_file_parallel_spec signedChar 2 (List.replicate 1048576 0) [0x4B, 0x45, 0x59]
      true hK
  obtain ⟨D, hres2, hlen2, hget2⟩ :=
    vigenere_file_parallel_spec signedChar 3 C [0x4B, 0x45, 0x59] false hK
  refine ⟨List.replicate 1048576 0, [0x4B, 0x45, 0x59], 2, 3,
    by rw [List.length_replicate]; decide, hK, by decide, C, D, hres, hres2, ?_⟩
  intro hDB
  have hl : (List.replicate 1048576 (0 : Byte)).length = 1048576 := List.length_replicate _ _
  rw [hl] at hlen hget
  rw [hlen] at hget2
  have h1 := hget 393216 (by omega)
  have h2 := hget2 393216 (by omega)
  rw [hDB, h1, getD_replicate_zero] at h2
  have k1 : keyPhase 1048576 2 393216 = 0 := by decide
  have k2 : keyPhase 1048576 3 393216 = 43690 := by decide
  rw [k1, k2] at h2
  revert h2
  cases signedChar <;> decide

/-- C22: for every input of `n` bytes, `1 ≤ n ≤ 128`, without three consecutive equal
bytes, `packbits_encode_threshold` with threshold 3 returns one literal packet, the control
byte `n - 1` followed by the `n` input bytes (`n + 1` bytes), and `rle2_compress_stream`
writes the magic bytes followed by one RAW block whose payload is the input. -/
theorem no_run_single_literal (B : List Byte) (h1 : 1 ≤ B.length) (h2 : B.length ≤ 128)
    (h3 : ∀ i, i < B.length → i + 2 < B.length →
      ¬ (B.getD (i + 1) 0 = B.getD i 0 ∧ B.getD (i + 2) 0 = B.getD i 0)) :
    packbits_encode_threshold B RLE2_RUN_THRESHOLD
      = some (wireOf [Packet.literal (toByte (B.length - 1)) B]) ∧
    wireOf [Packet.literal (toByte (B.length - 1)) B] = toByte (B.length - 1) :: B ∧
    (toByte (B.length - 1) :: B).length = B.length + 1 ∧
    rle2_compress_stream B = some (0, RLE2_MAGIC ++ Block.wire ⟨0x00, B⟩) := by
  obtain ⟨ps, _, hres, _, htr⟩ := encode_threshold3_packets B
  have hscan : ∀ p, scanRun B p 128 1 < 3 := by
    intro p
    by_contra hcon
    obtain ⟨hle, hall⟩ := run_of_scanRun_ge B 3 p (by omega) (by omega)
    exact h3 p (by omega) (by omega) ⟨hall 1 (by omega), hall 2 (by omega)⟩
  have hps := traceSeg_single_literal B 3 ps h1 h2 hscan htr
  subst hps
  have hw : wireOf [Packet.literal (toByte (B.length - 1)) B] = toByte (B.length - 1) :: B := by
    simp [wireOf, Packet.wire]
  refine ⟨hres, hw, by simp, ?_⟩
  rw [hw] at hres
  have hB : RLE2_BLOCK_SIZE = 65536 := rfl
  have htake : B.take RLE2_BLOCK_SIZE = B := List.take_of_length_le (by rw [hB]; omega)
  have hdrop : B.drop RLE2_BLOCK_SIZE = [] := List.drop_of_length_le (by rw [hB]; omega)
  have hne : ¬ B.length = 0 := by omega
  have hmod : B.length % 2 ^ 32 = B.length := Nat.mod_eq_of_lt (by omega)
  obtain ⟨m, hm⟩ : ∃ m, B.length = m + 1 := ⟨B.length - 1, by omega⟩
  have hstep1 : compressLoop (m + 1 + 1) B RLE2_MAGIC
      = compressLoop (m + 1) [] (RLE2_MAGIC ++ (0x00 :: u32le_write B.length) ++ B) := by
    have hge : B.length + 1 ≥ B.length := by omega
    rw [compressLoop]
    simp only [sysRead, htake, hdrop, hne, if_false, hres, List.length_cons, hmod, hge,
      if_true, List.take_length]
  have hstep2 : ∀ out, compressLoop (m + 1) [] out = some (0, out) := by
    intro out
    rw [compressLoop]
    simp [sysRead]
  rw [rle2_compress_stream, hm, hstep1, hstep2]
  simp [Block.wire, List.append_assoc]

theorem no_run_single_literal_witness :
    (packbits_encode_threshold [1, 2, 3, 4, 5, 6, 7, 8, 9, 10] RLE2_RUN_THRESHOLD
      = some (wireOf [Packet.literal
          (toByte (([1, 2, 3, 4, 5, 6, 7, 8, 9, 10] : List Byte).length - 1))
          [1, 2, 3, 4, 5, 6, 7, 8, 9, 10]]) ∧
    wireOf [Packet.literal (toByte (([1, 2, 3, 4, 5, 6, 7, 8, 9, 10] : List Byte).length - 1))
        [1, 2, 3, 4, 5, 6, 7, 8, 9, 10]]
      = toByte (([1, 2, 3, 4, 5, 6, 7, 8, 9, 10] : List Byte).length - 1)
          :: [1, 2, 3, 4, 5, 6, 7, 8, 9, 10] ∧
    (toByte (([1, 2, 3, 4, 5, 6, 7, 8, 9, 10] : List Byte).length - 1)
        :: ([1, 2, 3, 4, 5, 6, 7, 8, 9, 10] : List Byte)).length
      = ([1, 2, 3, 4, 5, 6, 7, 8, 9, 10] : List Byte).length + 1 ∧
    rle2_compress_stream [1, 2, 3, 4, 5, 6, 7, 8, 9, 10]
      = some (0, RLE2_MAGIC ++ Block.wire ⟨0x00, [1, 2, 3, 4, 5, 6, 7, 8, 9, 10]⟩)) ∧
    (packbits_encode_threshold [0x41] RLE2_RUN_THRESHOLD
      = some (wireOf [Packet.literal (toByte (([0x41] : List Byte).length - 1)) [0x41]]) ∧
    wireOf [Packet.literal (toByte (([0x41] : List Byte).length - 1)) [0x41]]
      = toByte (([0x41] : List Byte).length - 1) :: [0x41] ∧
    (toByte (([0x41] : List Byte).length - 1) :: ([0x41] : List Byte)).length
      = ([0x41] : List Byte).length + 1 ∧
    rle2_compress_stream [0x41] = some (0, RLE2_MAGIC ++ Block.wire ⟨0x00, [0x41]⟩)) :=
  ⟨no_run_single_literal [1, 2, 3, 4, 5, 6, 7, 8, 9, 10] (by decide) (by decide) (by decide),
    no_run_single_literal [0x41] (by decide) (by decide) (by decide)⟩

/-- C23: for every input and every threshold `t` with `1 ≤ t ≤ 128`,
`packbits_encode_threshold` returns the wire form of well-formed packets that stand for the
input, in which every literal packet carries between 1 and 128 bytes and every run packet
stands for `L` bytes with `t ≤ L ≤ 128`; no run packet stands for fewer than `t` bytes. -/
theorem encoder_packet_lengths (B : List Byte) (t : Int) (h1 : 1 ≤ t) (h2 : t ≤ 128) :
    ∃ ps : List Packet, (∀ p ∈ ps, p.WellFormed) ∧
      packbits_encode_threshold B t = some (wireOf ps) ∧ expandOf ps = B ∧
      (∀ c bs, Packet.literal c bs ∈ ps → 1 ≤ bs.length ∧ bs.length ≤ 128) ∧
      (∀ c v, Packet.run c v ∈ ps →
        t ≤ ((Packet.expand (Packet.run c v)).length : Int) ∧
        (Packet.expand (Packet.run c v)).length ≤ 128) := by
  obtain ⟨ps, hres, htr⟩ := packbits_encode_trace B t
  rw [sizeOfInt_of_int t (by omega) (by omega)] at htr
  obtain ⟨hwf, hexp⟩ := traceSeg_packets B _ ps 0 B.length htr
  refine ⟨ps, hwf, hres, by simpa using hexp, ?_, ?_⟩
  · intro c bs hmem
    obtain ⟨a, ha⟩ := mem_placePackets ps 0 _ hmem
    obtain ⟨l1, l2, _, _⟩ :=
      literal_packet_length B _ a c bs (traceSeg_placed B _ ps 0 B.length htr a _ ha)
    exact ⟨l1, l2⟩
  · intro c v hmem
    obtain ⟨a, ha⟩ := mem_placePackets ps 0 _ hmem
    obtain ⟨hel, hk, h128, _, _⟩ :=
      run_packet_at_length B _ a c v (traceSeg_placed B _ ps 0 B.length htr a _ ha)
    rw [hel]
    exact ⟨by omega, h128⟩

theorem encoder_packet_lengths_witness :
    (1 : Int) ≤ 3 ∧ (3 : Int) ≤ 128 ∧
    ∃ ps : List Packet, (∀ p ∈ ps, p.WellFormed) ∧
      packbits_encode_threshold [0x41, 0x41, 0x41, 0x42, 0x43, 0x43] 3 = some (wireOf ps) ∧
      expandOf ps = [0x41, 0x41, 0x41, 0x42, 0x43, 0x43] ∧
      (∀ c bs, Packet.literal c bs ∈ ps → 1 ≤ bs.length ∧ bs.length ≤ 128) ∧
      (∀ c v, Packet.run c v ∈ ps →
        (3 : Int) ≤ ((Packet.expand (Packet.run c v)).length : Int) ∧
        (Packet.expand (Packet.run c v)).length ≤ 128) :=
  ⟨by decide, by decide,
    encoder_packet_lengths [0x41, 0x41, 0x41, 0x42, 0x43, 0x43] 3 (by decide) (by decide)⟩

/-- C24, as stated, fails for a threshold above 128: for 130 equal bytes and threshold 129
the encoder emits a literal packet of 128 bytes and a literal packet of 2 bytes, and the
first literal packet holds position 1, where a run of 129 equal bytes starts. -/
theorem literal_runs_into_long_run :
    packbits_encode_threshold (List.replicate 130 0x41) 129
      = some (wireOf [Packet.literal 0x7F (List.replicate 128 0x41),
          Packet.literal 0x01 [0x41, 0x41]]) ∧
    expandOf [Packet.literal 0x7F (List.replicate 128 0x41), Packet.literal 0x01 [0x41, 0x41]]
      = List.replicate 130 0x41 ∧
    ¬ LiteralsEndBeforeRuns (List.replicate 130 0x41) 129
        [Packet.literal 0x7F (List.replicate 128 0x41), Packet.literal 0x01 [0x41, 0x41]] := by
  obtain ⟨ps, hres, htr⟩ := packbits_encode_trace (List.replicate 130 0x41) 129
  have hk : sizeOfInt 129 = 129 := by decide
  have hlen : (List.replicate 130 (0x41 : Byte)).length = 130 := List.length_replicate _ _
  rw [hk, hlen] at htr
  have hscan : ∀ p, scanRun (List.replicate 130 0x41) p 128 1 < 129 := by
    intro p
    obtain ⟨_, r128, _, _⟩ := scanRun_spec (List.replicate 130 0x41) p 128 1
    have := r128 (by omega)
    omega
  have hps : ps = [Packet.literal 0x7F (List.replicate 128 0x41),
      Packet.literal 0x01 [0x41, 0x41]] := by
    rcases ps with _ | ⟨p1, ps1⟩
    · simp only [TraceSeg] at htr
      omega
    obtain ⟨hp1, hr1⟩ := htr
    cases p1 with
    | run c v =>
      exfalso
      have := hp1.2.1
      have := hscan 0
      omega
    | literal c bs =>
      obtain ⟨len, _, _, lle, hc, hbs, _, hexit⟩ := hp1
      have hl : len = 128 := by
        rcases hexit with he | he | he
        · rw [hlen] at he lle; omega
        · exact he
        · have := hscan (0 + len); omega
      subst hl
      have hbs2 : bs = List.replicate 128 0x41 := by
        rw [hbs, List.drop_zero, List.take_replicate]
        rfl
      have hc2 : c = 0x7F := by rw [hc]; decide
      subst hbs2 hc2
      have hel : (Packet.expand (Packet.literal 0x7F (List.replicate 128 (0x41 : Byte)))).length
          = 128 := by
        rw [Packet.expand, List.length_replicate]
      rw [hel] at hr1
      rcases ps1 with _ | ⟨p2, ps2⟩
      · simp only [TraceSeg] at hr1
        omega
      obtain ⟨hp2, hr2⟩ := hr1
      cases p2 with
      | run c v =>
        exfalso
        have := hp2.2.1
        have := hscan (0 + 128)
        omega
      | literal c bs =>
        obtain ⟨len, l1, _, lle, hc, hbs, _, hexit⟩ := hp2
        rw [hlen] at lle
        have hl : len = 2 := by
          rcases hexit with he | he | he
          · rw [hlen] at he; omega
          · omega
          · have := hscan (0 + 128 + len); omega
        subst hl
        have hbs2 : bs = [0x41, 0x41] := by
          rw [hbs, List.drop_replicate, List.take_replicate]
          rfl
        have hc2 : c = 0x01 := by rw [hc]; decide
        subst hbs2 hc2
        have hnil := traceSeg_at_end _ _ ps2 _ _ hr2 (by rw [hlen]; simp [Packet.expand])
        rw [hnil]
  subst hps
  refine ⟨hres, by set_option maxRecDepth 100000 in decide, ?_⟩
  intro h
  have hmem : (0, Packet.literal 0x7F (List.replicate 128 0x41))
      ∈ placePackets 0 [Packet.literal 0x7F (List.replicate 128 0x41),
          Packet.literal 0x01 [0x41, 0x41]] := by
    rw [placePackets]
    exact List.mem_cons_self _ _
  exact h 0 0x7F _ hmem 1 (by omega) (by rw [List.length_replicate]; omega)
    (runStartsAt_replicate 130 129 1 0x41 (by omega))

/-- C24, amended: for every input and every threshold `t ≥ 1` (an `int`), the encoder
returns a packet sequence in which no literal packet holds `t` or more consecutive equal
bytes; and when `t ≤ 128`, every literal packet ends before a position where a run of at
least `t` equal bytes starts. -/
theorem literals_hold_no_run (B : List Byte) (t : Int) (h1 : 1 ≤ t) (h2 : t ≤ 2147483647) :
    ∃ ps : List Packet, (∀ p ∈ ps, p.WellFormed) ∧
      packbits_encode_threshold B t = some (wireOf ps) ∧ expandOf ps = B ∧
      LiteralsRunFree B t.toNat ps ∧
      (t ≤ 128 → LiteralsEndBeforeRuns B t.toNat ps) := by
  obtain ⟨ps, hres, htr⟩ := packbits_encode_trace B t
  rw [sizeOfInt_of_int t (by omega) h2] at htr
  obtain ⟨hwf, hexp⟩ := traceSeg_packets B _ ps 0 B.length htr
  have hend : t ≤ 128 → LiteralsEndBeforeRuns B t.toNat ps := by
    intro h128 a c bs hmem p hp1 hp2 hrun
    obtain ⟨_, _, _, hscan⟩ :=
      literal_packet_length B _ a c bs (traceSeg_placed B _ ps 0 B.length htr a _ hmem)
    have := hscan p hp1 hp2
    have := scanRun_ge_of_run B t.toNat p (by omega) (by omega) hrun
    omega
  refine ⟨ps, hwf, hres, by simpa using hexp, ?_, hend⟩
  intro a c bs hmem p hp1 hp2 hrun
  obtain ⟨_, l2, _, _⟩ :=
    literal_packet_length B _ a c bs (traceSeg_placed B _ ps 0 B.length htr a _ hmem)
  have ht : 1 ≤ t.toNat := by omega
  exact hend (by omega) a c bs hmem p hp1 (by omega) hrun

theorem literals_hold_no_run_witness :
    (1 : Int) ≤ 3 ∧ (3 : Int) ≤ 2147483647 ∧
    ∃ ps : List Packet, (∀ p ∈ ps, p.WellFormed) ∧
      packbits_encode_threshold [0x41, 0x42, 0x42, 0x43, 0x43, 0x43] 3 = some (wireOf ps) ∧
      expandOf ps = [0x41, 0x42, 0x42, 0x43, 0x43, 0x43] ∧
      LiteralsRunFree [0x41, 0x42, 0x42, 0x43, 0x43, 0x43] (3 : Int).toNat ps ∧
      ((3 : Int) ≤ 128 →
        LiteralsEndBeforeRuns [0x41, 0x42, 0x42, 0x43, 0x43, 0x43] (3 : Int).toNat ps) :=
  ⟨by decide, by decide,
    literals_hold_no_run [0x41, 0x42, 0x42, 0x43, 0x43, 0x43] 3 (by decide) (by decide)⟩

/-- C25: in sequential mode the key phase restarts at every 64 KiB window counted from the
start of the file.  For every input `B` and non-empty key `K`, `vigenere_process_stream`
returns status 0 and writes as many bytes as `B` has, and the byte at position `p` is
`(B[p] + K[(p mod 65536) mod len K]) mod 256` when encrypting and
`(B[p] - K[(p mod 65536) mod len K]) mod 256` when decrypting. -/
theorem stream_key_phase (signedChar : Bool) (B K : List Byte) (encrypt : Bool)
    (hK : K ≠ []) :
    ∃ C : List Byte, vigenere_process_stream signedChar B K encrypt = some (0, C) ∧
      C.length = B.length ∧
      ∀ p, p < B.length →
        ((C.getD p 0).val : Int)
          = if encrypt = true then
              (((B.getD p 0).val : Int)
                + ((K.getD ((p % VIGENERE_BLOCK_SIZE) % K.length) 0).val : Int)) % 256
            else
              (((B.getD p 0).val : Int)
                - ((K.getD ((p % VIGENERE_BLOCK_SIZE) % K.length) 0).val : Int)) % 256 := by
  obtain ⟨C, hres, hlen, hget⟩ := vigenere_process_stream_spec signedChar B K encrypt hK
  refine ⟨C, hres, hlen, ?_⟩
  intro p hp
  rw [hget p hp, vigByte_val]
  rfl

theorem stream_key_phase_witness :
    ([0x4B, 0x45, 0x59] : List Byte) ≠ [] ∧
    ∃ C : List Byte,
      vigenere_process_stream true (List.replicate 70000 0x41) [0x4B, 0x45, 0x59] true
        = some (0, C) ∧
      C.length = (List.replicate 70000 (0x41 : Byte)).length ∧
      ∀ p, p < (List.replicate 70000 (0x41 : Byte)).length →
        ((C.getD p 0).val : Int)
          = if true = true then
              ((((List.replicate 70000 (0x41 : Byte)).getD p 0).val : Int)
                + ((([0x4B, 0x45, 0x59] : List Byte).getD
                    ((p % VIGENERE_BLOCK_SIZE) % ([0x4B, 0x45, 0x59] : List Byte).length)
                    0).val : Int)) % 256
            else
              ((((List.replicate 70000 (0x41 : Byte)).getD p 0).val : Int)
                - ((([0x4B, 0x45, 0x59] : List Byte).getD
                    ((p % VIGENERE_BLOCK_SIZE) % ([0x4B, 0x45, 0x59] : List Byte).length)
                    0).val : Int)) % 256 :=
  ⟨by decide, stream_key_phase true (List.replicate 70000 0x41) [0x4B, 0x45, 0x59] true
    (by decide)⟩

/-- C26: for every input of `n` bytes, `packbits_encode_threshold` with the configured
threshold 3 returns at most `n + ceil(n / 128)` bytes, none for the empty input; hence the
encoding of a block of at most `RLE2_BLOCK_SIZE` bytes fits the buffer of
`2 * RLE2_BLOCK_SIZE` bytes that `rle2_compress_stream` allocates. -/
theorem packbits_encode_size (B : List Byte) :
    ∃ enc : List Byte, packbits_encode_threshold B RLE2_RUN_THRESHOLD = some enc ∧
      enc.length ≤ B.length + (B.length + 127) / 128 ∧
      (B = [] → enc = []) ∧
      (B.length ≤ RLE2_BLOCK_SIZE → enc.length ≤ 2 * RLE2_BLOCK_SIZE) := by
  obtain ⟨ps, _, hres, _, htr⟩ := encode_threshold3_packets B
  obtain ⟨hsz, _⟩ := traceSeg_size B 3 (by omega) ps 0 htr (Nat.zero_le _)
  have hB : RLE2_BLOCK_SIZE = 65536 := rfl
  refine ⟨wireOf ps, hres, by simpa using hsz, ?_, ?_⟩
  · intro hnil
    subst hnil
    rw [traceSeg_at_end [] 3 ps 0 _ htr (by simp)]
    rfl
  · intro hle
    rw [hB] at hle ⊢
    have : (wireOf ps).length ≤ B.length + (B.length + 127) / 128 := by simpa using hsz
    omega

/-- C27 fails on the code: a RUN block whose payload is 2049 run packets of 128 bytes each
(4098 bytes) is accepted by `rle2_decompress_stream`, `packbits_decode` decodes it with
status 0, and the decoded length is 262272 bytes, more than the `4 * RLE2_BLOCK_SIZE`
(262144) bytes of the buffer the decompressor decodes into. -/
theorem run_block_decodes_past_buffer :
    (wireOf (List.replicate 2049 (Packet.run 0xFF 0x41))).length = 4098 ∧
    packbits_decode (wireOf (List.replicate 2049 (Packet.run 0xFF 0x41)))
      = some (Except.ok (List.replicate 262272 0x41)) ∧
    rle2_decompress_stream
        (RLE2_MAGIC ++ Block.wire ⟨0x01, wireOf (List.replicate 2049 (Packet.run 0xFF 0x41))⟩)
      = some (0, List.replicate 262272 0x41) ∧
    4 * RLE2_BLOCK_SIZE < (List.replicate 262272 (0x41 : Byte)).length := by
  obtain ⟨hlen, hexp⟩ := full_runs 0x41 2049
  have hwf : ∀ p ∈ List.replicate 2049 (Packet.run 0xFF 0x41), p.WellFormed := by
    intro p hp
    rw [List.eq_of_mem_replicate hp]
    show (0xFF : Byte).val &&& 0x80 ≠ 0
    decide
  have hdec := packbits_decode_wire _ hwf
  rw [hexp] at hdec
  have hvalid : ∀ b ∈ [(⟨0x01, wireOf (List.replicate 2049 (Packet.run 0xFF 0x41))⟩ : Block)],
      b.Valid := by
    intro b hb
    rw [List.mem_singleton] at hb
    subst hb
    exact ⟨by rw [hlen]; decide, Or.inr ⟨rfl, _, hdec⟩⟩
  have hstream := rle2_decompress_blocks _ hvalid
  obtain ⟨hbd, hbw⟩ := blocksDecoded_run_block _ _ hdec
  rw [hbd, hbw] at hstream
  refine ⟨hlen, hdec, hstream, ?_⟩
  rw [List.length_replicate]
  decide

/-- C28: in parallel mode (file size `F ≥ 1 MiB`, worker count `n` with `2 ≤ n ≤ 8`) the
partition loop of `vigenere_file_parallel` creates exactly `n` regions: region `i` starts
at `i * chunk` with `chunk = ceil(F / n)`, every region except the last has exactly `chunk`
bytes, and the last has between 1 and `chunk` bytes. -/
theorem parallel_region_count (F n : Nat) (hF : PARALLEL_FILE_THRESHOLD ≤ F) (h2 : 2 ≤ n)
    (h8 : n ≤ MAX_CRYPTO_THREADS) :
    cipherPlan F (n : Int) = some (fileRegions F n) ∧
    (fileRegions F n).length = n ∧
    (∀ i, i + 1 < n →
      (fileRegions F n)[i]? = some ⟨i * ((F + n - 1) / n), (F + n - 1) / n⟩) ∧
    (fileRegions F n)[n - 1]?
      = some ⟨(n - 1) * ((F + n - 1) / n), F - (n - 1) * ((F + n - 1) / n)⟩ ∧
    1 ≤ F - (n - 1) * ((F + n - 1) / n) ∧
    F - (n - 1) * ((F + n - 1) / n) ≤ (F + n - 1) / n := by
  have hT : PARALLEL_FILE_THRESHOLD = 1048576 := rfl
  have hM : MAX_CRYPTO_THREADS = 8 := rfl
  rw [hT] at hF
  rw [hM] at h8
  have hoff := parallel_offsets_in_file F n hF (by omega) h8
  have hceil := (ceil_chunk F n (by omega)).1
  have hclamp : clampNproc (n : Int) = (n : Int) := by
    simp only [clampNproc, hM]
    have a1 : ¬ ((n : Int) < 1) := by omega
    have a2 : ¬ ((n : Int) > ((8 : Nat) : Int)) := by omega
    rw [if_neg a1, if_neg a2]
  have hlast := hoff (n - 1) (by omega)
  have hmul : n * ((F + n - 1) / n) = (n - 1) * ((F + n - 1) / n) + (F + n - 1) / n := by
    obtain ⟨m, rfl⟩ : ∃ m, n = m + 1 := ⟨n - 1, by omega⟩
    rw [Nat.add_sub_cancel, Nat.succ_mul]
  refine ⟨?_, ?_, ?_, ?_, by omega, by omega⟩
  · have hpar : ¬ (F = 0 ∨ F < PARALLEL_FILE_THRESHOLD ∨ clampNproc (n : Int) = 1) := by
      rw [hclamp, hT]
      omega
    simp only [cipherPlan]
    rw [if_neg hpar, hclamp, Int.toNat_ofNat]
  · rw [fileRegions_parallel F n hF (by omega) h8, List.length_map, List.length_range]
  · intro i hi
    rw [fileRegions_parallel F n hF (by omega) h8, List.getElem?_map,
      List.getElem?_range (by omega)]
    simp only [Option.map_some', hi, if_true]
  · rw [fileRegions_parallel F n hF (by omega) h8, List.getElem?_map,
      List.getElem?_range (by omega)]
    have : ¬ (n - 1 + 1 < n) := by omega
    simp only [Option.map_some', this, if_false]

theorem parallel_region_count_witness :
    PARALLEL_FILE_THRESHOLD ≤ 5000000 ∧ 2 ≤ 4 ∧ 4 ≤ MAX_CRYPTO_THREADS ∧
    cipherPlan 5000000 ((4 : Nat) : Int) = some (fileRegions 5000000 4) ∧
    (fileRegions 5000000 4).length = 4 ∧
    (∀ i, i + 1 < 4 →
      (fileRegions 5000000 4)[i]?
        = some ⟨i * ((5000000 + 4 - 1) / 4), (5000000 + 4 - 1) / 4⟩) ∧
    (fileRegions 5000000 4)[4 - 1]?
      = some ⟨(4 - 1) * ((5000000 + 4 - 1) / 4),
          5000000 - (4 - 1) * ((5000000 + 4 - 1) / 4)⟩ ∧
    1 ≤ 5000000 - (4 - 1) * ((5000000 + 4 - 1) / 4) ∧
    5000000 - (4 - 1) * ((5000000 + 4 - 1) / 4) ≤ (5000000 + 4 - 1) / 4 :=
  ⟨by decide, by decide, by decide,
    parallel_region_count 5000000 4 (by decide) (by decide) (by decide)⟩

/-- C29: whenever `chunk = ceil(F / n)` is a multiple of `VIGENERE_BLOCK_SIZE`, the
region-parallel cipher (the workers of `vigenere_file_parallel` over the regions of the
file) returns status 0 and produces byte for byte the output of the sequential
`vigenere_process_stream`, for every file content, every non-empty key and both modes. -/
theorem parallel_matches_sequential (signedChar : Bool) (nprocOnline : Int)
    (src key : List Byte) (encrypt : Bool) (hkey : key ≠ [])
    (hF : PARALLEL_FILE_THRESHOLD ≤ src.length) (hn : clampNproc nprocOnline ≠ 1)
    (hdiv : VIGENERE_BLOCK_SIZE ∣
      (src.length + (clampNproc nprocOnline).toNat - 1) / (clampNproc nprocOnline).toNat) :
    ∃ (rcs : List Nat) (C : List Byte),
      runTasks signedChar src key encrypt
          (fileRegions src.length (clampNproc nprocOnline).toNat)
          (List.replicate src.length 0) = some (rcs, C) ∧
      vigenere_file_parallel signedChar nprocOnline src key encrypt
        = some (joinAll rcs, some C) ∧
      joinAll rcs = 0 ∧
      vigenere_process_stream signedChar src key encrypt = some (0, C) := by
  obtain ⟨C, hres, hlen, hget⟩ :=
    vigenere_file_parallel_spec signedChar nprocOnline src key encrypt hkey
  obtain ⟨D, hres2, hlen2, hget2⟩ := vigenere_process_stream_spec signedChar src key encrypt hkey
  have hCD : D = C := by
    apply ext_getD (by rw [hlen2, hlen])
    intro p hp
    rw [hlen2] at hp
    rw [hget2 p hp, hget p hp, keyPhase_of_dvd _ _ _ hdiv]
    rfl
  have hpar : ¬ (src.length = 0 ∨ src.length < PARALLEL_FILE_THRESHOLD
      ∨ clampNproc nprocOnline = 1) := by
    have : PARALLEL_FILE_THRESHOLD = 1048576 := rfl
    omega
  have hplan := hres
  rw [vigenere_file_parallel] at hplan
  simp only [hkey, if_false, hpar] at hplan
  rcases hrun : runTasks signedChar src key encrypt
      (fileRegions src.length (clampNproc nprocOnline).toNat)
      (List.replicate src.length 0) with _ | ⟨rcs, dst⟩
  · rw [hrun] at hplan
    simp at hplan
  · rw [hrun] at hplan
    simp only [Option.some.injEq, Prod.mk.injEq] at hplan
    obtain ⟨h1, h2⟩ := hplan
    subst h2
    refine ⟨rcs, dst, rfl, ?_, h1, ?_⟩
    · rw [hres, h1]
    · rw [hres2, hCD]

theorem parallel_matches_sequential_witness :
    ([0x4B, 0x45, 0x59] : List Byte) ≠ [] ∧
    PARALLEL_FILE_THRESHOLD ≤ (List.replicate 1048576 (0x41 : Byte)).length ∧
    clampNproc 2 ≠ 1 ∧
    VIGENERE_BLOCK_SIZE ∣
      ((List.replicate 1048576 (0x41 : Byte)).length + (clampNproc 2).toNat - 1)
        / (clampNproc 2).toNat ∧
    ∃ (rcs : List Nat) (C : List Byte),
      runTasks true (List.replicate 1048576 0x41) [0x4B, 0x45, 0x59] false
          (fileRegions (List.replicate 1048576 (0x41 : Byte)).length (clampNproc 2).toNat)
          (List.replicate (List.replicate 1048576 (0x41 : Byte)).length 0) = some (rcs, C) ∧
      vigenere_file_parallel true 2 (List.replicate 1048576 0x41) [0x4B, 0x45, 0x59] false
        = some (joinAll rcs, some C) ∧
      joinAll rcs = 0 ∧
      vigenere_process_stream true (List.replicate 1048576 0x41) [0x4B, 0x45, 0x59] false
        = some (0, C) :=
  ⟨by decide, by rw [List.length_replicate]; decide, by decide,
    by rw [List.length_replicate]; decide,
    parallel_matches_sequential true 2 (List.replicate 1048576 0x41) [0x4B, 0x45, 0x59] false
      (by decide) (by rw [List.length_replicate]; decide) (by decide)
      (by rw [List.length_replicate]; decide)⟩

/-- C30: the combined operations invert each other.  For every file content `B`, non-empty
key `K` and processing-unit count, `main` with the operation letters `c` and `e` in either
order (compress, then encrypt) exits with status 0 and writes a file `E`, and `main` with
the letters `u` and `d` in either order (decrypt, then decompress) and the same key, run
on `E`, exits with status 0 and writes `B`. -/
theorem combined_roundtrip (signedChar : Bool) (n : Int) (B K : List Byte)
    (ops1 ops2 : List Char) (hK : K ≠ []) (h1 : ops1.Perm ['c', 'e'])
    (h2 : ops2.Perm ['u', 'd']) :
    ∃ E : List Byte, main signedChar n ops1 (some K) B = some (0, some E) ∧
      main signedChar n ops2 (some K) E = some (0, some B) := by
  obtain ⟨Z, hc, hd⟩ := file_codec_inverse B
  obtain ⟨E, he, hu⟩ := file_cipher_inverse signedChar n Z K hK
  have f1c : has_flag ops1 'c' = true := by rw [has_flag_perm _ _ h1]; decide
  have f1e : has_flag ops1 'e' = true := by rw [has_flag_perm _ _ h1]; decide
  have f1d : has_flag ops1 'd' = false := by rw [has_flag_perm _ _ h1]; decide
  have f2u : has_flag ops2 'u' = true := by rw [has_flag_perm _ _ h2]; decide
  have f2d : has_flag ops2 'd' = true := by rw [has_flag_perm _ _ h2]; decide
  refine ⟨E, ?_, ?_⟩
  · simp [main, f1c, f1e, f1d, hc, he]
  · simp [main, f2u, f2d, hu, hd]

theorem combined_roundtrip_witness :
    ([0x4B, 0x45, 0x59] : List Byte) ≠ [] ∧ (['e', 'c'] : List Char).Perm ['c', 'e'] ∧
    (['d', 'u'] : List Char).Perm ['u', 'd'] ∧
    ∃ E : List Byte,
      main true 4 ['e', 'c'] (some [0x4B, 0x45, 0x59]) [0x41, 0x41, 0x41, 0x41, 0x42]
        = some (0, some E) ∧
      main true 4 ['d', 'u'] (some [0x4B, 0x45, 0x59]) E
        = some (0, some [0x41, 0x41, 0x41, 0x41, 0x42]) :=
  ⟨by decide, List.Perm.swap _ _ _, List.Perm.swap _ _ _,
    combined_roundtrip true 4 [0x41, 0x41, 0x41, 0x41, 0x42] [0x4B, 0x45, 0x59]
      ['e', 'c'] ['d', 'u'] (by decide) (List.Perm.swap _ _ _) (List.Perm.swap _ _ _)⟩

end GSEA
